import Mathlib

/-!
Verification of the `stt-rs` dynamic-forest library specification.

This file gives a shallow embedding of the core data structures of the
repository (2-cut search trees on trees, their rotation primitive, the
monoid path-weight node data, the move-to-root and splay restructuring
strategies, the standard dynamic forest composition, the simple one-cut
forest, the link-cut forest and the rooted STT forest) and proves or
refutes the frozen claims about them.

Conventions:
  * Machine integers (`usize` node indices) are modelled as `Nat`.
  * `Option` models both `Option` in the source and panics/assertion
    failures of fallible operations (a `none` result of an
    `Option`-returning operation means the Rust code would panic).
  * `debug_assert!` statements are no-ops in release builds and are
    modelled as no-ops; `assert!` statements abort in every build and are
    modelled as a `none` result.
  * Loops whose termination is a theorem (not a syntactic property) take
    explicit fuel; exhausting the fuel yields `none`.
-/

namespace SttRs

/-- Mirrors `WeightOrInfinity` from `src/stt/src/common.rs`:
a weight extended with an infinity element. -/
inductive WInf (W : Type) where
  | infinite
  | finite (w : W)
deriving DecidableEq, Repr

namespace WInf

/-- Mirrors `impl ops::Add<Self> for WeightOrInfinity`: finite + finite adds,
anything involving infinity is infinite. -/
def add {W : Type} [Add W] : WInf W → WInf W → WInf W
  | finite a, finite b => finite (a + b)
  | _, _ => infinite

/-- Mirrors `WeightOrInfinity::unwrap`: panics (`none`) on infinity. -/
def unwrap? {W : Type} : WInf W → Option W
  | infinite => none
  | finite w => some w

end WInf

/-- Update one entry of a pointer map. -/
def upd (f : Nat → Option Nat) (x : Nat) (y : Option Nat) : Nat → Option Nat :=
  fun z => if z = x then y else f z

/-- Mirrors the helper `opt_is_different` from `src/stt/src/twocut/basic.rs`. -/
def optIsDifferent (opt : Option Nat) (expected : Nat) : Bool :=
  match opt with
  | some x => x ≠ expected
  | none => false

/-- The structural part of a 2-cut STT forest
(`struct Node`/`struct STT` in `src/stt/src/twocut/basic.rs`):
per node a parent pointer, a direct-separator-child pointer and an
indirect-separator-child pointer.  Node data is carried separately by the
structures that need it. -/
@[ext]
structure STT where
  n : Nat
  parent : Nat → Option Nat
  dsep : Nat → Option Nat
  isep : Nat → Option Nat

namespace STT

/-- Mirrors `STTStructureRead::is_direct_separator`. -/
def isDirectSep (t : STT) (v : Nat) : Bool :=
  match t.parent v with
  | some p => t.dsep p = some v
  | none => false

/-- Mirrors `STTStructureRead::is_indirect_separator`. -/
def isIndirectSep (t : STT) (v : Nat) : Bool :=
  match t.parent v with
  | some p => t.isep p = some v
  | none => false

/-- Mirrors `STTStructureRead::is_separator`. -/
def isSep (t : STT) (v : Nat) : Bool :=
  t.isDirectSep v || t.isIndirectSep v

/-- Mirrors `STTRotate::can_rotate`: `v` must have a parent, and `v` is a
separator or its parent is not. -/
def canRotate (t : STT) (v : Nat) : Bool :=
  match t.parent v with
  | some p => t.isSep v || !(t.isSep p)
  | none => false

/-- The "Change parents" block of `rotate` (`gp` and `c` are the values
read before any modification). -/
def rotParents (t : STT) (v p : Nat) (gp c : Option Nat) : STT :=
  let par1 := upd t.parent p (some v)
  let par2 := upd par1 v gp
  let par3 := match c with
    | some c0 => upd par2 c0 (some p)
    | none => par2
  { t with parent := par3 }

/-- The "Change separator information for children of gp" block of
`rotate`. -/
def rotGp (t : STT) (v p : Nat) (gp : Option Nat) : STT :=
  match gp with
  | some g =>
    if t.dsep g = some p then { t with dsep := upd t.dsep g (some v) }
    else if t.isep g = some p then { t with isep := upd t.isep g (some v) }
    else t
  | none => t

/-- The "Change separator information for children of p" block of
`rotate` (the read of `isep_child` of `p` in the `else if` happens after
the `dsep` write, which leaves `isep` untouched). -/
def rotP (t : STT) (v p : Nat) (c : Option Nat) : STT :=
  let oldPDsep := t.dsep p
  let t3 : STT := { t with dsep := upd t.dsep p c }
  if optIsDifferent oldPDsep v then { t3 with isep := upd t3.isep p oldPDsep }
  else if t3.isep p = some v then { t3 with isep := upd t3.isep p none }
  else t3

/-- The "Change separator information for children of v" block of
`rotate` (`oldPDsep` and `pWasSep` are the values read earlier). -/
def rotV (t : STT) (v p : Nat) (gp oldPDsep : Option Nat) (pWasSep : Bool) : STT :=
  match gp with
  | some _ =>
    if oldPDsep ≠ some v then { t with dsep := upd t.dsep v (some p) }
    else
      let t4a : STT := { t with dsep := upd t.dsep v (t.isep v) }
      if pWasSep then { t4a with isep := upd t4a.isep v (some p) }
      else { t4a with isep := upd t4a.isep v none }
  | none => { t with dsep := upd t.dsep v none }

/-- The "Change separator information for children of c" block of
`rotate`. -/
def rotC (t : STT) (c : Option Nat) : STT :=
  match c with
  | some c0 =>
    { t with dsep := upd t.dsep c0 (t.isep c0), isep := upd t.isep c0 (t.dsep c0) }
  | none => t

/-- The infallible body of `STTRotate::rotate for STT`
(`src/stt/src/twocut/basic.rs`, lines 136–205), given the parent `p` of
`v`: the five update blocks of the source, applied in source order, with
the values `pWasSep`, `gp`, `c` and `old_p_dsep` read at the points where
the source reads them. -/
def rotateAt (t : STT) (v p : Nat) : STT :=
  let pWasSep := t.isSep p
  let gp := t.parent p
  let c := t.dsep v
  let t1 := rotParents t v p gp c
  let t2 := rotGp t1 v p gp
  let oldPDsep := t2.dsep p
  let t5 := rotV (rotP t2 v p c) v p gp oldPDsep pWasSep
  rotC t5 c

/-- Mirrors `STTRotate::rotate for STT`: returns `none` when `v` has no
parent (the source unwraps and panics). -/
def rotate (t : STT) (v : Nat) : Option STT :=
  (t.parent v).map (fun p => t.rotateAt v p)

/-- Mirrors `STT::attach` (release build: the `debug_assert` is a no-op). -/
def attach (t : STT) (child parent : Nat) : STT :=
  { t with parent := upd t.parent child (some parent) }

/-- Mirrors `STT::detach` (release build). -/
def detach (t : STT) (v : Nat) : STT :=
  { t with parent := upd t.parent v none }

end STT

/-- The inner `while t.is_separator( v ) { t.rotate( v ); }` loop of
`make_1_cut` (`src/stt/src/twocut/basic.rs`, lines 358–364), with fuel. -/
def rotWhileSep : Nat → STT → Nat → Option STT
  | 0, t, v => if t.isSep v then none else some t
  | fuel + 1, t, v =>
    if t.isSep v then (t.rotate v).bind (fun t2 => rotWhileSep fuel t2 v)
    else some t

/-- Mirrors `make_1_cut`: for each node, rotate it up while it is a
separator.  Fuel `t.n` per node (shown sufficient for well-formed trees). -/
def make1cut (t : STT) : Option STT :=
  (List.range t.n).foldlM (fun s v => rotWhileSep s.n s v) t

/-- Update one entry of a weight map. -/
def updWI {W : Type} (f : Nat → WInf W) (x : Nat) (y : WInf W) : Nat → WInf W :=
  fun z => if z = x then y else f z

/-- A 2-cut STT whose nodes carry `MonoidPathWeightNodeData`
(`src/stt/src/twocut/node_data.rs`): per node a distance `pdist` to its
parent and a distance `adist` to its adjacent ancestor. -/
structure WSTT (W : Type) where
  s : STT
  pd : Nat → WInf W
  ad : Nat → WInf W

namespace WSTT

/-- The infallible body of `MonoidPathWeightNodeData::before_rotation`
(`src/stt/src/twocut/node_data.rs`, lines 45–78), given the parent `p` of
`v`, in source order: first the direct-separator child's `pdist`/`adist` are
swapped, then the old data of `v` and `p` is read, then `p.pdist` is set,
and finally `v` (and possibly `p.adist`) are updated depending on whether
`v` is the direct-separator child of `p`. -/
def beforeRotationAt {W : Type} [Add W] (t : WSTT W) (v p : Nat) : WSTT W :=
  let t1 :=
    match t.s.dsep v with
    | some c => { t with pd := updWI t.pd c (t.ad c), ad := updWI t.ad c (t.pd c) }
    | none => t
  let oldVpd := t1.pd v
  let oldVad := t1.ad v
  let oldPpd := t1.pd p
  let oldPad := t1.ad p
  let t2 := { t1 with pd := updWI t1.pd p oldVpd }
  if t.s.dsep p = some v then
    { t2 with pd := updWI t2.pd v oldVad, ad := updWI t2.ad v (oldVpd.add oldPad) }
  else
    { t2 with pd := updWI t2.pd v (oldVpd.add oldPpd), ad := updWI t2.ad p oldPpd }

/-- Mirrors `MonoidPathWeightNodeData::before_rotation`: panics (`none`)
when `v` has no parent. -/
def beforeRotation {W : Type} [Add W] (t : WSTT W) (v : Nat) : Option (WSTT W) :=
  match t.s.parent v with
  | none => none
  | some p => some (t.beforeRotationAt v p)

/-- Mirrors `MonoidPathWeightNodeData::after_attached`. -/
def afterAttached {W : Type} (t : WSTT W) (v : Nat) (w : W) : WSTT W :=
  { t with pd := updWI t.pd v (.finite w) }

/-- Mirrors `MonoidPathWeightNodeData::before_detached`: only `pdist` is set
to infinity. -/
def beforeDetached {W : Type} (t : WSTT W) (v : Nat) : WSTT W :=
  { t with pd := updWI t.pd v .infinite }

/-- Mirrors `STTRotate for StandardDynamicForest`
(`src/stt/src/twocut/mod.rs`, lines 120–128): run the node-data callback,
then the structural rotation. -/
def rotate {W : Type} [Add W] (t : WSTT W) (v : Nat) : Option (WSTT W) := do
  let t1 ← t.beforeRotation v
  let s2 ← t1.s.rotate v
  pure { t1 with s := s2 }

/-- Mirrors `PathWeightNodeData::get_parent_path_weight` for the monoid node
data: unwrap `pdist` (panic on infinity). -/
def ppw? {W : Type} (t : WSTT W) (v : Nat) : Option W :=
  (t.pd v).unwrap?

/-- A fresh forest (`StandardDynamicForest::new`): no pointers, all
distances infinite. -/
def init (W : Type) (n : Nat) : WSTT W :=
  { s := { n := n, parent := fun _ => none, dsep := fun _ => none, isep := fun _ => none },
    pd := fun _ => .infinite, ad := fun _ => .infinite }

end WSTT

/-- Interface shared by all the structures that contain a 2-cut STT and
support rotations on it: mirrors the Rust trait bound
`STTRotate + STTStructureRead`.  `core` projects out the structural STT;
`core_rotate` states that `rotate` acts on the structure exactly as the
basic `STT::rotate` (the instances only add node-data bookkeeping). -/
class SttView (S : Type) where
  core : S → STT
  rotate : S → Nat → Option S
  core_rotate : ∀ s v, (rotate s v).map core = (core s).rotate v

instance : SttView STT where
  core := id
  rotate := STT.rotate
  core_rotate := by
    intro s v
    cases h : s.rotate v <;> simp [h]

/-- Structural parent read, through the view. -/
def vParent {S : Type} [SttView S] (s : S) (v : Nat) : Option Nat :=
  (SttView.core s).parent v

/-- Structural direct-separator-child read, through the view. -/
def vDsep {S : Type} [SttView S] (s : S) (v : Nat) : Option Nat :=
  (SttView.core s).dsep v

/-- Structural indirect-separator-child read, through the view. -/
def vIsep {S : Type} [SttView S] (s : S) (v : Nat) : Option Nat :=
  (SttView.core s).isep v

/-- `is_separator`, through the view. -/
def vIsSep {S : Type} [SttView S] (s : S) (v : Nat) : Bool :=
  (SttView.core s).isSep v

/-- `is_direct_separator`, through the view. -/
def vIsDirectSep {S : Type} [SttView S] (s : S) (v : Nat) : Bool :=
  (SttView.core s).isDirectSep v

/-- `can_rotate`, through the view. -/
def vCanRotate {S : Type} [SttView S] (s : S) (v : Nat) : Bool :=
  (SttView.core s).canRotate v

instance {W : Type} [Add W] : SttView (WSTT W) where
  core := WSTT.s
  rotate := WSTT.rotate
  core_rotate := by
    intro t v
    unfold WSTT.rotate WSTT.beforeRotation
    cases h : t.s.parent v with
    | none =>
      have : t.s.rotate v = none := by
        unfold STT.rotate
        simp [h]
      simp [this, h]
    | some p =>
      have hs : (t.beforeRotationAt v p).s = t.s := by
        unfold WSTT.beforeRotationAt
        split <;> split <;> rfl
      simp only [h, Option.some_bind, hs]
      cases hr : t.s.rotate v <;> simp [hs, hr]

/-! ### Restructuring strategies

The strategies mirror `src/stt/src/twocut/mtrtt.rs` and
`src/stt/src/twocut/splaytt.rs`.  They are generic over `SttView`, as the
Rust code is generic over `STTRotate + STTStructureRead`.  The loops take
fuel; exhausting it yields `none` (the corresponding Rust loop would
simply not have terminated yet). -/

/-- Modelled from the spec: `is_separator_hint(v, p)` is called by
`MoveToRootStrategy::move_step` (`src/stt/src/twocut/mtrtt.rs`, lines
54–69) but its definition is not among the sources under `src/`.  Per
§4.3.1 of the spec the move-to-root step tests whether the node is a
separator; the already-looked-up parent `p` serves as a hint, so this is
`is_separator` with the parent lookup replaced by `p`. -/
def isSepHint {S : Type} [SttView S] (s : S) (v p : Nat) : Bool :=
  vDsep s p = some v || vIsep s p = some v

/-- The inner loop of `MoveToRootStrategy::move_step`: rotate `p` as long
as `p` is a separator. -/
def mtrFixP {S : Type} [SttView S] : Nat → S → Nat → Option S
  | 0, _, _ => none
  | fuel + 1, s, p =>
    match vParent s p with
    | some g =>
      if isSepHint s p g then do
        let s1 ← SttView.rotate s p
        mtrFixP fuel s1 p
      else some s
    | none => some s

/-- Mirrors `MoveToRootStrategy::move_step`. -/
def moveStep {S : Type} [SttView S] (fuel : Nat) (s : S) (v p : Nat) : Option S := do
  let s1 ← if isSepHint s v p then some s else mtrFixP fuel s p
  SttView.rotate s1 v

/-- Mirrors `MoveToRootStrategy::node_to_root` (also its
`StableNTRStrategy` impl, which delegates to it). -/
def mtrNtr {S : Type} [SttView S] : Nat → S → Nat → Option S
  | 0, s, v => match vParent s v with | none => some s | some _ => none
  | fuel + 1, s, v =>
    match vParent s v with
    | none => some s
    | some p => do
      let s1 ← moveStep (fuel + 1) s v p
      mtrNtr fuel s1 v

/-- Mirrors `MoveToRootStrategy::node_below_root`: panics (via
`get_parent(v).unwrap()`) when `v` is a root. -/
def mtrNbr {S : Type} [SttView S] : Nat → S → Nat → Option S
  | 0, _, _ => none
  | fuel + 1, s, v =>
    match vParent s v with
    | none => none
    | some p =>
      match vParent s p with
      | some _ => do
        let s1 ← moveStep (fuel + 1) s v p
        mtrNbr fuel s1 v
      | none => some s

/-- Mirrors `SplayTarget` from `src/stt/src/twocut/splaytt.rs`. -/
inductive SplayTarget where
  | belowRoot
  | root
deriving DecidableEq

/-- Mirrors `can_splay_step`. -/
def canSplayStep {S : Type} [SttView S] (s : S) (x p g : Nat) : Bool :=
  !(vIsSep s g) || (vIsSep s x && vIsSep s p)

/-- Mirrors `splay_step`: two rotations that raise `x` two levels. -/
def splayStep {S : Type} [SttView S] (s : S) (x : Nat) : Option S := do
  let p ← vParent s x
  let s1 ←
    if vIsDirectSep s x then SttView.rotate s x
    else SttView.rotate s p
  SttView.rotate s1 x

/-- Mirrors `SplayResult` from `GreedySplayStrategy`. -/
inductive SplayResult where
  | success
  | failed
  | done
deriving DecidableEq

/-- Mirrors `GreedySplayStrategy::try_splay`. -/
def greedyTrySplay {S : Type} [SttView S] (s : S) (v : Nat) (target : SplayTarget) :
    Option (SplayResult × S) :=
  match vParent s v with
  | some p =>
    match vParent s p with
    | some g =>
      if target = .root || (vParent s g).isSome then
        if canSplayStep s v p g then do
          let s1 ← splayStep s v
          pure (.success, s1)
        else pure (.failed, s)
      else do
        let s1 ← SttView.rotate s v
        pure (.done, s1)
    | none =>
      if target = .root then do
        let s1 ← SttView.rotate s v
        pure (.done, s1)
      else pure (.done, s)
  | none => pure (.done, s)

/-- Mirrors `GreedySplayStrategy::move_to`. -/
def greedyMoveTo {S : Type} [SttView S] : Nat → S → Nat → SplayTarget → Option S
  | 0, _, _, _ => none
  | fuel + 1, s, v, target => do
    let (r, s1) ← greedyTrySplay s v target
    match r with
    | .success => greedyMoveTo fuel s1 v target
    | .done => pure s1
    | .failed => do
      let p ← vParent s1 v
      let (r2, s2) ← greedyTrySplay s1 p target
      if r2 = .failed then do
        let g ← vParent s2 p
        let s3 ← splayStep s2 g
        greedyMoveTo fuel s3 v target
      else greedyMoveTo fuel s2 v target

/-- `GreedySplayStrategy::node_to_root` (used by both the extended and the
stable impls). -/
def greedyNtr {S : Type} [SttView S] (fuel : Nat) (s : S) (v : Nat) : Option S :=
  greedyMoveTo fuel s v .root

/-- `GreedySplayStrategy::node_below_root`. -/
def greedyNbr {S : Type} [SttView S] (fuel : Nat) (s : S) (v : Nat) : Option S :=
  greedyMoveTo fuel s v .belowRoot

/-- Mirrors `TwoPassSplayStrategy::find_next_branching_node` (identical in
`StableTwoPassSplayStrategy`): walk up while rotation is allowed; the
parent of the stopping node, if any, is the next branching node. -/
def findNextBranching {S : Type} [SttView S] : Nat → S → Nat → Option (Option Nat)
  | 0, _, _ => none
  | fuel + 1, s, v =>
    if vCanRotate s v then
      match vParent s v with
      | some p => findNextBranching fuel s p
      | none => none
    else some (vParent s v)

/-- Mirrors `TwoPassSplayStrategy::branching_step`. -/
def tpBranchingStep {S : Type} [SttView S] (s : S) (v : Nat) (target : SplayTarget) :
    Option S := do
  let p ← vParent s v
  let g ← vParent s p
  if !(vIsSep s p) && vIsSep s g then SttView.rotate s v
  else if (vParent s g) = none then
    match target with
    | .belowRoot => SttView.rotate s v
    | .root => splayStep s v
  else splayStep s v

/-- The `while let Some( b ) = b_opt` loop of
`TwoPassSplayStrategy::move_to`, starting from a known branching node `b`:
perform a branching step on `b`; while `b` remains a separator it stays the
current branching node, otherwise look for the next one above it. -/
def tpFirstFrom {S : Type} [SttView S] : Nat → S → Nat → SplayTarget → Option S
  | 0, _, _, _ => none
  | fuel + 1, s, b, target => do
    let s1 ← tpBranchingStep s b target
    if vIsSep s1 b then tpFirstFrom fuel s1 b target
    else
      match ← findNextBranching (fuel + 1) s1 b with
      | none => pure s1
      | some b2 => tpFirstFrom fuel s1 b2 target

/-- The second pass of `TwoPassSplayStrategy::move_to`: splay `v` to the
target. -/
def tpSecondPass {S : Type} [SttView S] : Nat → S → Nat → SplayTarget → Option S
  | 0, _, _, _ => none
  | fuel + 1, s, v, target =>
    match vParent s v with
    | some p =>
      match vParent s p with
      | some g =>
        if target = .root || (vParent s g).isSome then do
          let s1 ← splayStep s v
          tpSecondPass fuel s1 v target
        else SttView.rotate s v
      | none =>
        if target = .root then SttView.rotate s v
        else some s
    | none => some s

/-- Mirrors `TwoPassSplayStrategy::move_to`. -/
def tpMoveTo {S : Type} [SttView S] (fuel : Nat) (s : S) (v : Nat) (target : SplayTarget) :
    Option S := do
  let s1 ←
    match ← findNextBranching fuel s v with
    | none => pure s
    | some b => tpFirstFrom fuel s b target
  tpSecondPass fuel s1 v target

/-- `TwoPassSplayStrategy::node_to_root`. -/
def tpNtr {S : Type} [SttView S] (fuel : Nat) (s : S) (v : Nat) : Option S :=
  tpMoveTo fuel s v .root

/-- `TwoPassSplayStrategy::node_below_root`. -/
def tpNbr {S : Type} [SttView S] (fuel : Nat) (s : S) (v : Nat) : Option S :=
  tpMoveTo fuel s v .belowRoot

/-- Mirrors `StableTwoPassSplayStrategy::branching_step`. -/
def stpBranchingStep {S : Type} [SttView S] (s : S) (v : Nat) : Option S := do
  let p ← vParent s v
  let g ← vParent s p
  if !(vIsSep s p) && vIsSep s g then SttView.rotate s v
  else splayStep s v

/-- The second phase of `StableTwoPassSplayStrategy::node_to_root`. -/
def stpSecond {S : Type} [SttView S] : Nat → S → Nat → Option S
  | 0, _, _ => none
  | fuel + 1, s, v =>
    match vParent s v with
    | some p =>
      match vParent s p with
      | some _ => do
        let s1 ← splayStep s v
        stpSecond fuel s1 v
      | none => SttView.rotate s v
    | none => some s

/-- The first phase of `StableTwoPassSplayStrategy::node_to_root`,
continuing from a known branching node. -/
def stpFirstFrom {S : Type} [SttView S] : Nat → S → Nat → Option S
  | 0, _, _ => none
  | fuel + 1, s, b => do
    let s1 ← stpBranchingStep s b
    if vIsSep s1 b then stpFirstFrom fuel s1 b
    else
      match ← findNextBranching (fuel + 1) s1 b with
      | none => pure s1
      | some b2 => stpFirstFrom fuel s1 b2

/-- Mirrors `StableTwoPassSplayStrategy::node_to_root`. -/
def stpNtr {S : Type} [SttView S] (fuel : Nat) (s : S) (v : Nat) : Option S := do
  let s1 ←
    match ← findNextBranching fuel s v with
    | none => pure s
    | some b => stpFirstFrom fuel s b
  stpSecond fuel s1 v

/-- Mirrors `LocalTwoPassSplayStrategy::move_to`. -/
def ltpMoveTo {S : Type} [SttView S] : Nat → S → Nat → SplayTarget → Option S
  | 0, _, _, _ => none
  | fuel + 1, s, v, target =>
    match vParent s v with
    | some p =>
      match vParent s p with
      | some g =>
        if target = .root || (vParent s g).isSome then
          if canSplayStep s v p g then do
            let s1 ← splayStep s v
            ltpMoveTo fuel s1 v target
          else
            if vIsSep s p then do
              let s1 ← splayStep s p
              ltpMoveTo fuel s1 v target
            else do
              let s1 ← tpBranchingStep s g target
              ltpMoveTo fuel s1 v target
        else SttView.rotate s v
      | none =>
        if target = .root then SttView.rotate s v
        else some s
    | none => some s

/-- `LocalTwoPassSplayStrategy::node_to_root`. -/
def ltpNtr {S : Type} [SttView S] (fuel : Nat) (s : S) (v : Nat) : Option S :=
  ltpMoveTo fuel s v .root

/-- `LocalTwoPassSplayStrategy::node_below_root`. -/
def ltpNbr {S : Type} [SttView S] (fuel : Nat) (s : S) (v : Nat) : Option S :=
  ltpMoveTo fuel s v .belowRoot

/-- Mirrors `StableLocalTwoPassSplayStrategy::branching_step`. -/
def sltpBranchingStep {S : Type} [SttView S] (s : S) (v : Nat) : Option S := do
  let p ← vParent s v
  let g ← vParent s p
  if !(vIsSep s p) && vIsSep s g then SttView.rotate s v
  else splayStep s v

/-- Mirrors `StableLocalTwoPassSplayStrategy::node_to_root`. -/
def sltpNtr {S : Type} [SttView S] : Nat → S → Nat → Option S
  | 0, _, _ => none
  | fuel + 1, s, v =>
    match vParent s v with
    | some p =>
      match vParent s p with
      | some g =>
        if canSplayStep s v p g then do
          let s1 ← splayStep s v
          sltpNtr fuel s1 v
        else
          if vIsSep s p then do
            let s1 ← splayStep s p
            sltpNtr fuel s1 v
          else do
            let s1 ← sltpBranchingStep s g
            sltpNtr fuel s1 v
      | none => SttView.rotate s v
    | none => some s

/-! ### The standard dynamic forest composition (`src/stt/src/twocut/mod.rs`)

The readers and operations are parameterised over the strategy functions,
exactly as the Rust code is parameterised over `TNTRImpl`/`TCPWImpl`. -/

/-- Mirrors `NodesToTopPWImpl::compute_path_weight`
(`src/stt/src/twocut/mod.rs`, lines 278–296): raise `v`, bail out with
`None` if `u` is (still) a root, raise `u` below the root and read `u`'s
parent path weight if its parent is `v`.  Returns the query answer and the
resulting state. -/
def nodesToTopCPW {S W : Type} [SttView S] (ntr nbr : S → Nat → Option S)
    (pdist : S → Nat → Option W) (s : S) (u v : Nat) : Option (Option W × S) := do
  let s1 ← ntr s v
  if vParent s1 u = none then pure (none, s1)
  else do
    let s2 ← nbr s1 u
    if vParent s2 u = some v then do
      let w ← pdist s2 u
      pure (some w, s2)
    else pure (none, s2)

/-- The summation loop of `StableNodesToTopPWImpl::compute_path_weight`:
walk from `x` to the root, adding up parent path weights. -/
def stableClimb {S W : Type} [SttView S] [AddCommMonoid W] (pdist : S → Nat → Option W) :
    Nat → S → Nat → W → Option (Nat × W)
  | 0, _, _, _ => none
  | fuel + 1, s, x, acc =>
    match vParent s x with
    | none => some (x, acc)
    | some p => do
      let w ← pdist s x
      stableClimb pdist fuel s p (acc + w)

/-- Mirrors `StableNodesToTopPWImpl::compute_path_weight`
(`src/stt/src/twocut/mod.rs`, lines 311–336): raise `u`, then `v`, then sum
parent path weights from `u` up to the root and check that the root is
`v`. -/
def stableCPW {S W : Type} [SttView S] [AddCommMonoid W] (ntr : S → Nat → Option S)
    (pdist : S → Nat → Option W) (fuel : Nat) (s : S) (u v : Nat) :
    Option (Option W × S) := do
  let s1 ← ntr s u
  let s2 ← ntr s1 v
  let (x, w) ← stableClimb pdist fuel s2 u 0
  if x = v then pure (some w, s2) else pure (none, s2)

/-- Mirrors `StandardDynamicForest::link` (`src/stt/src/twocut/mod.rs`,
lines 156–163): raise `u` and `v`; the `assert!` (active in all build
profiles) aborts if `u` still has a parent; otherwise attach `u` under `v`
and update the node data. -/
def stdLink {W : Type} [Add W] (ntr : WSTT W → Nat → Option (WSTT W))
    (t : WSTT W) (u v : Nat) (w : W) : Option (WSTT W) := do
  let t1 ← ntr t u
  let t2 ← ntr t1 v
  if t2.s.parent u = none then
    pure (WSTT.afterAttached { t2 with s := t2.s.attach u v } u w)
  else none

/-- Mirrors `StandardDynamicForest::cut` (`src/stt/src/twocut/mod.rs`,
lines 165–172), parameterised by the `edge_to_top` implementation
(`edgeToTop t2 v u` is called, as in the source).  The two `assert!`s are
active in all build profiles. -/
def stdCut {W : Type} [Add W] (edgeToTop : WSTT W → Nat → Nat → Option (WSTT W))
    (t : WSTT W) (u v : Nat) : Option (WSTT W) := do
  let t1 ← edgeToTop t v u
  if t1.s.dsep u = none then
    if t1.s.parent u = some v then
      pure { (WSTT.beforeDetached t1 u) with s := (WSTT.beforeDetached t1 u).s.detach u }
    else none
  else none

/-- Mirrors `ExtendedNTRImplementation::edge_to_top`. -/
def extEdgeToTop {S : Type} [SttView S] (ntr nbr : S → Nat → Option S)
    (s : S) (u v : Nat) : Option S := do
  let s1 ← ntr s u
  nbr s1 v

/-- Mirrors `StableNTRImplementation::edge_to_top`. -/
def stableEdgeToTop {S : Type} [SttView S] (ntr : S → Nat → Option S)
    (s : S) (u v : Nat) : Option S := do
  let s1 ← ntr s v
  ntr s1 u

/-! ### The simple one-cut forest (`src/stt/src/onecut.rs`) -/

/-- `SimpleDynamicTree`: each tree is stored as a rooting of itself, with a
parent pointer and a parent distance per node. -/
structure OneCut (W : Type) where
  n : Nat
  parent : Nat → Option Nat
  pd : Nat → WInf W

namespace OneCut

/-- Mirrors `SimpleDynamicTree::rotate`: rotate `v` with its parent, which
must be a root. -/
def rotate {W : Type} (t : OneCut W) (v : Nat) : Option (OneCut W) := do
  let p ← t.parent v
  let pd1 := updWI t.pd p (t.pd v)
  let pd2 := updWI pd1 v .infinite
  pure { t with parent := upd (upd t.parent p (some v)) v none, pd := pd2 }

/-- Mirrors `SimpleDynamicTree::move_to_root` (recursion on the parent
chain, with fuel). -/
def moveToRoot {W : Type} : Nat → OneCut W → Nat → Option (OneCut W)
  | 0, t, v => match t.parent v with | none => some t | some _ => none
  | fuel + 1, t, v =>
    match t.parent v with
    | none => some t
    | some p => do
      let t1 ← moveToRoot fuel t p
      t1.rotate v

/-- Mirrors `SimpleDynamicTree::link` (`src/stt/src/onecut.rs`, lines
115–119): move `u` to its root, then attach it below `v`.  There is no
assertion of any kind: linking two nodes of the same tree is not
detected. -/
def link {W : Type} (fuel : Nat) (t : OneCut W) (u v : Nat) (w : W) : Option (OneCut W) := do
  let t1 ← moveToRoot fuel t u
  pure { t1 with parent := upd t1.parent u (some v), pd := updWI t1.pd u (.finite w) }

/-- A fresh `SimpleDynamicTree`. -/
def init (W : Type) (n : Nat) : OneCut W :=
  { n := n, parent := fun _ => none, pd := fun _ => .infinite }

end OneCut

/-! ### The link-cut forest (`src/stt/src/link_cut.rs`)

Modelled with `IMPL_EVERT = true` and `MonoidPathWeightLCTNodeData`
(anything the claims touch).  `debug_assert!`s are no-ops; `assert!`s and
`unwrap`s yield `none`. -/

/-- A link-cut forest node: parent, left/right children, lazy reverse bit,
and monoid path-weight data. -/
structure LCT (W : Type) where
  n : Nat
  parent : Nat → Option Nat
  left : Nat → Option Nat
  right : Nat → Option Nat
  rev : Nat → Bool
  pd : Nat → WInf W
  ad : Nat → WInf W

namespace LCT

/-- Update one entry of a bit map. -/
def updB (f : Nat → Bool) (x : Nat) (y : Bool) : Nat → Bool :=
  fun z => if z = x then y else f z

/-- Mirrors `LinkCutForest::reverse`. -/
def reverse {W : Type} (t : LCT W) (v : Nat) : LCT W :=
  { t with rev := updB t.rev v (!t.rev v) }

/-- Mirrors `LinkCutForest::push_reverse_bit`. -/
def pushRev {W : Type} (t : LCT W) (v : Nat) : LCT W :=
  if t.rev v then
    let t1 : LCT W :=
      { t with rev := updB t.rev v false,
               left := upd t.left v (t.right v), right := upd t.right v (t.left v) }
    let t2 := match t1.left v with | some c => t1.reverse c | none => t1
    match t2.right v with | some c => t2.reverse c | none => t2
  else t

/-- Mirrors `LinkCutForest::is_non_middle_child_hint`. -/
def isNonMiddleChildHint {W : Type} (t : LCT W) (v p : Nat) : Bool :=
  t.left p = some v || t.right p = some v

/-- Mirrors `LinkCutForest::is_non_middle_child`. -/
def isNonMiddleChild {W : Type} (t : LCT W) (v : Nat) : Bool :=
  match t.parent v with
  | some p => t.isNonMiddleChildHint v p
  | none => false

/-- Mirrors `LinkCutForest::is_left_child` (release build: the
`debug_assert` on the reverse bit is a no-op). -/
def isLeftChild {W : Type} (t : LCT W) (v : Nat) : Bool :=
  match t.parent v with
  | some p => t.left p = some v
  | none => false

/-- Mirrors `LinkCutForest::get_parent_if_non_middle_child`. -/
def getParentIfNonMiddleChild {W : Type} (t : LCT W) (v : Nat) : Option Nat :=
  match t.parent v with
  | some p => if t.isNonMiddleChildHint v p then some p else none
  | none => none

/-- Mirrors `MonoidPathWeightLCTNodeData::before_rotation`
(`src/stt/src/link_cut.rs`, lines 618–669). -/
def beforeRotationData {W : Type} [Add W] (t : LCT W) (v : Nat) : Option (LCT W) := do
  let p ← t.parent v
  let t1 := match t.parent p with | some g => t.pushRev g | none => t
  let t2 := (t1.pushRev p).pushRev v
  let cOpt := if t2.isLeftChild v then t2.right v else t2.left v
  let t3 := match cOpt with
    | some c => { t2 with pd := updWI t2.pd c (t2.ad c), ad := updWI t2.ad c (t2.pd c) }
    | none => t2
  let oVpd := t3.pd v
  let oVad := t3.ad v
  let oPpd := t3.pd p
  let oPad := t3.ad p
  let t4 := { t3 with pd := updWI t3.pd p oVpd }
  if (decide (t4.left p = some v)) ≠ t4.isLeftChild p then
    pure { t4 with pd := updWI t4.pd v oVad, ad := updWI t4.ad v (oVpd.add oPad) }
  else
    pure { t4 with pd := updWI t4.pd v (oVpd.add oPpd), ad := updWI t4.ad p oPpd }

/-- Mirrors `LinkCutForest::rotate` (`src/stt/src/link_cut.rs`, lines
172–223): node-data callback first, then the BST rotation with
reverse-bit pushing. -/
def rotate {W : Type} [Add W] (t0 : LCT W) (v : Nat) : Option (LCT W) := do
  let t ← t0.beforeRotationData v
  let p ← t.parent v
  let gOpt := t.parent p
  let t1 : LCT W := { t with parent := upd t.parent v gOpt }
  let t2 :=
    match gOpt with
    | some g =>
      let ta := t1.pushRev g
      if ta.left g = some p then { ta with left := upd ta.left g (some v) }
      else if ta.right g = some p then { ta with right := upd ta.right g (some v) }
      else ta
    | none => t1
  let t3 := (t2.pushRev p).pushRev v
  let t4 : LCT W := { t3 with parent := upd t3.parent p (some v) }
  if t4.left p = some v then
    let t5 :=
      match t4.right v with
      | some c => { t4 with parent := upd t4.parent c (some p), left := upd t4.left p (some c) }
      | none => { t4 with left := upd t4.left p none }
    pure { t5 with right := upd t5.right v (some p) }
  else
    let t5 :=
      match t4.left v with
      | some c => { t4 with parent := upd t4.parent c (some p), right := upd t4.right p (some c) }
      | none => { t4 with right := upd t4.right p none }
    pure { t5 with left := upd t5.left v (some p) }

/-- Mirrors `LinkCutForest::splay_solid`, with fuel.  Returns the parent of
`v` after splaying (if any) and the new state. -/
def splaySolid {W : Type} [Add W] : Nat → LCT W → Nat → Option (Option Nat × LCT W)
  | 0, _, _ => none
  | fuel + 1, t, v =>
    match t.parent v with
    | some p =>
      if t.isNonMiddleChildHint v p then
        match t.getParentIfNonMiddleChild p with
        | some g =>
          let t1 := (t.pushRev g).pushRev p
          if t1.left p = some v then
            if t1.left g = some p then do
              let t2 ← t1.rotate p
              let t3 ← t2.rotate v
              splaySolid fuel t3 v
            else do
              let t2 ← t1.rotate v
              let t3 ← t2.rotate v
              splaySolid fuel t3 v
          else if t1.right p = some v then
            if t1.right g = some p then do
              let t2 ← t1.rotate p
              let t3 ← t2.rotate v
              splaySolid fuel t3 v
            else do
              let t2 ← t1.rotate v
              let t3 ← t2.rotate v
              splaySolid fuel t3 v
          else splaySolid fuel t1 v
        | none => do
          let t1 ← t.rotate v
          splaySolid fuel t1 v
      else pure (some p, t)
    | none => pure (none, t)

/-- Mirrors `LinkCutForest::try_splice` (the monoid `before_splice` only
contains a `debug_assert`). -/
def trySplice {W : Type} (t : LCT W) (v : Nat) : Option Nat × LCT W :=
  match t.parent v with
  | some p =>
    let t1 := t.pushRev p
    (some p, { t1 with right := upd t1.right p (some v) })
  | none => (none, t)

/-- The first phase of `LinkCutForest::node_to_root`: splay within solid
subtrees up to the root. -/
def ntrSplayPhase {W : Type} [Add W] : Nat → LCT W → Nat → Option (LCT W)
  | 0, _, _ => none
  | fuel + 1, t, x => do
    let (pOpt, t1) ← t.splaySolid (fuel + 1) x
    match pOpt with
    | some p => ntrSplayPhase fuel t1 p
    | none => pure t1

/-- The second phase of `LinkCutForest::node_to_root`: splice up to the
root. -/
def ntrSplicePhase {W : Type} : Nat → LCT W → Nat → Option (LCT W)
  | 0, _, _ => none
  | fuel + 1, t, x =>
    match t.trySplice x with
    | (some p, t1) => ntrSplicePhase fuel t1 p
    | (none, t1) => some t1

/-- Mirrors `LinkCutForest::node_to_root` (`src/stt/src/link_cut.rs`,
lines 302–319). -/
def nodeToRoot {W : Type} [Add W] (fuel : Nat) (t : LCT W) (v : Nat) : Option (LCT W) := do
  let t1 ← ntrSplayPhase fuel t v
  let t2 ← ntrSplicePhase fuel t1 v
  let (_, t3) ← t2.splaySolid fuel v
  pure t3

/-- Mirrors `LinkCutForest::evert`. -/
def evert {W : Type} [Add W] (fuel : Nat) (t : LCT W) (v : Nat) : Option (LCT W) := do
  let t1 ← nodeToRoot fuel t v
  match t1.left v with
  | some c => pure { (t1.reverse c) with left := upd (t1.reverse c).left v none }
  | none => pure t1

/-- Mirrors `LinkCutForest::link` (`src/stt/src/link_cut.rs`, lines
513–525): the same-tree check is only a `debug_assert!`, hence a no-op
here (release build). -/
def link {W : Type} [Add W] (fuel : Nat) (t : LCT W) (u v : Nat) (w : W) : Option (LCT W) := do
  let t1 ← nodeToRoot fuel t u
  let t2 ← t1.nodeToRoot fuel v
  let t3 ← t2.evert fuel u
  pure { t3 with parent := upd t3.parent u (some v), pd := updWI t3.pd u (.finite w) }

/-- Mirrors `MonoidPathWeightLCTNodeData::before_detached`: only `pdist` is
set to infinity. -/
def beforeDetached {W : Type} (t : LCT W) (v : Nat) : LCT W :=
  { t with pd := updWI t.pd v .infinite }

/-- The summation loop of `LinkCutForest::compute_path_weight`. -/
def climb {W : Type} [AddCommMonoid W] : Nat → LCT W → Nat → W → Option (Nat × W)
  | 0, _, _, _ => none
  | fuel + 1, t, x, acc =>
    match t.parent x with
    | none => some (x, acc)
    | some p => do
      let w ← (t.pd x).unwrap?
      climb fuel t p (acc + w)

/-- Mirrors `LinkCutForest::compute_path_weight` (`src/stt/src/link_cut.rs`,
lines 547–565). -/
def computePathWeight {W : Type} [AddCommMonoid W] (fuel : Nat) (t : LCT W) (u v : Nat) :
    Option (Option W × LCT W) := do
  let t1 ← nodeToRoot fuel t u
  let t2 ← t1.nodeToRoot fuel v
  let (x, w) ← climb fuel t2 u 0
  if x = v then pure (some w, t2) else pure (none, t2)

/-- A fresh link-cut forest. -/
def init (W : Type) (n : Nat) : LCT W :=
  { n := n, parent := fun _ => none, left := fun _ => none, right := fun _ => none,
    rev := fun _ => false, pd := fun _ => .infinite, ad := fun _ => .infinite }

end LCT

/-! ### The rooted STT forest (`src/stt/src/twocut/rooted.rs`) -/

/-- A 2-cut STT whose nodes carry `RootedNodeData` (`desc_root`). -/
structure RSTT where
  s : STT
  dr : Nat → Option Nat

namespace RSTT

/-- Mirrors `STTRotate for BasicRootedDynamicForest`
(`src/stt/src/twocut/rooted.rs`, lines 54–75): update `desc_root` of `v`
and possibly `p`, then rotate structurally. -/
def rotate (t : RSTT) (v : Nat) : Option RSTT := do
  let p ← t.s.parent v
  let oldVdr := t.dr v
  let dr1 := upd t.dr v (t.dr p)
  let dr2 :=
    if oldVdr.isSome then
      match t.s.dsep v with
      | some c => if dr1 c = none then upd dr1 p none else dr1
      | none => upd dr1 p none
    else dr1
  let s2 ← t.s.rotate v
  pure { s := s2, dr := dr2 }

/-- A fresh rooted forest (`RootedNodeData::new( v )` sets
`desc_root = Some( v )`). -/
def init (n : Nat) : RSTT :=
  { s := { n := n, parent := fun _ => none, dsep := fun _ => none, isep := fun _ => none },
    dr := fun v => if v < n then some v else none }

end RSTT

instance : SttView RSTT where
  core := RSTT.s
  rotate := RSTT.rotate
  core_rotate := by
    intro t v
    unfold RSTT.rotate
    cases h : t.s.parent v with
    | none =>
      have : t.s.rotate v = none := by
        unfold STT.rotate
        simp [h]
      simp [this, h]
    | some p =>
      simp only [h, Option.some_bind]
      cases hr : t.s.rotate v <;> simp [hr]

namespace RSTT

/-- Mirrors `BasicRootedDynamicForest::find_root`: raise `v` and unwrap its
`desc_root`.  Returns the root and the new state. -/
def findRoot (ntr : RSTT → Nat → Option RSTT) (t : RSTT) (v : Nat) :
    Option (Nat × RSTT) := do
  let t1 ← ntr t v
  let r ← t1.dr v
  pure (r, t1)

/-- Mirrors `BasicRootedDynamicForest::lca_in`, with fuel; the trailing
`node_to_root` call ("for amortized analysis") is included. -/
def lcaIn (ntr : RSTT → Nat → Option RSTT) : Nat → RSTT → Nat → Option (Nat × RSTT)
  | 0, _, _ => none
  | fuel + 1, t, x =>
    match t.s.dsep x with
    | some d =>
      if (t.dr d).isSome then lcaIn ntr fuel t d
      else
        match t.s.isep x with
        | some i =>
          if (t.dr i).isSome then lcaIn ntr fuel t i
          else do
            let t1 ← ntr t x
            pure (x, t1)
        | none => do
          let t1 ← ntr t x
          pure (x, t1)
    | none =>
      match t.s.isep x with
      | some i =>
        if (t.dr i).isSome then lcaIn ntr fuel t i
        else do
          let t1 ← ntr t x
          pure (x, t1)
      | none => do
        let t1 ← ntr t x
        pure (x, t1)

/-- Mirrors `StandardRootedDynamicForest::lowest_common_ancestor`
(`src/stt/src/twocut/rooted.rs`, lines 193–219).  Returns the query answer
and the new state; a `none` result models a panic inside
`node_below_root`. -/
def lca (ntr nbr : RSTT → Nat → Option RSTT) (fuel : Nat) (t : RSTT) (u v : Nat) :
    Option (Option Nat × RSTT) := do
  let t1 ← ntr t v
  let t2 ← nbr t1 u
  if t2.s.parent u ≠ some v then pure (none, t2)
  else
    if t2.dr u = none then pure (some v, t2)
    else
      match t2.s.dsep u with
      | some c =>
        if t2.dr c = none then pure (some u, t2)
        else do
          let (r, t3) ← lcaIn ntr fuel t2 c
          pure (some r, t3)
      | none => pure (some u, t2)

end RSTT

/-! ### Proof apparatus: ancestor iteration, subtree sizes, separator potential

These are not translations of source functions but instruments used to
state and prove the claims (depths, the separator-subtree-size sum of
spec §4.4, concrete example states). -/

/-- `k`-fold parent iteration. -/
def iterPar (t : STT) : Nat → Nat → Option Nat
  | 0, v => some v
  | k + 1, v => (iterPar t k v).bind t.parent

/-- `u` lies in the subtree of `r` (some parent iterate of `u`, within
`t.n` steps, is `r`).  For well-formed trees `t.n` steps always suffice. -/
def descB (t : STT) (r u : Nat) : Bool :=
  (List.range (t.n + 1)).any (fun k => iterPar t k u = some r)

/-- Size of the subtree of `r` (among nodes `0 ≤ u < n`). -/
def subtreeSize (t : STT) (r : Nat) : Nat :=
  ((List.range t.n).filter (fun u => descB t r u)).length

/-- The sum, over all separator nodes, of their subtree sizes — the
potential the spec claims each `make_1_cut` rotation strictly decreases. -/
def sepSizeSum (t : STT) : Nat :=
  (((List.range t.n).filter (fun v => t.isSep v)).map (subtreeSize t)).sum

/-- Build a concrete STT from pointer lists (entries beyond the list are
`none`). -/
def STT.ofLists (psl dsl isl : List (Option Nat)) : STT :=
  { n := psl.length,
    parent := fun v => psl.getD v none,
    dsep := fun v => dsl.getD v none,
    isep := fun v => isl.getD v none }

/-- The rotation of `v` with parent `p` in the clean piecewise form of
spec §4.1.  Under the distinctness facts that hold in any acyclic coherent
STT (`v`, `p`, the grandparent and the direct-separator child of `v`
pairwise distinct), `rotateAt` computes exactly this (theorem
`rotateAt_eq_spec`); all later invariant reasoning uses this form. -/
def rotateSpec (t : STT) (v p : Nat) : STT :=
  let g? := t.parent p
  let c? := t.dsep v
  let pWasSep := t.isSep p
  let vWasDsep : Prop := t.dsep p = some v
  { n := t.n
    parent := fun w =>
      if w = p then some v
      else if w = v then g?
      else if c? = some w then some p
      else t.parent w
    dsep := fun w =>
      if w = p then c?
      else if w = v then
        (if g?.isSome then (if vWasDsep then t.isep v else some p) else none)
      else if c? = some w then t.isep w
      else if g? = some w then (if t.dsep w = some p then some v else t.dsep w)
      else t.dsep w
    isep := fun w =>
      if w = p then
        (if optIsDifferent (t.dsep p) v then t.dsep p
         else if t.isep p = some v then none else t.isep p)
      else if w = v then
        (if g?.isSome ∧ vWasDsep then (if pWasSep then some p else none) else t.isep v)
      else if c? = some w then t.dsep w
      else if g? = some w then
        (if t.dsep w ≠ some p ∧ t.isep w = some p then some v else t.isep w)
      else t.isep w }

/-- Structural invariants every 2-cut STT satisfies and that are preserved
by any successful rotation (legal or not): pointers stay in range,
separator-child pointers are coherent with parent pointers
(`STT::_is_valid`), the two separator-child slots never coincide, and the
parent structure is acyclic (every parent chain reaches a root). -/
structure WFb (t : STT) : Prop where
  parRange : ∀ v p, t.parent v = some p → v < t.n ∧ p < t.n
  dsRange : ∀ v c, t.dsep v = some c → v < t.n ∧ c < t.n
  isRange : ∀ v c, t.isep v = some c → v < t.n ∧ c < t.n
  dsCoh : ∀ v c, t.dsep v = some c → t.parent c = some v
  isCoh : ∀ v c, t.isep v = some c → t.parent c = some v
  dsIsNe : ∀ v c, t.dsep v = some c → t.isep v ≠ some c
  acyc : ∀ v, ∃ k, iterPar t k v = none

/-- Invariants of a well-formed 2-cut STT that additionally need legality
(`can_rotate`) of every rotation to be preserved: a root has no separator
children, and a node with an indirect-separator child is itself a
separator (in a 2-cut STT the far boundary vertex of the indirect
separator's subtree also bounds the node's own subtree). -/
structure WF (t : STT) extends WFb t : Prop where
  rootClean : ∀ v, t.parent v = none → t.dsep v = none ∧ t.isep v = none
  isepSep : ∀ v c, t.isep v = some c → t.isSep v = true

/-- Decidable checker for the in-range part of `WF`. -/
def WFdec (t : STT) : Bool :=
  (List.range t.n).all (fun v =>
    (match t.parent v with
     | some p => decide (p < t.n)
     | none => decide (t.dsep v = none) && decide (t.isep v = none)) &&
    (match t.dsep v with
     | some c => decide (c < t.n) && decide (t.parent c = some v) && decide (t.isep v ≠ some c)
     | none => true) &&
    (match t.isep v with
     | some c => decide (c < t.n) && decide (t.parent c = some v) && t.isSep v
     | none => true) &&
    (List.range (t.n + 1)).any (fun k => iterPar t k v = none))

/-- Beyond-range cleanliness: nodes that do not exist have no pointers. -/
def outClean (t : STT) : Prop :=
  ∀ v, t.n ≤ v → t.parent v = none ∧ t.dsep v = none ∧ t.isep v = none

/-- Depth of `w` in the parent structure: the least `k` with
`iterPar t k w = none` (a root has depth 1).  Takes the acyclicity
evidence as an argument. -/
def dep (t : STT) (w : Nat) (h : ∃ k, iterPar t k w = none) : Nat :=
  Nat.find h

/-- Tail of the indirect-separator chain from `z`: follow
`isep_child` pointers until they run out (with fuel; `t.n` always
suffices on well-formed structures since the chain descends). -/
def iseptail (t : STT) : Nat → Nat → Nat
  | 0, z => z
  | fuel + 1, z =>
    match t.isep z with
    | some y => iseptail t fuel y
    | none => z

/-- The boundary vertex of `w`'s subtree adjacent (in the underlying
tree) to `w`'s parent: descend into the direct-separator child and then
follow indirect-separator children. -/
def pport (t : STT) (w : Nat) : Nat :=
  match t.dsep w with
  | some c => iseptail t t.n c
  | none => w

/-- `x` and `y` are adjacent in the underlying tree represented by the
STT: some STT edge `(w, parent w)` stands for the underlying edge between
`pport w` and `parent w`. -/
def underEdge (t : STT) (x y : Nat) : Prop :=
  (∃ w q, t.parent w = some q ∧ pport t w = x ∧ q = y) ∨
  (∃ w q, t.parent w = some q ∧ pport t w = y ∧ q = x)

/-- A sequence of rotations, each checked legal by `can_rotate`. -/
def rotateSeq (t : STT) : List Nat → Option STT
  | [] => some t
  | v :: l => if t.canRotate v then (t.rotate v).bind (fun t2 => rotateSeq t2 l) else none

/-- `a` is an ancestor of `w` (or `w` itself): some parent iterate of `w`
reaches `a`. -/
def anc (t : STT) (a w : Nat) : Prop := ∃ k, iterPar t k w = some a

/-- Every ancestor of `u` (including `u` itself) is a non-separator:
`u`'s root path is 1-cut. -/
def pathClean (t : STT) (u : Nat) : Prop := ∀ a, anc t a u → t.isSep a = false

/-- The root paths of `u` and `v` share no node other than `v` itself and
roots: a common ancestor that is a strict ancestor of `v` has no parent. -/
def topOnly (t : STT) (u v : Nat) : Prop :=
  ∀ a, anc t a u → anc t a v → a ≠ v → t.parent a = none

/-! ### Concrete example states used by counterexamples and witnesses -/

/-- The counterexample state for the `make_1_cut` potential argument: the
underlying tree has edges {0,1}, {0,2}, {1,3}, {1,4}; the STT is the chain
3 – 2 – 1 – 0 with 4 a further child of 1; node 0 is the direct-separator
child of 1 (its subtree {0} touches the grandparent 2), and node 1 is the
direct-separator child of 2 (its subtree {0,1,4} touches the grandparent
3). -/
def exC7 : STT :=
  STT.ofLists [some 1, some 2, some 3, none, some 1]
    [none, some 0, some 1, none, none] [none, none, none, none, none]

/-- A one-node forest carrying finite `pdist`/`adist` data (used to refute
the claim that `before_detached` clears `adist`). -/
def exC9 : WSTT Nat :=
  { s := (WSTT.init Nat 1).s, pd := fun _ => .finite 3, ad := fun _ => .finite 5 }

/-- Linking the same pair twice in the one-cut forest: the second call
violates the different-trees precondition. -/
def oneCutLinkTwice : Option (OneCut Nat) :=
  (OneCut.link 4 (OneCut.init Nat 2) 0 1 5).bind fun t => OneCut.link 4 t 0 1 5

/-- Linking the same pair twice in the standard 2-cut STT forest
(move-to-root strategy). -/
def stdLinkTwice : Option (WSTT Nat) :=
  (stdLink (mtrNtr 8) (WSTT.init Nat 2) 0 1 7).bind fun t => stdLink (mtrNtr 8) t 0 1 7

/-- Linking the same pair twice in the link-cut forest. -/
def lctLinkTwice : Option (LCT Nat) :=
  (LCT.link 8 (LCT.init Nat 2) 0 1 7).bind fun t => LCT.link 8 t 0 1 7

/-- A reachable two-node standard forest: `link(0, 1, 7)` on a fresh forest
(move-to-root strategy). -/
def exW2 : Option (WSTT Nat) := stdLink (mtrNtr 8) (WSTT.init Nat 2) 0 1 7

/-- A reachable two-node link-cut forest: `link(0, 1, 7)` on a fresh
forest. -/
def exL2 : Option (LCT Nat) := LCT.link 8 (LCT.init Nat 2) 0 1 7

/-- The state `exC7` equipped with concrete monoid path-weight data (used
to instantiate the node-data update claims). -/
def exC5w : WSTT Nat :=
  { s := exC7, pd := fun z => .finite (z + 1), ad := fun z => .finite (10 * z + 2) }

/-- A well-formed three-node chain STT (0 below 1 below the root 2) with
no separators, used to instantiate the stable node-to-root claim. -/
def exC4stt : STT :=
  STT.ofLists [some 1, some 2, none] [none, none, none] [none, none, none]

/-! ## Theorems -/

theorem upd_same (f : Nat → Option Nat) (x : Nat) (y : Option Nat) :
    upd f x y x = y := by simp [upd]

theorem upd_ne (f : Nat → Option Nat) (x : Nat) (y : Option Nat)
    (z : Nat) (h : z ≠ x) : upd f x y z = f z := by simp [upd, h]

theorem updWI_same {W : Type} (f : Nat → WInf W) (x : Nat) (y : WInf W) :
    updWI f x y x = y := by simp [updWI]

theorem updWI_ne {W : Type} (f : Nat → WInf W) (x : Nat) (y : WInf W)
    (z : Nat) (h : z ≠ x) : updWI f x y z = f z := by simp [updWI, h]

theorem outClean_ofLists (psl dsl isl : List (Option Nat))
    (h2 : dsl.length ≤ psl.length) (h3 : isl.length ≤ psl.length) :
    outClean (STT.ofLists psl dsl isl) := by
  intro v hv
  have hv' : psl.length ≤ v := hv
  exact ⟨List.getD_eq_default _ _ hv', List.getD_eq_default _ _ (le_trans h2 hv'),
    List.getD_eq_default _ _ (le_trans h3 hv')⟩

theorem iterPar_one (t : STT) (v : Nat) : iterPar t 1 v = t.parent v := rfl

theorem iterPar_add (t : STT) (a b v : Nat) :
    iterPar t (a + b) v = (iterPar t a v).bind (fun x => iterPar t b x) := by
  induction b with
  | zero => cases h : iterPar t a v <;> simp [iterPar, h]
  | succ b ih =>
    show (iterPar t (a + b) v).bind t.parent = _
    rw [ih]
    cases iterPar t a v with
    | none => simp
    | some x => simp [iterPar]

theorem iterPar_none_mono (t : STT) {k j v : Nat} (h : iterPar t k v = none)
    (hj : k ≤ j) : iterPar t j v = none := by
  obtain ⟨d, rfl⟩ := Nat.exists_eq_add_of_le hj
  rw [iterPar_add, h]
  rfl

theorem iterPar_cycle_absurd (t : STT) {a v : Nat} (hac : ∃ k, iterPar t k v = none)
    (ha : 0 < a) (hv : iterPar t a v = some v) : False := by
  have hall : ∀ m, iterPar t (m * a) v = some v := by
    intro m
    induction m with
    | zero => simp [iterPar]
    | succ m ih =>
      have he : (m + 1) * a = m * a + a := by ring
      rw [he, iterPar_add, ih]
      simpa using hv
  obtain ⟨k, hk⟩ := hac
  have h2 : iterPar t (k * a) v = none :=
    iterPar_none_mono t hk (Nat.le_mul_of_pos_right k ha)
  rw [hall k] at h2
  exact Option.noConfusion h2

theorem parent_self_absurd (t : STT) (hac : ∃ k, iterPar t k v = none)
    (hp : t.parent v = some v) : False :=
  iterPar_cycle_absurd t hac Nat.one_pos (by rw [iterPar_one]; exact hp)

theorem parent2_cycle_absurd (t : STT) (hac : ∃ k, iterPar t k v = none)
    {p : Nat} (hp : t.parent v = some p) (hq : t.parent p = some v) : False :=
  iterPar_cycle_absurd t hac (by norm_num)
    (show iterPar t 2 v = some v by simp [iterPar, hp, hq])

theorem parent3_cycle_absurd (t : STT) (hac : ∃ k, iterPar t k v = none)
    {p g : Nat} (hp : t.parent v = some p) (hg : t.parent p = some g)
    (hr : t.parent g = some v) : False :=
  iterPar_cycle_absurd t hac (by norm_num)
    (show iterPar t 3 v = some v by simp [iterPar, hp, hg, hr])

/-- The distinctness facts every acyclic coherent STT provides at a
rotation site: `v`, its parent `p`, the grandparent `g` and the
direct-separator child `c` of `v` are pairwise distinct. -/
theorem rotDistinct (t : STT) (hb : WFb t) {v p : Nat} (hp : t.parent v = some p) :
    v ≠ p ∧
    (∀ g, t.parent p = some g → g ≠ v ∧ g ≠ p) ∧
    (∀ c, t.dsep v = some c → c ≠ v ∧ c ≠ p ∧ ∀ g, t.parent p = some g → c ≠ g) := by
  refine ⟨?_, ?_, ?_⟩
  · rintro rfl
    exact parent_self_absurd t (hb.acyc v) hp
  · intro g hg
    constructor
    · rintro rfl
      exact parent2_cycle_absurd t (hb.acyc g) hp hg
    · rintro rfl
      exact parent_self_absurd t (hb.acyc g) hg
  · intro c hc
    have hcpar : t.parent c = some v := hb.dsCoh v c hc
    refine ⟨?_, ?_, ?_⟩
    · rintro rfl
      exact parent_self_absurd t (hb.acyc c) hcpar
    · rintro rfl
      exact parent2_cycle_absurd t (hb.acyc c) hcpar hp
    · intro g hg
      rintro rfl
      exact parent3_cycle_absurd t (hb.acyc c) hcpar hp hg

/-- Pointwise characterization lemmas for the five rotation stages. -/
theorem rotParents_n (t : STT) (v p : Nat) (gp c : Option Nat) :
    (STT.rotParents t v p gp c).n = t.n := by cases c <;> rfl

theorem rotParents_dsep (t : STT) (v p : Nat) (gp c : Option Nat) :
    (STT.rotParents t v p gp c).dsep = t.dsep := by cases c <;> rfl

theorem rotParents_isep (t : STT) (v p : Nat) (gp c : Option Nat) :
    (STT.rotParents t v p gp c).isep = t.isep := by cases c <;> rfl

theorem rotParents_parent_none (t : STT) (v p : Nat) (gp : Option Nat) :
    (STT.rotParents t v p gp none).parent = upd (upd t.parent p (some v)) v gp := rfl

theorem rotParents_parent_some (t : STT) (v p c0 : Nat) (gp : Option Nat) :
    (STT.rotParents t v p gp (some c0)).parent =
      upd (upd (upd t.parent p (some v)) v gp) c0 (some p) := rfl

theorem rotGp_n (t : STT) (v p : Nat) (gp : Option Nat) :
    (STT.rotGp t v p gp).n = t.n := by
  cases gp with
  | none => rfl
  | some g => simp only [STT.rotGp]; split_ifs <;> rfl

theorem rotGp_parent (t : STT) (v p : Nat) (gp : Option Nat) :
    (STT.rotGp t v p gp).parent = t.parent := by
  cases gp with
  | none => rfl
  | some g => simp only [STT.rotGp]; split_ifs <;> rfl

theorem rotGp_dsep_none (t : STT) (v p : Nat) :
    (STT.rotGp t v p none).dsep = t.dsep := rfl

theorem rotGp_isep_none (t : STT) (v p : Nat) :
    (STT.rotGp t v p none).isep = t.isep := rfl

theorem rotGp_dsep_some (t : STT) (v p g : Nat) :
    (STT.rotGp t v p (some g)).dsep =
      if t.dsep g = some p then upd t.dsep g (some v) else t.dsep := by
  simp only [STT.rotGp]; split_ifs <;> rfl

theorem rotGp_isep_some (t : STT) (v p g : Nat) :
    (STT.rotGp t v p (some g)).isep =
      if t.dsep g = some p then t.isep
      else if t.isep g = some p then upd t.isep g (some v)
      else t.isep := by
  simp only [STT.rotGp]; split_ifs <;> rfl

theorem rotP_n (t : STT) (v p : Nat) (c : Option Nat) :
    (STT.rotP t v p c).n = t.n := by
  simp only [STT.rotP]; split_ifs <;> rfl

theorem rotP_parent (t : STT) (v p : Nat) (c : Option Nat) :
    (STT.rotP t v p c).parent = t.parent := by
  simp only [STT.rotP]; split_ifs <;> rfl

theorem rotP_dsep (t : STT) (v p : Nat) (c : Option Nat) :
    (STT.rotP t v p c).dsep = upd t.dsep p c := by
  simp only [STT.rotP]; split_ifs <;> rfl

theorem rotP_isep (t : STT) (v p : Nat) (c : Option Nat) :
    (STT.rotP t v p c).isep =
      if optIsDifferent (t.dsep p) v then upd t.isep p (t.dsep p)
      else if t.isep p = some v then upd t.isep p none
      else t.isep := by
  simp only [STT.rotP]; split_ifs <;> rfl

theorem rotV_n (t : STT) (v p : Nat) (gp o : Option Nat) (b : Bool) :
    (STT.rotV t v p gp o b).n = t.n := by
  cases gp with
  | none => rfl
  | some g => simp only [STT.rotV]; split_ifs <;> rfl

theorem rotV_parent (t : STT) (v p : Nat) (gp o : Option Nat) (b : Bool) :
    (STT.rotV t v p gp o b).parent = t.parent := by
  cases gp with
  | none => rfl
  | some g => simp only [STT.rotV]; split_ifs <;> rfl

theorem rotV_dsep_none (t : STT) (v p : Nat) (o : Option Nat) (b : Bool) :
    (STT.rotV t v p none o b).dsep = upd t.dsep v none := rfl

theorem rotV_isep_none (t : STT) (v p : Nat) (o : Option Nat) (b : Bool) :
    (STT.rotV t v p none o b).isep = t.isep := rfl

theorem rotV_dsep_some (t : STT) (v p g : Nat) (o : Option Nat) (b : Bool) :
    (STT.rotV t v p (some g) o b).dsep =
      if o ≠ some v then upd t.dsep v (some p) else upd t.dsep v (t.isep v) := by
  simp only [STT.rotV]; split_ifs <;> rfl

theorem rotV_isep_some (t : STT) (v p g : Nat) (o : Option Nat) (b : Bool) :
    (STT.rotV t v p (some g) o b).isep =
      if o ≠ some v then t.isep
      else if b then upd t.isep v (some p)
      else upd t.isep v none := by
  simp only [STT.rotV]; split_ifs <;> rfl

theorem rotC_n (t : STT) (c : Option Nat) : (STT.rotC t c).n = t.n := by
  cases c <;> rfl

theorem rotC_parent (t : STT) (c : Option Nat) : (STT.rotC t c).parent = t.parent := by
  cases c <;> rfl

theorem rotC_dsep_none (t : STT) : (STT.rotC t none).dsep = t.dsep := rfl

theorem rotC_isep_none (t : STT) : (STT.rotC t none).isep = t.isep := rfl

theorem rotC_dsep_some (t : STT) (c0 : Nat) :
    (STT.rotC t (some c0)).dsep = upd t.dsep c0 (t.isep c0) := rfl

theorem rotC_isep_some (t : STT) (c0 : Nat) :
    (STT.rotC t (some c0)).isep = upd t.isep c0 (t.dsep c0) := rfl

set_option maxHeartbeats 1600000 in
/-- The sequential rotation body computes exactly the piecewise
specification, given the distinctness facts. -/
theorem rotateAt_eq_spec (t : STT) (v p : Nat) (hp : t.parent v = some p)
    (hvp : v ≠ p)
    (hg : ∀ g, t.parent p = some g → g ≠ v ∧ g ≠ p)
    (hc : ∀ c, t.dsep v = some c → c ≠ v ∧ c ≠ p ∧ ∀ g, t.parent p = some g → c ≠ g) :
    t.rotateAt v p = rotateSpec t v p := by
  have hpv : p ≠ v := Ne.symm hvp
  rcases hgpar : t.parent p with _ | g
  · rcases hcv : t.dsep v with _ | c0
    · simp only [STT.rotateAt, rotateSpec, hgpar, hcv]
      apply STT.ext
      case n => simp only [rotC_n, rotV_n, rotP_n, rotGp_n, rotParents_n]
      case parent =>
        simp only [rotC_parent, rotV_parent, rotP_parent, rotGp_parent,
          rotParents_parent_none]
        funext w
        by_cases hwp : w = p <;> by_cases hwv : w = v <;>
          (try simp_all [upd, ite_apply])
        all_goals first
        | (split_ifs <;> simp_all)
        | simp_all
        | rfl
      case dsep =>
        simp only [rotC_dsep_none, rotV_dsep_none, rotP_dsep,
          rotGp_dsep_none, rotParents_dsep]
        funext w
        by_cases hwp : w = p <;> by_cases hwv : w = v <;>
          (try simp_all [upd, ite_apply])
        all_goals first
        | (split_ifs <;> simp_all)
        | simp_all
        | rfl
      case isep =>
        simp only [rotC_isep_none, rotV_isep_none, rotP_isep,
          rotGp_isep_none, rotGp_dsep_none, rotParents_isep, rotParents_dsep]
        funext w
        by_cases hwp : w = p <;> by_cases hwv : w = v <;>
          (try simp_all [upd, ite_apply])
        all_goals first
        | (split_ifs <;> simp_all)
        | simp_all
        | rfl
    · obtain ⟨hc0v, hc0p, _⟩ := hc c0 hcv
      have hvc0 : v ≠ c0 := Ne.symm hc0v
      have hpc0 : p ≠ c0 := Ne.symm hc0p
      simp only [STT.rotateAt, rotateSpec, hgpar, hcv]
      apply STT.ext
      case n => simp only [rotC_n, rotV_n, rotP_n, rotGp_n, rotParents_n]
      case parent =>
        simp only [rotC_parent, rotV_parent, rotP_parent, rotGp_parent,
          rotParents_parent_some]
        funext w
        by_cases hwp : w = p <;> by_cases hwv : w = v <;> by_cases hwc : w = c0 <;>
          (try simp_all [upd, ite_apply])
        all_goals first
        | (split_ifs <;> simp_all)
        | simp_all
        | rfl
      case dsep =>
        simp only [rotC_dsep_some, rotC_isep_some, rotV_dsep_none, rotV_isep_none,
          rotP_dsep, rotP_isep, rotGp_dsep_none, rotGp_isep_none,
          rotParents_dsep, rotParents_isep]
        funext w
        by_cases hwp : w = p <;> by_cases hwv : w = v <;> by_cases hwc : w = c0 <;>
          (try simp_all [upd, ite_apply])
        all_goals first
        | (split_ifs <;> simp_all)
        | simp_all
        | rfl
      case isep =>
        simp only [rotC_dsep_some, rotC_isep_some, rotV_dsep_none, rotV_isep_none,
          rotP_dsep, rotP_isep, rotGp_dsep_none, rotGp_isep_none,
          rotParents_dsep, rotParents_isep]
        funext w
        by_cases hwp : w = p <;> by_cases hwv : w = v <;> by_cases hwc : w = c0 <;>
          (try simp_all [upd, ite_apply])
        all_goals first
        | (split_ifs <;> simp_all)
        | simp_all
        | rfl
  · obtain ⟨hgv, hgp2⟩ := hg g hgpar
    have hvg : v ≠ g := Ne.symm hgv
    have hpg : p ≠ g := Ne.symm hgp2
    rcases hcv : t.dsep v with _ | c0
    · simp only [STT.rotateAt, rotateSpec, hgpar, hcv]
      apply STT.ext
      case n => simp only [rotC_n, rotV_n, rotP_n, rotGp_n, rotParents_n]
      case parent =>
        simp only [rotC_parent, rotV_parent, rotP_parent, rotGp_parent,
          rotParents_parent_none]
        funext w
        by_cases hwp : w = p <;> by_cases hwv : w = v <;> by_cases hwg : w = g <;>
          (try simp_all [upd, ite_apply])
        all_goals first
        | (split_ifs <;> simp_all)
        | simp_all
        | rfl
      case dsep =>
        simp only [rotC_dsep_none, rotV_dsep_some, rotP_dsep, rotP_isep,
          rotGp_dsep_some, rotGp_isep_some, rotParents_dsep, rotParents_isep]
        funext w
        by_cases hwp : w = p <;> by_cases hwv : w = v <;> by_cases hwg : w = g <;>
          (try simp_all [upd, ite_apply])
        all_goals first
        | (split_ifs <;> simp_all)
        | simp_all
        | rfl
      case isep =>
        simp only [rotC_isep_none, rotV_isep_some, rotV_dsep_some, rotP_isep,
          rotP_dsep, rotGp_isep_some, rotGp_dsep_some, rotParents_isep,
          rotParents_dsep]
        funext w
        by_cases hwp : w = p <;> by_cases hwv : w = v <;> by_cases hwg : w = g <;>
          (try simp_all [upd, ite_apply])
        all_goals first
        | (split_ifs <;> simp_all)
        | simp_all
        | rfl
    · obtain ⟨hc0v, hc0p, hc0g'⟩ := hc c0 hcv
      have hc0g : c0 ≠ g := hc0g' g hgpar
      have hvc0 : v ≠ c0 := Ne.symm hc0v
      have hpc0 : p ≠ c0 := Ne.symm hc0p
      have hgc0 : g ≠ c0 := Ne.symm hc0g
      simp only [STT.rotateAt, rotateSpec, hgpar, hcv]
      apply STT.ext
      case n => simp only [rotC_n, rotV_n, rotP_n, rotGp_n, rotParents_n]
      case parent =>
        simp only [rotC_parent, rotV_parent, rotP_parent, rotGp_parent,
          rotParents_parent_some]
        funext w
        by_cases hwp : w = p <;> by_cases hwv : w = v <;> by_cases hwg : w = g <;>
            by_cases hwc : w = c0 <;>
          (try simp_all [upd, ite_apply])
        all_goals first
        | (split_ifs <;> simp_all)
        | simp_all
        | rfl
      case dsep =>
        simp only [rotC_dsep_some, rotC_isep_some, rotV_dsep_some, rotV_isep_some,
          rotP_dsep, rotP_isep, rotGp_dsep_some, rotGp_isep_some,
          rotParents_dsep, rotParents_isep]
        funext w
        by_cases hwp : w = p <;> by_cases hwv : w = v <;> by_cases hwg : w = g <;>
            by_cases hwc : w = c0 <;>
          (try simp_all [upd, ite_apply])
        all_goals first
        | (split_ifs <;> simp_all)
        | simp_all
        | rfl
      case isep =>
        simp only [rotC_dsep_some, rotC_isep_some, rotV_dsep_some, rotV_isep_some,
          rotP_dsep, rotP_isep, rotGp_dsep_some, rotGp_isep_some,
          rotParents_dsep, rotParents_isep]
        funext w
        by_cases hwp : w = p <;> by_cases hwv : w = v <;> by_cases hwg : w = g <;>
            by_cases hwc : w = c0 <;>
          (try simp_all [upd, ite_apply])
        all_goals first
        | (split_ifs <;> simp_all)
        | simp_all
        | rfl
/-- A `WFdec`-checked, beyond-range-clean state is well-formed. -/
theorem WF_of_dec {t : STT} (hd : WFdec t = true) (ho : outClean t) : WF t := by
  have hall : ∀ v, v < t.n →
      ((match t.parent v with
        | some p => decide (p < t.n)
        | none => decide (t.dsep v = none) && decide (t.isep v = none)) &&
       (match t.dsep v with
        | some c => decide (c < t.n) && decide (t.parent c = some v) && decide (t.isep v ≠ some c)
        | none => true) &&
       (match t.isep v with
        | some c => decide (c < t.n) && decide (t.parent c = some v) && t.isSep v
        | none => true) &&
       (List.range (t.n + 1)).any (fun k => iterPar t k v = none)) = true := by
    intro v hv
    exact List.all_eq_true.mp hd v (List.mem_range.mpr hv)
  have hcomp : ∀ v, v < t.n →
      (match t.parent v with
       | some p => decide (p < t.n)
       | none => decide (t.dsep v = none) && decide (t.isep v = none)) = true ∧
      (match t.dsep v with
       | some c => decide (c < t.n) && decide (t.parent c = some v) && decide (t.isep v ≠ some c)
       | none => true) = true ∧
      (match t.isep v with
       | some c => decide (c < t.n) && decide (t.parent c = some v) && t.isSep v
       | none => true) = true ∧
      ((List.range (t.n + 1)).any (fun k => iterPar t k v = none)) = true := by
    intro v hv
    have h := hall v hv
    simp only [Bool.and_eq_true] at h
    exact ⟨h.1.1.1, h.1.1.2, h.1.2, h.2⟩
  have hvlt : ∀ v p, t.parent v = some p → v < t.n := by
    intro v p hp
    by_contra hge
    have := (ho v (le_of_not_lt hge)).1
    rw [this] at hp
    exact Option.noConfusion hp
  have hvltd : ∀ v c, t.dsep v = some c → v < t.n := by
    intro v c hc
    by_contra hge
    have := (ho v (le_of_not_lt hge)).2.1
    rw [this] at hc
    exact Option.noConfusion hc
  have hvlti : ∀ v c, t.isep v = some c → v < t.n := by
    intro v c hc
    by_contra hge
    have := (ho v (le_of_not_lt hge)).2.2
    rw [this] at hc
    exact Option.noConfusion hc
  refine ⟨⟨?_, ?_, ?_, ?_, ?_, ?_, ?_⟩, ?_, ?_⟩
  · intro v p hp
    have hv := hvlt v p hp
    have h := (hcomp v hv).1
    rw [hp] at h
    exact ⟨hv, of_decide_eq_true h⟩
  · intro v c hc
    have hv := hvltd v c hc
    have h := (hcomp v hv).2.1
    rw [hc] at h
    simp only [Bool.and_eq_true, decide_eq_true_eq] at h
    exact ⟨hv, h.1.1⟩
  · intro v c hc
    have hv := hvlti v c hc
    have h := (hcomp v hv).2.2.1
    rw [hc] at h
    simp only [Bool.and_eq_true, decide_eq_true_eq] at h
    exact ⟨hv, h.1.1⟩
  · intro v c hc
    have hv := hvltd v c hc
    have h := (hcomp v hv).2.1
    rw [hc] at h
    simp only [Bool.and_eq_true, decide_eq_true_eq] at h
    exact h.1.2
  · intro v c hc
    have hv := hvlti v c hc
    have h := (hcomp v hv).2.2.1
    rw [hc] at h
    simp only [Bool.and_eq_true, decide_eq_true_eq] at h
    exact h.1.2
  · intro v c hc
    have hv := hvltd v c hc
    have h := (hcomp v hv).2.1
    rw [hc] at h
    simp only [Bool.and_eq_true, decide_eq_true_eq] at h
    exact h.2
  · intro v
    by_cases hv : v < t.n
    · have h := (hcomp v hv).2.2.2
      rcases List.any_eq_true.mp h with ⟨k, _, hk⟩
      exact ⟨k, of_decide_eq_true hk⟩
    · refine ⟨1, ?_⟩
      rw [iterPar_one]
      exact (ho v (le_of_not_lt hv)).1
  · intro v hp
    by_cases hv : v < t.n
    · have h := (hcomp v hv).1
      rw [hp] at h
      simp only [Bool.and_eq_true, decide_eq_true_eq] at h
      exact h
    · exact ⟨(ho v (le_of_not_lt hv)).2.1, (ho v (le_of_not_lt hv)).2.2⟩
  · intro v c hc
    have hv := hvlti v c hc
    have h := (hcomp v hv).2.2.1
    rw [hc] at h
    simp only [Bool.and_eq_true] at h
    exact h.2

/-- **C9** — corrected; counterexample.  The claim states that
`MonoidPathWeightNodeData::before_detached` resets `v.adist` to infinity.
On a concrete node whose `adist` is the finite weight 5, `before_detached`
leaves `adist` at 5: the source (`src/stt/src/twocut/node_data.rs`, lines
84–86) assigns only `pdist`. -/
theorem c9_before_detached_counterexample :
    (WSTT.beforeDetached exC9 0).ad 0 = WInf.finite 5 ∧
    ¬((WSTT.beforeDetached exC9 0).ad 0 = WInf.infinite) := by
  constructor <;> decide

/-- **C9** — corrected; amended claim: `after_attached(t, v, weight)` sets
`v.pdist` to the finite weight; `before_detached(t, v)` sets `v.pdist` to
infinity and leaves `v.adist` unchanged, in both the STT monoid variant
(`MonoidPathWeightNodeData`) and the link-cut monoid variant
(`MonoidPathWeightLCTNodeData`); no other node's data is touched. -/
theorem c9_attach_detach {W : Type} (t : WSTT W) (l : LCT W) (v : Nat) (w : W) :
    (WSTT.afterAttached t v w).pd v = WInf.finite w ∧
    (WSTT.afterAttached t v w).ad = t.ad ∧
    (WSTT.beforeDetached t v).pd v = WInf.infinite ∧
    (WSTT.beforeDetached t v).ad = t.ad ∧
    (∀ u, u ≠ v → (WSTT.afterAttached t v w).pd u = t.pd u ∧
                  (WSTT.beforeDetached t v).pd u = t.pd u) ∧
    (LCT.beforeDetached l v).pd v = WInf.infinite ∧
    (LCT.beforeDetached l v).ad = l.ad ∧
    (∀ u, u ≠ v → (LCT.beforeDetached l v).pd u = l.pd u) := by
  refine ⟨by simp [WSTT.afterAttached, updWI], rfl, by simp [WSTT.beforeDetached, updWI], rfl,
    fun u hu => ⟨?_, ?_⟩, by simp [LCT.beforeDetached, updWI], rfl, fun u hu => ?_⟩ <;>
    simp [WSTT.afterAttached, WSTT.beforeDetached, LCT.beforeDetached, updWI, hu]

/-- **C10** — corrected; counterexample.  The claim states that for *every*
`DynamicForest` implementation, `link(u, v, w)` with `u` and `v` in the same
tree fails via a debug assertion.  In `SimpleDynamicTree` (the one-cut
forest, `src/stt/src/onecut.rs`, lines 115–119) there is no assertion of any
kind: linking node 0 to node 1 twice succeeds silently (in every build
profile) and leaves the parent pointers in a cycle. -/
theorem c10_link_counterexample :
    oneCutLinkTwice.isSome = true ∧
    oneCutLinkTwice.map (fun t => (t.parent 0, t.parent 1)) = some (some 1, some 0) := by
  constructor <;> decide

/-- **C10** — corrected; amended claim: the same-tree precondition
violation of `link` is handled differently by the implementations:
`StandardDynamicForest::link` aborts via an `assert!` that is active in
*all* build profiles (so the violation is detected in release builds too,
as a process abort), `LinkCutForest::link` checks it only with a
`debug_assert!` (release builds proceed), and `SimpleDynamicTree::link`
performs no check at all and silently corrupts its parent structure. -/
theorem c10_link_same_tree_behaviour :
    stdLinkTwice.isSome = false ∧
    lctLinkTwice.isSome = true ∧
    oneCutLinkTwice.isSome = true ∧
    oneCutLinkTwice.map (fun t => (t.parent 0, t.parent 1)) = some (some 1, some 0) := by
  refine ⟨by decide, by decide, by decide, by decide⟩

/-- **C1** — code bug; evaluation at the failing input.  The claim states
that `compute_path_weight(u, v)` returns `Some` iff `u` and `v` are
connected in the reference graph.  Vertex 0 of a fresh one-vertex forest is
trivially connected to itself (the empty path), yet
`NodesToTopPWImpl::compute_path_weight` (used by `MoveToRootTT`,
`GreedySplayTT`, `TwoPassSplayTT`, `LocalTwoPassSplayTT`) returns `None`
for `compute_path_weight(0, 0)`, while `StableNodesToTopPWImpl` and
`LinkCutForest::compute_path_weight` return `Some(identity)` on the same
query — so the extended-strategy forests violate the claim (and the
implementations contradict each other, so cross-implementation agreement
fails as well). -/
theorem c1_self_query_divergence :
    (nodesToTopCPW (mtrNtr 4) (mtrNbr 4) WSTT.ppw? (WSTT.init Nat 1) 0 0).map Prod.fst
      = some none ∧
    (stableCPW (mtrNtr 4) WSTT.ppw? 4 (WSTT.init Nat 1) 0 0).map Prod.fst
      = some (some 0) ∧
    (LCT.computePathWeight 4 (LCT.init Nat 1) 0 0).map Prod.fst = some (some 0) := by
  refine ⟨by decide, by decide, by decide⟩

/-- **C6** — code bug; evaluation at the failing input.  The claim states
`find_root(u) = find_root(v)` iff `lowest_common_ancestor(u, v) ≠ None`.
For `u = v = 0` on a fresh one-vertex `StandardRootedDynamicForest` (with
the move-to-root strategy), `find_root(0) = find_root(0) = 0`, but
`lowest_common_ancestor(0, 0)` panics: `node_below_root(0)` is called with
`0` already the root, so `get_parent(0).unwrap()` panics in release builds
(and the `debug_assert!` fails in debug builds) instead of returning
`Some(0)` as the `RootedDynamicForest` trait documentation requires. -/
theorem c6_lca_self_panics :
    (RSTT.lca (mtrNtr 4) (mtrNbr 4) 4 (RSTT.init 1) 0 0).isSome = false ∧
    (RSTT.findRoot (mtrNtr 4) (RSTT.init 1) 0).map Prod.fst = some 0 := by
  refine ⟨by decide, by decide⟩

/-- **C7** — corrected; counterexample.  The claim states that each
rotation performed by `make_1_cut` strictly decreases the sum, over all
separator nodes, of their subtree sizes.  `exC7` is a well-formed 2-cut
STT on 5 nodes; node 0 is a separator, so the very first rotation
`make_1_cut` performs is `rotate(0)` — and that rotation *increases* the
sum from 4 to 5. -/
theorem c7_potential_counterexample :
    WF exC7 ∧ exC7.isSep 0 = true ∧
    sepSizeSum exC7 = 4 ∧ (exC7.rotate 0).map sepSizeSum = some 5 := by
  refine ⟨WF_of_dec (by decide) (outClean_ofLists _ _ _ (by decide) (by decide)),
    by decide, by decide, by decide⟩

/-- **C5** — confirmed.  `MonoidPathWeightNodeData::before_rotation`,
called on a non-root node `v` with parent `p` (with the direct-separator
child of `v`, if any, distinct from `v` and `p`, as coherence and
acyclicity of a well-formed STT guarantee), performs exactly the specified
update: the direct-separator child's `pdist` and `adist` are swapped;
`p.pdist` becomes the old `v.pdist`; if `v` was the direct-separator child
of `p` then `v.pdist` becomes the old `v.adist`, `v.adist` becomes old
`v.pdist ⊕` old `p.adist`, and `p.adist` is unchanged; otherwise `v.pdist`
becomes old `v.pdist ⊕` old `p.pdist`, `v.adist` is unchanged, and
`p.adist` becomes the old `p.pdist`.  No other node's data and no
structure is modified. -/
theorem c5_monoid_before_rotation {W : Type} [Add W] (t : WSTT W) (v p : Nat)
    (hp : t.s.parent v = some p) (hvp : v ≠ p)
    (hcv : t.s.dsep v ≠ some v) (hcp : t.s.dsep v ≠ some p) :
    t.beforeRotation v = some (t.beforeRotationAt v p) ∧
    (t.beforeRotationAt v p).s = t.s ∧
    (∀ c, t.s.dsep v = some c →
       (t.beforeRotationAt v p).pd c = t.ad c ∧ (t.beforeRotationAt v p).ad c = t.pd c) ∧
    (t.beforeRotationAt v p).pd p = t.pd v ∧
    (t.s.dsep p = some v →
       (t.beforeRotationAt v p).pd v = t.ad v ∧
       (t.beforeRotationAt v p).ad v = (t.pd v).add (t.ad p) ∧
       (t.beforeRotationAt v p).ad p = t.ad p) ∧
    (t.s.dsep p ≠ some v →
       (t.beforeRotationAt v p).pd v = (t.pd v).add (t.pd p) ∧
       (t.beforeRotationAt v p).ad v = t.ad v ∧
       (t.beforeRotationAt v p).ad p = t.pd p) ∧
    (∀ u, u ≠ v → u ≠ p → t.s.dsep v ≠ some u →
       (t.beforeRotationAt v p).pd u = t.pd u ∧ (t.beforeRotationAt v p).ad u = t.ad u) := by
  have hpv : p ≠ v := Ne.symm hvp
  have hbr : t.beforeRotation v = some (t.beforeRotationAt v p) := by
    unfold WSTT.beforeRotation
    rw [hp]
  have hs : (t.beforeRotationAt v p).s = t.s := by
    unfold WSTT.beforeRotationAt
    split <;> split <;> rfl
  rcases hdv : t.s.dsep v with _ | c
  · by_cases hdp : t.s.dsep p = some v
    · refine ⟨hbr, hs, ?_, ?_, ?_, fun h => absurd hdp h, ?_⟩
      · intro c hc
        exact absurd hc (by simp)
      · simp [WSTT.beforeRotationAt, hdv, hdp, updWI, hvp, hpv]
      · intro _
        refine ⟨?_, ?_, ?_⟩ <;> simp [WSTT.beforeRotationAt, hdv, hdp, updWI, hvp, hpv]
      · intro u huv hup _
        constructor <;> simp [WSTT.beforeRotationAt, hdv, hdp, updWI, hvp, hpv, huv, hup]
    · refine ⟨hbr, hs, ?_, ?_, fun h => absurd h hdp, ?_, ?_⟩
      · intro c hc
        exact absurd hc (by simp)
      · simp [WSTT.beforeRotationAt, hdv, hdp, updWI, hvp, hpv]
      · intro _
        refine ⟨?_, ?_, ?_⟩ <;> simp [WSTT.beforeRotationAt, hdv, hdp, updWI, hvp, hpv]
      · intro u huv hup _
        constructor <;> simp [WSTT.beforeRotationAt, hdv, hdp, updWI, hvp, hpv, huv, hup]
  · have hcvne : c ≠ v := fun h => hcv (h ▸ hdv)
    have hcpne : c ≠ p := fun h => hcp (h ▸ hdv)
    have hvc : v ≠ c := Ne.symm hcvne
    have hpc : p ≠ c := Ne.symm hcpne
    by_cases hdp : t.s.dsep p = some v
    · refine ⟨hbr, hs, ?_, ?_, ?_, fun h => absurd hdp h, ?_⟩
      · intro c' hc'
        obtain rfl : c = c' := Option.some.inj hc'
        constructor <;>
          simp [WSTT.beforeRotationAt, hdv, hdp, updWI, hvp, hpv, hcvne, hcpne, hvc, hpc]
      · simp [WSTT.beforeRotationAt, hdv, hdp, updWI, hvp, hpv, hcvne, hcpne, hvc, hpc]
      · intro _
        refine ⟨?_, ?_, ?_⟩ <;>
          simp [WSTT.beforeRotationAt, hdv, hdp, updWI, hvp, hpv, hcvne, hcpne, hvc, hpc]
      · intro u huv hup huc
        have hcu : c ≠ u := fun h => huc (congrArg some h)
        have huc2 : u ≠ c := Ne.symm hcu
        constructor <;>
          simp [WSTT.beforeRotationAt, hdv, hdp, updWI, hvp, hpv, hcvne, hcpne, hvc, hpc,
            huv, hup, huc2, hcu]
    · refine ⟨hbr, hs, ?_, ?_, fun h => absurd h hdp, ?_, ?_⟩
      · intro c' hc'
        obtain rfl : c = c' := Option.some.inj hc'
        constructor <;>
          simp [WSTT.beforeRotationAt, hdv, hdp, updWI, hvp, hpv, hcvne, hcpne, hvc, hpc]
      · simp [WSTT.beforeRotationAt, hdv, hdp, updWI, hvp, hpv, hcvne, hcpne, hvc, hpc]
      · intro _
        refine ⟨?_, ?_, ?_⟩ <;>
          simp [WSTT.beforeRotationAt, hdv, hdp, updWI, hvp, hpv, hcvne, hcpne, hvc, hpc]
      · intro u huv hup huc
        have hcu : c ≠ u := fun h => huc (congrArg some h)
        have huc2 : u ≠ c := Ne.symm hcu
        constructor <;>
          simp [WSTT.beforeRotationAt, hdv, hdp, updWI, hvp, hpv, hcvne, hcpne, hvc, hpc,
            huv, hup, huc2, hcu]

/-- **C5** — witness: the update theorem applied to the concrete state
`exC5w` at node 0 with parent 1 (where node 0 is the direct-separator
child of node 1). -/
theorem c5_monoid_before_rotation_witness :
    (exC5w.beforeRotationAt 0 1).pd 1 = exC5w.pd 0 ∧
    (exC5w.beforeRotationAt 0 1).pd 0 = exC5w.ad 0 ∧
    (exC5w.beforeRotationAt 0 1).ad 1 = exC5w.ad 1 ∧
    (exC5w.beforeRotationAt 0 1).pd 3 = exC5w.pd 3 := by
  have h := c5_monoid_before_rotation exC5w 0 1 rfl (by decide) (by decide) (by decide)
  exact ⟨h.2.2.2.1, (h.2.2.2.2.1 rfl).1, (h.2.2.2.2.1 rfl).2.2,
    (h.2.2.2.2.2.2 3 (by decide) (by decide) (by decide)).1⟩

/-- **C9** — witness: the amended attach/detach theorem applied to the
concrete state `exC9`. -/
theorem c9_attach_detach_witness :
    (WSTT.afterAttached exC9 0 9).pd 0 = WInf.finite 9 ∧
    (WSTT.beforeDetached exC9 0).pd 0 = WInf.infinite ∧
    (WSTT.beforeDetached exC9 0).ad = exC9.ad := by
  have h := c9_attach_detach exC9 (LCT.init Nat 1) 0 9
  exact ⟨h.1, h.2.2.1, h.2.2.2.1⟩

/-! ### Rotation invariants: pointwise form of `rotateSpec`, depth, and
preservation of well-formedness -/

theorem rotateSpec_n (t : STT) (v p : Nat) : (rotateSpec t v p).n = t.n := rfl

theorem rotateSpec_parent (t : STT) (v p w : Nat) :
    (rotateSpec t v p).parent w =
      if w = p then some v
      else if w = v then t.parent p
      else if t.dsep v = some w then some p
      else t.parent w := rfl

theorem rotateSpec_dsep (t : STT) (v p w : Nat) :
    (rotateSpec t v p).dsep w =
      if w = p then t.dsep v
      else if w = v then
        (if (t.parent p).isSome then
          (if t.dsep p = some v then t.isep v else some p) else none)
      else if t.dsep v = some w then t.isep w
      else if t.parent p = some w then
        (if t.dsep w = some p then some v else t.dsep w)
      else t.dsep w := rfl

theorem rotateSpec_isep (t : STT) (v p w : Nat) :
    (rotateSpec t v p).isep w =
      if w = p then
        (if optIsDifferent (t.dsep p) v then t.dsep p
         else if t.isep p = some v then none else t.isep p)
      else if w = v then
        (if (t.parent p).isSome ∧ t.dsep p = some v then
          (if t.isSep p then some p else none) else t.isep v)
      else if t.dsep v = some w then t.dsep w
      else if t.parent p = some w then
        (if t.dsep w ≠ some p ∧ t.isep w = some p then some v else t.isep w)
      else t.isep w := rfl

theorem parent4_cycle_absurd (t : STT) (hac : ∃ k, iterPar t k v = none)
    {p g a : Nat} (hp : t.parent v = some p) (hg : t.parent p = some g)
    (ha : t.parent g = some a) (hr : t.parent a = some v) : False :=
  iterPar_cycle_absurd t hac (by norm_num)
    (show iterPar t 4 v = some v by simp [iterPar, hp, hg, ha, hr])

/-- A parent structure admitting a strictly decreasing rank is acyclic. -/
theorem acyc_of_rank (t : STT) (m : Nat → Nat)
    (h : ∀ w q, t.parent w = some q → m q < m w) :
    ∀ n w, m w ≤ n → ∃ k, iterPar t k w = none := by
  intro n
  induction n with
  | zero =>
    intro w hw
    cases hpw : t.parent w with
    | none => exact ⟨1, by rw [iterPar_one]; exact hpw⟩
    | some q => exact absurd (h w q hpw) (by omega)
  | succ n ih =>
    intro w hw
    cases hpw : t.parent w with
    | none => exact ⟨1, by rw [iterPar_one]; exact hpw⟩
    | some q =>
      obtain ⟨k, hk⟩ := ih q (by have := h w q hpw; omega)
      refine ⟨1 + k, ?_⟩
      rw [iterPar_add, iterPar_one, hpw]
      exact hk

theorem iterPar_succ_head (t : STT) {w q : Nat} (hw : t.parent w = some q) (k : Nat) :
    iterPar t (k + 1) w = iterPar t k q := by
  have h1 : iterPar t (1 + k) w = (iterPar t 1 w).bind (fun x => iterPar t k x) :=
    iterPar_add t 1 k w
  rw [Nat.add_comm] at h1
  rw [h1, iterPar_one, hw]
  rfl

theorem dep_parent_none (t : STT) {w : Nat} (h : ∃ k, iterPar t k w = none)
    (hw : t.parent w = none) : dep t w h = 1 := by
  unfold dep
  apply Nat.le_antisymm
  · exact Nat.find_le (by rw [iterPar_one]; exact hw)
  · by_contra hlt
    have h0 : Nat.find h = 0 := by omega
    have hs := Nat.find_spec h
    rw [h0] at hs
    simp [iterPar] at hs

theorem dep_parent_some (t : STT) {w q : Nat} (hw : t.parent w = some q)
    (h : ∃ k, iterPar t k w = none) (hq : ∃ k, iterPar t k q = none) :
    dep t w h = dep t q hq + 1 := by
  unfold dep
  apply Nat.le_antisymm
  · exact Nat.find_le (by rw [iterPar_succ_head t hw]; exact Nat.find_spec hq)
  · have h0 : Nat.find h ≠ 0 := by
      intro h0
      have hs := Nat.find_spec h
      rw [h0] at hs
      simp [iterPar] at hs
    obtain ⟨k, hk⟩ : ∃ k, Nat.find h = k + 1 := ⟨Nat.find h - 1, by omega⟩
    have hkq : iterPar t k q = none := by
      rw [← iterPar_succ_head t hw, ← hk]
      exact Nat.find_spec h
    have hle : Nat.find hq ≤ k := Nat.find_le hkq
    omega

theorem dep_pos (t : STT) {w : Nat} (h : ∃ k, iterPar t k w = none) :
    1 ≤ dep t w h := by
  unfold dep
  by_contra hlt
  have h0 : Nat.find h = 0 := by omega
  have hs := Nat.find_spec h
  rw [h0] at hs
  simp [iterPar] at hs

/-- Acyclicity of the parent structure after a rotation, via an explicit
rank function: `dg` is the depth of the grandparent (0 when `p` is a
root). -/
theorem acyc_rotateSpec_aux (t : STT) (hb : WFb t) {v p : Nat} (hp : t.parent v = some p)
    (dg : Nat) (hdp : dep t p (hb.acyc p) = dg + 1) :
    ∀ w, ∃ k, iterPar (rotateSpec t v p) k w = none := by
  obtain ⟨hvp, hgf, hcf⟩ := rotDistinct t hb hp
  have hpv : p ≠ v := Ne.symm hvp
  have hdv : dep t v (hb.acyc v) = dg + 2 := by
    rw [dep_parent_some t hp (hb.acyc v) (hb.acyc p), hdp]
  set m : Nat → Nat := fun w =>
    if w = v then 4 * dg + 1
    else if w = p then 4 * dg + 2
    else if t.dsep v = some w then 4 * dg + 3
    else 4 * dep t w (hb.acyc w) with hm
  have hedge : ∀ w q, (rotateSpec t v p).parent w = some q → m q < m w := by
    intro w q hq
    rw [rotateSpec_parent] at hq
    split_ifs at hq with h1 h2 h3
    · obtain rfl := Option.some.inj hq
      obtain rfl := h1.symm
      have e1 : m v = 4 * dg + 1 := by simp [hm]
      have e2 : m p = 4 * dg + 2 := by simp [hm, hpv]
      omega
    · obtain rfl := h2.symm
      have hqv : q ≠ v := by
        rintro rfl
        exact parent2_cycle_absurd t (hb.acyc q) hp hq
      have hqp : q ≠ p := by
        rintro rfl
        exact parent_self_absurd t (hb.acyc q) hq
      have hqc : ¬ (t.dsep v = some q) := fun hdq => (hcf q hdq).2.2 q hq rfl
      have hdq : dep t q (hb.acyc q) = dg := by
        have h6 := dep_parent_some t hq (hb.acyc p) (hb.acyc q)
        omega
      have e1 : m q = 4 * dg := by simp [hm, hqv, hqp, hqc, hdq]
      have e2 : m v = 4 * dg + 1 := by simp [hm]
      omega
    · obtain rfl := Option.some.inj hq
      obtain ⟨hwv, hwp, -⟩ := hcf w h3
      have e1 : m p = 4 * dg + 2 := by simp [hm, hpv]
      have e2 : m w = 4 * dg + 3 := by simp [hm, hwv, hwp, h3]
      omega
    · have hdw : dep t w (hb.acyc w) = dep t q (hb.acyc q) + 1 :=
        dep_parent_some t hq (hb.acyc w) (hb.acyc q)
      have e2 : m w = 4 * dep t w (hb.acyc w) := by simp [hm, h1, h2, h3]
      by_cases hqv : q = v
      · obtain rfl := hqv.symm
        have e1 : m v = 4 * dg + 1 := by simp [hm]
        omega
      · by_cases hqp : q = p
        · obtain rfl := hqp.symm
          have e1 : m p = 4 * dg + 2 := by simp [hm, hpv]
          omega
        · by_cases hqc : t.dsep v = some q
          · have hqpar : t.parent q = some v := hb.dsCoh v q hqc
            have hdq : dep t q (hb.acyc q) = dg + 3 := by
              have h6 := dep_parent_some t hqpar (hb.acyc q) (hb.acyc v)
              omega
            have e1 : m q = 4 * dg + 3 := by simp [hm, hqv, hqp, hqc]
            omega
          · have e1 : m q = 4 * dep t q (hb.acyc q) := by simp [hm, hqv, hqp, hqc]
            omega
  intro w
  exact acyc_of_rank (rotateSpec t v p) m hedge (m w) w le_rfl

/-- The structural invariants `WFb` survive any successful rotation,
legal or not. -/
theorem WFb_rotateSpec (t : STT) (hb : WFb t) {v p : Nat} (hp : t.parent v = some p) :
    WFb (rotateSpec t v p) := by
  obtain ⟨hvp, hgf, hcf⟩ := rotDistinct t hb hp
  have hpv : p ≠ v := Ne.symm hvp
  have hvn : v < t.n := (hb.parRange v p hp).1
  have hpn : p < t.n := (hb.parRange v p hp).2
  have cyc1 : ∀ {a : Nat}, t.parent a = some a → False := by
    intro a ha
    exact parent_self_absurd t (hb.acyc a) ha
  have cyc2 : ∀ {a b : Nat}, t.parent a = some b → t.parent b = some a → False := by
    intro a b ha hab
    exact parent2_cycle_absurd t (hb.acyc a) ha hab
  have cyc3 : ∀ {a b c : Nat}, t.parent a = some b → t.parent b = some c →
      t.parent c = some a → False := by
    intro a b c ha hab hac2
    exact parent3_cycle_absurd t (hb.acyc a) ha hab hac2
  refine ⟨?_, ?_, ?_, ?_, ?_, ?_, ?_⟩
  · -- parRange
    intro w x hwx
    rw [rotateSpec_parent] at hwx
    rw [rotateSpec_n]
    split_ifs at hwx with h1 h2 h3
    · obtain rfl := Option.some.inj hwx
      obtain rfl := h1.symm
      exact ⟨hpn, hvn⟩
    · obtain rfl := h2.symm
      exact ⟨hvn, (hb.parRange p x hwx).2⟩
    · obtain rfl := Option.some.inj hwx
      exact ⟨(hb.dsRange v w h3).2, hpn⟩
    · exact hb.parRange w x hwx
  · -- dsRange
    intro w x hwx
    rw [rotateSpec_dsep] at hwx
    rw [rotateSpec_n]
    by_cases h1 : w = p
    · obtain rfl := h1.symm
      rw [if_pos rfl] at hwx
      exact ⟨hpn, (hb.dsRange v x hwx).2⟩
    rw [if_neg h1] at hwx
    by_cases h2 : w = v
    · obtain rfl := h2.symm
      rw [if_pos rfl] at hwx
      by_cases hs : (t.parent p).isSome = true
      · rw [if_pos hs] at hwx
        by_cases hd : t.dsep p = some v
        · rw [if_pos hd] at hwx
          exact ⟨hvn, (hb.isRange v x hwx).2⟩
        · rw [if_neg hd] at hwx
          obtain rfl := Option.some.inj hwx
          exact ⟨hvn, hpn⟩
      · rw [if_neg hs] at hwx
        simp at hwx
    rw [if_neg h2] at hwx
    by_cases h3 : t.dsep v = some w
    · rw [if_pos h3] at hwx
      exact ⟨(hb.dsRange v w h3).2, (hb.isRange w x hwx).2⟩
    rw [if_neg h3] at hwx
    by_cases h4 : t.parent p = some w
    · rw [if_pos h4] at hwx
      by_cases hd : t.dsep w = some p
      · rw [if_pos hd] at hwx
        obtain rfl := Option.some.inj hwx
        exact ⟨(hb.parRange p w h4).2, hvn⟩
      · rw [if_neg hd] at hwx
        exact ⟨(hb.parRange p w h4).2, (hb.dsRange w x hwx).2⟩
    rw [if_neg h4] at hwx
    exact hb.dsRange w x hwx
  · -- isRange
    intro w x hwx
    rw [rotateSpec_isep] at hwx
    rw [rotateSpec_n]
    by_cases h1 : w = p
    · obtain rfl := h1.symm
      rw [if_pos rfl] at hwx
      by_cases ho : optIsDifferent (t.dsep p) v = true
      · rw [if_pos ho] at hwx
        exact ⟨hpn, (hb.dsRange p x hwx).2⟩
      · rw [if_neg ho] at hwx
        by_cases hi : t.isep p = some v
        · rw [if_pos hi] at hwx
          simp at hwx
        · rw [if_neg hi] at hwx
          exact ⟨hpn, (hb.isRange p x hwx).2⟩
    rw [if_neg h1] at hwx
    by_cases h2 : w = v
    · obtain rfl := h2.symm
      rw [if_pos rfl] at hwx
      by_cases hc2 : (t.parent p).isSome = true ∧ t.dsep p = some v
      · rw [if_pos hc2] at hwx
        by_cases hps : t.isSep p = true
        · rw [if_pos hps] at hwx
          obtain rfl := Option.some.inj hwx
          exact ⟨hvn, hpn⟩
        · rw [if_neg hps] at hwx
          simp at hwx
      · rw [if_neg hc2] at hwx
        exact ⟨hvn, (hb.isRange v x hwx).2⟩
    rw [if_neg h2] at hwx
    by_cases h3 : t.dsep v = some w
    · rw [if_pos h3] at hwx
      exact ⟨(hb.dsRange v w h3).2, (hb.dsRange w x hwx).2⟩
    rw [if_neg h3] at hwx
    by_cases h4 : t.parent p = some w
    · rw [if_pos h4] at hwx
      by_cases hcnd : t.dsep w ≠ some p ∧ t.isep w = some p
      · rw [if_pos hcnd] at hwx
        obtain rfl := Option.some.inj hwx
        exact ⟨(hb.parRange p w h4).2, hvn⟩
      · rw [if_neg hcnd] at hwx
        exact ⟨(hb.parRange p w h4).2, (hb.isRange w x hwx).2⟩
    rw [if_neg h4] at hwx
    exact hb.isRange w x hwx
  · -- dsCoh
    intro w x hwx
    rw [rotateSpec_dsep] at hwx
    rw [rotateSpec_parent]
    by_cases h1 : w = p
    · obtain rfl := h1.symm
      rw [if_pos rfl] at hwx
      obtain ⟨hxv, hxp, -⟩ := hcf x hwx
      simp [hxp, hxv, hwx]
    rw [if_neg h1] at hwx
    by_cases h2 : w = v
    · obtain rfl := h2.symm
      rw [if_pos rfl] at hwx
      by_cases hs : (t.parent p).isSome = true
      · rw [if_pos hs] at hwx
        by_cases hd : t.dsep p = some v
        · rw [if_pos hd] at hwx
          have hxpar : t.parent x = some v := hb.isCoh v x hwx
          have hxv : x ≠ v := fun h => cyc1 (h ▸ hxpar)
          have hxp : x ≠ p := fun h => cyc2 hp (h ▸ hxpar)
          have hxc : ¬ (t.dsep v = some x) := fun h => hb.dsIsNe v x h hwx
          simp [hxp, hxv, hxc, hxpar]
        · rw [if_neg hd] at hwx
          obtain rfl := Option.some.inj hwx
          simp
      · rw [if_neg hs] at hwx
        simp at hwx
    rw [if_neg h2] at hwx
    by_cases h3 : t.dsep v = some w
    · rw [if_pos h3] at hwx
      have hwpar : t.parent w = some v := hb.dsCoh v w h3
      have hxpar : t.parent x = some w := hb.isCoh w x hwx
      have hxp : x ≠ p := by
        rintro rfl
        exact cyc3 hp hxpar hwpar
      have hxv : x ≠ v := by
        rintro rfl
        rw [hp] at hxpar
        exact h1 (Option.some.inj hxpar).symm
      have hxc : ¬ (t.dsep v = some x) := by
        intro hdx
        rw [h3] at hdx
        obtain rfl := Option.some.inj hdx
        exact cyc1 hxpar
      simp [hxp, hxv, hxc, hxpar]
    rw [if_neg h3] at hwx
    by_cases h4 : t.parent p = some w
    · rw [if_pos h4] at hwx
      by_cases hd : t.dsep w = some p
      · rw [if_pos hd] at hwx
        obtain rfl := Option.some.inj hwx
        simp [hvp, h4]
      · rw [if_neg hd] at hwx
        have hxpar : t.parent x = some w := hb.dsCoh w x hwx
        have hxp : x ≠ p := fun h => hd (h ▸ hwx)
        have hxv : x ≠ v := by
          rintro rfl
          rw [hp] at hxpar
          exact h1 (Option.some.inj hxpar).symm
        have hxc : ¬ (t.dsep v = some x) := by
          intro hdx
          have h5 := hb.dsCoh v x hdx
          rw [h5] at hxpar
          exact h2 (Option.some.inj hxpar).symm
        simp [hxp, hxv, hxc, hxpar]
    rw [if_neg h4] at hwx
    have hxpar : t.parent x = some w := hb.dsCoh w x hwx
    have hxp : x ≠ p := by
      rintro rfl
      exact h4 hxpar
    have hxv : x ≠ v := by
      rintro rfl
      rw [hp] at hxpar
      exact h1 (Option.some.inj hxpar).symm
    have hxc : ¬ (t.dsep v = some x) := by
      intro hdx
      have h5 := hb.dsCoh v x hdx
      rw [h5] at hxpar
      exact h2 (Option.some.inj hxpar).symm
    simp [hxp, hxv, hxc, hxpar]
  · -- isCoh
    intro w x hwx
    rw [rotateSpec_isep] at hwx
    rw [rotateSpec_parent]
    by_cases h1 : w = p
    · obtain rfl := h1.symm
      rw [if_pos rfl] at hwx
      by_cases ho : optIsDifferent (t.dsep p) v = true
      · rw [if_pos ho] at hwx
        rw [hwx] at ho
        simp [optIsDifferent] at ho
        have hxpar : t.parent x = some p := hb.dsCoh p x hwx
        have hxp : x ≠ p := fun h => cyc1 (h ▸ hxpar)
        have hxc : ¬ (t.dsep v = some x) := by
          intro hdx
          have h5 := hb.dsCoh v x hdx
          rw [h5] at hxpar
          exact hvp (Option.some.inj hxpar)
        simp [hxp, ho, hxc, hxpar]
      · rw [if_neg ho] at hwx
        by_cases hi : t.isep p = some v
        · rw [if_pos hi] at hwx
          simp at hwx
        · rw [if_neg hi] at hwx
          have hxpar : t.parent x = some p := hb.isCoh p x hwx
          have hxp : x ≠ p := fun h => cyc1 (h ▸ hxpar)
          have hxv : x ≠ v := fun h => hi (h ▸ hwx)
          have hxc : ¬ (t.dsep v = some x) := by
            intro hdx
            have h5 := hb.dsCoh v x hdx
            rw [h5] at hxpar
            exact hvp (Option.some.inj hxpar)
          simp [hxp, hxv, hxc, hxpar]
    rw [if_neg h1] at hwx
    by_cases h2 : w = v
    · obtain rfl := h2.symm
      rw [if_pos rfl] at hwx
      by_cases hc2 : (t.parent p).isSome = true ∧ t.dsep p = some v
      · rw [if_pos hc2] at hwx
        by_cases hps : t.isSep p = true
        · rw [if_pos hps] at hwx
          obtain rfl := Option.some.inj hwx
          simp
        · rw [if_neg hps] at hwx
          simp at hwx
      · rw [if_neg hc2] at hwx
        have hxpar : t.parent x = some v := hb.isCoh v x hwx
        have hxv : x ≠ v := fun h => cyc1 (h ▸ hxpar)
        have hxp : x ≠ p := fun h => cyc2 hp (h ▸ hxpar)
        have hxc : ¬ (t.dsep v = some x) := fun h => hb.dsIsNe v x h hwx
        simp [hxp, hxv, hxc, hxpar]
    rw [if_neg h2] at hwx
    by_cases h3 : t.dsep v = some w
    · rw [if_pos h3] at hwx
      have hwpar : t.parent w = some v := hb.dsCoh v w h3
      have hxpar : t.parent x = some w := hb.dsCoh w x hwx
      have hxp : x ≠ p := by
        rintro rfl
        exact cyc3 hp hxpar hwpar
      have hxv : x ≠ v := by
        rintro rfl
        rw [hp] at hxpar
        exact h1 (Option.some.inj hxpar).symm
      have hxc : ¬ (t.dsep v = some x) := by
        intro hdx
        rw [h3] at hdx
        obtain rfl := Option.some.inj hdx
        exact cyc1 hxpar
      simp [hxp, hxv, hxc, hxpar]
    rw [if_neg h3] at hwx
    by_cases h4 : t.parent p = some w
    · rw [if_pos h4] at hwx
      by_cases hcnd : t.dsep w ≠ some p ∧ t.isep w = some p
      · rw [if_pos hcnd] at hwx
        obtain rfl := Option.some.inj hwx
        simp [hvp, h4]
      · rw [if_neg hcnd] at hwx
        have hxpar : t.parent x = some w := hb.isCoh w x hwx
        have hxp : x ≠ p := by
          rintro rfl
          have hdw : t.dsep w = some x := by
            by_contra hne
            exact hcnd ⟨hne, hwx⟩
          exact hb.dsIsNe w x hdw hwx
        have hxv : x ≠ v := by
          rintro rfl
          rw [hp] at hxpar
          exact h1 (Option.some.inj hxpar).symm
        have hxc : ¬ (t.dsep v = some x) := by
          intro hdx
          have h5 := hb.dsCoh v x hdx
          rw [h5] at hxpar
          exact h2 (Option.some.inj hxpar).symm
        simp [hxp, hxv, hxc, hxpar]
    rw [if_neg h4] at hwx
    have hxpar : t.parent x = some w := hb.isCoh w x hwx
    have hxp : x ≠ p := by
      rintro rfl
      exact h4 hxpar
    have hxv : x ≠ v := by
      rintro rfl
      rw [hp] at hxpar
      exact h1 (Option.some.inj hxpar).symm
    have hxc : ¬ (t.dsep v = some x) := by
      intro hdx
      have h5 := hb.dsCoh v x hdx
      rw [h5] at hxpar
      exact h2 (Option.some.inj hxpar).symm
    simp [hxp, hxv, hxc, hxpar]
  · -- dsIsNe
    intro w x hdx hix
    rw [rotateSpec_dsep] at hdx
    rw [rotateSpec_isep] at hix
    by_cases h1 : w = p
    · obtain rfl := h1.symm
      rw [if_pos rfl] at hdx hix
      have hxpv : t.parent x = some v := hb.dsCoh v x hdx
      by_cases ho : optIsDifferent (t.dsep p) v = true
      · rw [if_pos ho] at hix
        have hxpp : t.parent x = some p := hb.dsCoh p x hix
        rw [hxpv] at hxpp
        exact hvp (Option.some.inj hxpp)
      · rw [if_neg ho] at hix
        by_cases hi : t.isep p = some v
        · rw [if_pos hi] at hix
          simp at hix
        · rw [if_neg hi] at hix
          have hxpp : t.parent x = some p := hb.isCoh p x hix
          rw [hxpv] at hxpp
          exact hvp (Option.some.inj hxpp)
    rw [if_neg h1] at hdx hix
    by_cases h2 : w = v
    · obtain rfl := h2.symm
      rw [if_pos rfl] at hdx hix
      by_cases hs : (t.parent p).isSome = true
      · rw [if_pos hs] at hdx
        by_cases hd : t.dsep p = some v
        · rw [if_pos hd] at hdx
          rw [if_pos ⟨hs, hd⟩] at hix
          have hxpar : t.parent x = some v := hb.isCoh v x hdx
          by_cases hps : t.isSep p = true
          · rw [if_pos hps] at hix
            obtain rfl := Option.some.inj hix
            exact cyc2 hp hxpar
          · rw [if_neg hps] at hix
            simp at hix
        · rw [if_neg hd] at hdx
          rw [if_neg (fun hcc => hd hcc.2)] at hix
          obtain rfl := Option.some.inj hdx
          have hppar : t.parent p = some v := hb.isCoh v p hix
          exact cyc2 hp hppar
      · rw [if_neg hs] at hdx
        simp at hdx
    rw [if_neg h2] at hdx hix
    by_cases h3 : t.dsep v = some w
    · rw [if_pos h3] at hdx hix
      exact hb.dsIsNe w x hix hdx
    rw [if_neg h3] at hdx hix
    by_cases h4 : t.parent p = some w
    · rw [if_pos h4] at hdx hix
      by_cases hd : t.dsep w = some p
      · rw [if_pos hd] at hdx
        obtain rfl := Option.some.inj hdx
        have hcond : ¬ (t.dsep w ≠ some p ∧ t.isep w = some p) := fun hcc => hcc.1 hd
        rw [if_neg hcond] at hix
        have hvpar : t.parent v = some w := hb.isCoh w v hix
        rw [hp] at hvpar
        exact h1 (Option.some.inj hvpar).symm
      · rw [if_neg hd] at hdx
        by_cases hcnd : t.dsep w ≠ some p ∧ t.isep w = some p
        · rw [if_pos hcnd] at hix
          obtain rfl := Option.some.inj hix
          have hvpar : t.parent v = some w := hb.dsCoh w v hdx
          rw [hp] at hvpar
          exact h1 (Option.some.inj hvpar).symm
        · rw [if_neg hcnd] at hix
          exact hb.dsIsNe w x hdx hix
    rw [if_neg h4] at hdx hix
    exact hb.dsIsNe w x hdx hix
  · -- acyc
    rcases hgp : t.parent p with _ | g
    · exact acyc_rotateSpec_aux t hb hp 0 (by rw [dep_parent_none t (hb.acyc p) hgp])
    · exact acyc_rotateSpec_aux t hb hp (dep t g (hb.acyc g))
        (dep_parent_some t hgp (hb.acyc p) (hb.acyc g))

/-- Characterization of `is_separator` through the parent. -/
theorem isSep_iff (t : STT) {v p : Nat} (hp : t.parent v = some p) :
    t.isSep v = true ↔ (t.dsep p = some v ∨ t.isep p = some v) := by
  simp [STT.isSep, STT.isDirectSep, STT.isIndirectSep, hp]

theorem isSep_root (t : STT) {v : Nat} (hv : t.parent v = none) :
    t.isSep v = false := by
  simp [STT.isSep, STT.isDirectSep, STT.isIndirectSep, hv]

theorem isSep_of_dsep (t : STT) {w a : Nat} (hpar : t.parent w = some a)
    (hd : t.dsep a = some w) : t.isSep w = true := by
  simp [STT.isSep, STT.isDirectSep, hpar, hd]

theorem isSep_of_isep (t : STT) {w a : Nat} (hpar : t.parent w = some a)
    (hi : t.isep a = some w) : t.isSep w = true := by
  simp [STT.isSep, STT.isIndirectSep, hpar, hi]

theorem isSep_elim (t : STT) {w : Nat} (h : t.isSep w = true) :
    ∃ a, t.parent w = some a ∧ (t.dsep a = some w ∨ t.isep a = some w) := by
  rcases hpw : t.parent w with _ | a
  · rw [isSep_root t hpw] at h
    exact Bool.noConfusion h
  · exact ⟨a, rfl, (isSep_iff t hpw).mp h⟩

theorem canRotate_iff (t : STT) {v p : Nat} (hp : t.parent v = some p) :
    t.canRotate v = true ↔ (t.isSep v = true ∨ t.isSep p = false) := by
  simp [STT.canRotate, hp]

/-- Full well-formedness (including `rootClean` and `isepSep`) is
preserved by legal rotations. -/
theorem WF_rotateSpec (t : STT) (hw : WF t) {v p : Nat} (hp : t.parent v = some p)
    (hl : t.canRotate v = true) : WF (rotateSpec t v p) := by
  have hb := hw.toWFb
  obtain ⟨hvp, hgf, hcf⟩ := rotDistinct t hb hp
  have hpv : p ≠ v := Ne.symm hvp
  have cyc1 : ∀ {a : Nat}, t.parent a = some a → False := by
    intro a ha
    exact parent_self_absurd t (hb.acyc a) ha
  have cyc2 : ∀ {a b : Nat}, t.parent a = some b → t.parent b = some a → False := by
    intro a b ha hab
    exact parent2_cycle_absurd t (hb.acyc a) ha hab
  have cyc3 : ∀ {a b c : Nat}, t.parent a = some b → t.parent b = some c →
      t.parent c = some a → False := by
    intro a b c ha hab hac2
    exact parent3_cycle_absurd t (hb.acyc a) ha hab hac2
  refine ⟨WFb_rotateSpec t hb hp, ?_, ?_⟩
  · -- rootClean
    intro w hwroot
    rw [rotateSpec_parent] at hwroot
    rw [rotateSpec_dsep, rotateSpec_isep]
    by_cases h1 : w = p
    · rw [if_pos h1] at hwroot
      exact absurd hwroot (by simp)
    rw [if_neg h1] at hwroot
    by_cases h2 : w = v
    · obtain rfl := h2.symm
      rw [if_pos rfl] at hwroot
      have hiv : t.isep v = none := by
        cases hiv : t.isep v with
        | none => rfl
        | some x =>
          have hsep := hw.isepSep v x hiv
          rw [isSep_iff t hp] at hsep
          obtain ⟨hd0, hi0⟩ := hw.rootClean p hwroot
          rcases hsep with h | h
          · rw [hd0] at h
            exact Option.noConfusion h
          · rw [hi0] at h
            exact Option.noConfusion h
      constructor
      · simp [hvp, hwroot]
      · simp [hvp, hwroot, hiv]
    rw [if_neg h2] at hwroot
    by_cases h3 : t.dsep v = some w
    · rw [if_pos h3] at hwroot
      exact absurd hwroot (by simp)
    rw [if_neg h3] at hwroot
    obtain ⟨hd0, hi0⟩ := hw.rootClean w hwroot
    constructor
    · simp [h1, h2, h3, hd0, hi0]
    · simp [h1, h2, h3, hd0, hi0]
  · -- isepSep
    intro w x hwx
    rw [rotateSpec_isep] at hwx
    by_cases h1 : w = p
    · obtain rfl := h1.symm
      rw [if_pos rfl] at hwx
      have hpar' : (rotateSpec t v p).parent p = some v := by
        rw [rotateSpec_parent]
        simp
      by_cases ho : optIsDifferent (t.dsep p) v = true
      · rw [if_pos ho] at hwx
        rcases hgp : t.parent p with _ | g
        · obtain ⟨hd0, -⟩ := hw.rootClean p hgp
          rw [hd0] at hwx
          exact Option.noConfusion hwx
        · have hvd : ¬ (t.dsep p = some v) := by
            intro hdv2
            rw [hdv2] at ho
            simp [optIsDifferent] at ho
          have hdv' : (rotateSpec t v p).dsep v = some p := by
            rw [rotateSpec_dsep]
            simp [hvp, hgp, hvd]
          exact isSep_of_dsep _ hpar' hdv'
      · rw [if_neg ho] at hwx
        by_cases hi : t.isep p = some v
        · rw [if_pos hi] at hwx
          exact Option.noConfusion hwx
        · rw [if_neg hi] at hwx
          have hps : t.isSep p = true := hw.isepSep p x hwx
          rcases hgp : t.parent p with _ | g
          · rw [isSep_root t hgp] at hps
            exact Bool.noConfusion hps
          · by_cases hvd : t.dsep p = some v
            · have hiv' : (rotateSpec t v p).isep v = some p := by
                rw [rotateSpec_isep]
                simp [hvp, hgp, hvd, hps]
              exact isSep_of_isep _ hpar' hiv'
            · have hdv' : (rotateSpec t v p).dsep v = some p := by
                rw [rotateSpec_dsep]
                simp [hvp, hgp, hvd]
              exact isSep_of_dsep _ hpar' hdv'
    rw [if_neg h1] at hwx
    by_cases h2 : w = v
    · obtain rfl := h2.symm
      rw [if_pos rfl] at hwx
      by_cases hc2 : (t.parent p).isSome = true ∧ t.dsep p = some v
      · rw [if_pos hc2] at hwx
        by_cases hps : t.isSep p = true
        · rw [if_pos hps] at hwx
          obtain ⟨hs, hvd⟩ := hc2
          rcases hgp : t.parent p with _ | g
          · rw [hgp] at hs
            exact Bool.noConfusion hs
          · have hgv : g ≠ v := (hgf g hgp).1
            have hgp2 : g ≠ p := (hgf g hgp).2
            have hgc : ¬ (t.dsep v = some g) := fun hc0 => (hcf g hc0).2.2 g hgp rfl
            have hpar' : (rotateSpec t v p).parent v = some g := by
              rw [rotateSpec_parent]
              simp [hvp, hgp]
            rcases (isSep_iff t hgp).mp hps with hgd | hgi
            · have hda' : (rotateSpec t v p).dsep g = some v := by
                rw [rotateSpec_dsep]
                simp [hgp2, hgv, hgc, hgp, hgd]
              exact isSep_of_dsep _ hpar' hda'
            · have hgd' : ¬ (t.dsep g = some p) := fun h5 => hb.dsIsNe g p h5 hgi
              have hia' : (rotateSpec t v p).isep g = some v := by
                rw [rotateSpec_isep]
                simp [hgp2, hgv, hgc, hgp, hgd', hgi]
              exact isSep_of_isep _ hpar' hia'
        · rw [if_neg hps] at hwx
          exact Option.noConfusion hwx
      · rw [if_neg hc2] at hwx
        have hvsep : t.isSep v = true := hw.isepSep v x hwx
        rcases hgp : t.parent p with _ | g
        · obtain ⟨hd0, hi0⟩ := hw.rootClean p hgp
          rw [isSep_iff t hp, hd0, hi0] at hvsep
          simp at hvsep
        · have hvd : ¬ (t.dsep p = some v) := fun h5 => hc2 ⟨by rw [hgp]; rfl, h5⟩
          have hvi : t.isep p = some v := by
            rcases (isSep_iff t hp).mp hvsep with h5 | h5
            · exact absurd h5 hvd
            · exact h5
          have hps : t.isSep p = true := hw.isepSep p v hvi
          have hgv : g ≠ v := (hgf g hgp).1
          have hgp2 : g ≠ p := (hgf g hgp).2
          have hgc : ¬ (t.dsep v = some g) := fun hc0 => (hcf g hc0).2.2 g hgp rfl
          have hpar' : (rotateSpec t v p).parent v = some g := by
            rw [rotateSpec_parent]
            simp [hvp, hgp]
          rcases (isSep_iff t hgp).mp hps with hgd | hgi
          · have hda' : (rotateSpec t v p).dsep g = some v := by
              rw [rotateSpec_dsep]
              simp [hgp2, hgv, hgc, hgp, hgd]
            exact isSep_of_dsep _ hpar' hda'
          · have hgd' : ¬ (t.dsep g = some p) := fun h5 => hb.dsIsNe g p h5 hgi
            have hia' : (rotateSpec t v p).isep g = some v := by
              rw [rotateSpec_isep]
              simp [hgp2, hgv, hgc, hgp, hgd', hgi]
            exact isSep_of_isep _ hpar' hia'
    rw [if_neg h2] at hwx
    by_cases h3 : t.dsep v = some w
    · have hpar' : (rotateSpec t v p).parent w = some p := by
        rw [rotateSpec_parent]
        simp [h1, h2, h3]
      have hdp' : (rotateSpec t v p).dsep p = some w := by
        rw [rotateSpec_dsep]
        simp [h3]
      exact isSep_of_dsep _ hpar' hdp'
    rw [if_neg h3] at hwx
    by_cases h4 : t.parent p = some w
    · rw [if_pos h4] at hwx
      have hsw : t.isSep w = true := by
        by_cases hcnd : t.dsep w ≠ some p ∧ t.isep w = some p
        · exact hw.isepSep w p hcnd.2
        · rw [if_neg hcnd] at hwx
          exact hw.isepSep w x hwx
      rcases hga : t.parent w with _ | a
      · rw [isSep_root t hga] at hsw
        exact Bool.noConfusion hsw
      · have hap : a ≠ p := by
          rintro rfl
          exact cyc2 h4 hga
        have hav : a ≠ v := by
          rintro rfl
          exact cyc3 hp h4 hga
        have hac : ¬ (t.dsep v = some a) := by
          intro hda
          have hav2 : t.parent a = some v := hb.dsCoh v a hda
          exact parent4_cycle_absurd t (hb.acyc v) hp h4 hga hav2
        have hpa : ¬ (t.parent p = some a) := by
          intro h5
          rw [h4] at h5
          obtain rfl := (Option.some.inj h5).symm
          exact cyc1 hga
        have hpar' : (rotateSpec t v p).parent w = some a := by
          rw [rotateSpec_parent]
          simp [h1, h2, h3, hga]
        rcases (isSep_iff t hga).mp hsw with had | hai
        · have hda' : (rotateSpec t v p).dsep a = some w := by
            rw [rotateSpec_dsep]
            simp [hap, hav, hac, hpa, had]
          exact isSep_of_dsep _ hpar' hda'
        · have hia' : (rotateSpec t v p).isep a = some w := by
            rw [rotateSpec_isep]
            simp [hap, hav, hac, hpa, hai]
          exact isSep_of_isep _ hpar' hia'
    rw [if_neg h4] at hwx
    have hsw : t.isSep w = true := hw.isepSep w x hwx
    rcases hga : t.parent w with _ | a
    · rw [isSep_root t hga] at hsw
      exact Bool.noConfusion hsw
    · have hpar' : (rotateSpec t v p).parent w = some a := by
        rw [rotateSpec_parent]
        simp [h1, h2, h3, hga]
      rcases (isSep_iff t hga).mp hsw with had | hai
      · by_cases hap : a = p
        · obtain rfl := hap.symm
          have hia' : (rotateSpec t v p).isep p = some w := by
            rw [rotateSpec_isep]
            simp [had, optIsDifferent, h2]
          exact isSep_of_isep _ hpar' hia'
        · by_cases hav : a = v
          · obtain rfl := hav.symm
            exact absurd had h3
          · by_cases hac : t.dsep v = some a
            · have hia' : (rotateSpec t v p).isep a = some w := by
                rw [rotateSpec_isep]
                simp [hap, hav, hac, had]
              exact isSep_of_isep _ hpar' hia'
            · by_cases hpa : t.parent p = some a
              · have hda' : (rotateSpec t v p).dsep a = some w := by
                  rw [rotateSpec_dsep]
                  simp [hap, hav, hac, hpa, had, h1]
                exact isSep_of_dsep _ hpar' hda'
              · have hda' : (rotateSpec t v p).dsep a = some w := by
                  rw [rotateSpec_dsep]
                  simp [hap, hav, hac, hpa, had, h1]
                exact isSep_of_dsep _ hpar' hda'
      · by_cases hap : a = p
        · obtain rfl := hap.symm
          have hps : t.isSep p = true := hw.isepSep p w hai
          have hvsep : t.isSep v = true := by
            rcases (canRotate_iff t hp).mp hl with h5 | h5
            · exact h5
            · rw [hps] at h5
              exact Bool.noConfusion h5
          have hvd : t.dsep p = some v := by
            rcases (isSep_iff t hp).mp hvsep with h5 | h5
            · exact h5
            · rw [hai] at h5
              exact absurd (Option.some.inj h5) h2
          have ho : optIsDifferent (t.dsep p) v = false := by
            rw [hvd]
            simp [optIsDifferent]
          have hine : ¬ (t.isep p = some v) := by
            rw [hai]
            exact fun h5 => h2 (Option.some.inj h5)
          have hia' : (rotateSpec t v p).isep p = some w := by
            rw [rotateSpec_isep]
            simp [ho, hine, hai, h2]
          exact isSep_of_isep _ hpar' hia'
        · by_cases hav : a = v
          · obtain rfl := hav.symm
            have hvsep : t.isSep v = true := hw.isepSep v w hai
            rcases hgp : t.parent p with _ | g
            · obtain ⟨hd0, hi0⟩ := hw.rootClean p hgp
              rw [isSep_iff t hp, hd0, hi0] at hvsep
              simp at hvsep
            · by_cases hvd : t.dsep p = some v
              · have hda' : (rotateSpec t v p).dsep v = some w := by
                  rw [rotateSpec_dsep]
                  simp [hvp, hgp, hvd, hai]
                exact isSep_of_dsep _ hpar' hda'
              · have hia' : (rotateSpec t v p).isep v = some w := by
                  rw [rotateSpec_isep]
                  simp [hvp, hgp, hvd, hai]
                exact isSep_of_isep _ hpar' hia'
          · by_cases hac : t.dsep v = some a
            · have hda' : (rotateSpec t v p).dsep a = some w := by
                rw [rotateSpec_dsep]
                simp [hap, hav, hac, hai]
              exact isSep_of_dsep _ hpar' hda'
            · by_cases hpa : t.parent p = some a
              · have hia' : (rotateSpec t v p).isep a = some w := by
                  rw [rotateSpec_isep]
                  simp [hap, hav, hac, hpa, hai, h1]
                exact isSep_of_isep _ hpar' hia'
              · have hia' : (rotateSpec t v p).isep a = some w := by
                  rw [rotateSpec_isep]
                  simp [hap, hav, hac, hpa, hai, h1]
                exact isSep_of_isep _ hpar' hia'


/-- Rotating at a separator never creates separators: every separator of
the rotated tree was already a separator of the original. -/
theorem sep_mono_rotateSpec (t : STT) (hw : WF t) {v p : Nat} (hp : t.parent v = some p)
    (hv : t.isSep v = true) :
    ∀ w, (rotateSpec t v p).isSep w = true → t.isSep w = true := by
  have hb := hw.toWFb
  obtain ⟨hvp, hgf, hcf⟩ := rotDistinct t hb hp
  have hpv : p ≠ v := Ne.symm hvp
  have cyc2 : ∀ {a b : Nat}, t.parent a = some b → t.parent b = some a → False := by
    intro a b ha hab
    exact parent2_cycle_absurd t (hb.acyc a) ha hab
  intro w hsw'
  obtain ⟨a, hpar', hslot⟩ := isSep_elim _ hsw'
  rw [rotateSpec_parent] at hpar'
  by_cases h1 : w = p
  · obtain rfl := h1.symm
    rw [if_pos rfl] at hpar'
    obtain rfl := Option.some.inj hpar'
    rcases hslot with hda | hia
    · rw [rotateSpec_dsep] at hda
      rw [if_neg hvp, if_pos rfl] at hda
      by_cases hs : (t.parent p).isSome = true
      · rw [if_pos hs] at hda
        by_cases hd : t.dsep p = some v
        · rw [if_pos hd] at hda
          exact (cyc2 hp (hb.isCoh v p hda)).elim
        · have hvi : t.isep p = some v := by
            rcases (isSep_iff t hp).mp hv with h5 | h5
            · exact absurd h5 hd
            · exact h5
          exact hw.isepSep p v hvi
      · rw [if_neg hs] at hda
        exact Option.noConfusion hda
    · rw [rotateSpec_isep] at hia
      rw [if_neg hvp, if_pos rfl] at hia
      by_cases hc2 : (t.parent p).isSome = true ∧ t.dsep p = some v
      · rw [if_pos hc2] at hia
        by_cases hps : t.isSep p = true
        · exact hps
        · rw [if_neg hps] at hia
          exact Option.noConfusion hia
      · rw [if_neg hc2] at hia
        exact (cyc2 hp (hb.isCoh v p hia)).elim
  rw [if_neg h1] at hpar'
  by_cases h2 : w = v
  · obtain rfl := h2.symm
    exact hv
  rw [if_neg h2] at hpar'
  by_cases h3 : t.dsep v = some w
  · exact isSep_of_dsep t (hb.dsCoh v w h3) h3
  rw [if_neg h3] at hpar'
  rcases hslot with hda | hia
  · rw [rotateSpec_dsep] at hda
    by_cases hap : a = p
    · obtain rfl := hap.symm
      rw [if_pos rfl] at hda
      exact absurd hda h3
    rw [if_neg hap] at hda
    by_cases hav : a = v
    · obtain rfl := hav.symm
      rw [if_pos rfl] at hda
      by_cases hs : (t.parent p).isSome = true
      · rw [if_pos hs] at hda
        by_cases hd : t.dsep p = some v
        · rw [if_pos hd] at hda
          exact isSep_of_isep t hpar' hda
        · rw [if_neg hd] at hda
          exact absurd (Option.some.inj hda).symm h1
      · rw [if_neg hs] at hda
        exact Option.noConfusion hda
    rw [if_neg hav] at hda
    by_cases hac : t.dsep v = some a
    · rw [if_pos hac] at hda
      exact isSep_of_isep t hpar' hda
    rw [if_neg hac] at hda
    by_cases hpa : t.parent p = some a
    · rw [if_pos hpa] at hda
      by_cases hd : t.dsep a = some p
      · rw [if_pos hd] at hda
        exact absurd (Option.some.inj hda).symm h2
      · rw [if_neg hd] at hda
        exact isSep_of_dsep t hpar' hda
    · rw [if_neg hpa] at hda
      exact isSep_of_dsep t hpar' hda
  · rw [rotateSpec_isep] at hia
    by_cases hap : a = p
    · obtain rfl := hap.symm
      rw [if_pos rfl] at hia
      by_cases ho : optIsDifferent (t.dsep p) v = true
      · rw [if_pos ho] at hia
        exact isSep_of_dsep t hpar' hia
      · rw [if_neg ho] at hia
        by_cases hi : t.isep p = some v
        · rw [if_pos hi] at hia
          exact Option.noConfusion hia
        · rw [if_neg hi] at hia
          exact isSep_of_isep t hpar' hia
    rw [if_neg hap] at hia
    by_cases hav : a = v
    · obtain rfl := hav.symm
      rw [if_pos rfl] at hia
      by_cases hc2 : (t.parent p).isSome = true ∧ t.dsep p = some v
      · rw [if_pos hc2] at hia
        by_cases hps : t.isSep p = true
        · rw [if_pos hps] at hia
          exact absurd (Option.some.inj hia).symm h1
        · rw [if_neg hps] at hia
          exact Option.noConfusion hia
      · rw [if_neg hc2] at hia
        exact isSep_of_isep t hpar' hia
    rw [if_neg hav] at hia
    by_cases hac : t.dsep v = some a
    · rw [if_pos hac] at hia
      exact isSep_of_dsep t hpar' hia
    rw [if_neg hac] at hia
    by_cases hpa : t.parent p = some a
    · rw [if_pos hpa] at hia
      by_cases hcnd : t.dsep a ≠ some p ∧ t.isep a = some p
      · rw [if_pos hcnd] at hia
        exact absurd (Option.some.inj hia).symm h2
      · rw [if_neg hcnd] at hia
        exact isSep_of_isep t hpar' hia
    · rw [if_neg hpa] at hia
      exact isSep_of_isep t hpar' hia

/-- Ancestors of the grandparent are untouched by the rotation. -/
theorem iterPar_rotateSpec_above (t : STT) (hb : WFb t) {v p g : Nat}
    (hp : t.parent v = some p) (hgp : t.parent p = some g) :
    ∀ k, iterPar (rotateSpec t v p) k g = iterPar t k g := by
  intro k
  induction k with
  | zero => rfl
  | succ k ih =>
    show (iterPar (rotateSpec t v p) k g).bind (rotateSpec t v p).parent =
      (iterPar t k g).bind t.parent
    rw [ih]
    cases hx : iterPar t k g with
    | none => rfl
    | some x =>
      have hxp : x ≠ p := by
        rintro rfl
        have hcyc : iterPar t (k + 1) x = some x := by
          rw [iterPar_succ_head t hgp]
          exact hx
        exact iterPar_cycle_absurd t (hb.acyc x) (Nat.succ_pos k) hcyc
      have hxv : x ≠ v := by
        rintro rfl
        have h2v : iterPar t 2 x = some g := by simp [iterPar, hp, hgp]
        have hcyc : iterPar t (2 + k) x = some x := by
          rw [iterPar_add, h2v]
          exact hx
        exact iterPar_cycle_absurd t (hb.acyc x) (by omega) hcyc
      have hxc : ¬ (t.dsep v = some x) := by
        intro hdx
        have hxpar : t.parent x = some v := hb.dsCoh v x hdx
        have h3x : iterPar t 3 x = some g := by simp [iterPar, hxpar, hp, hgp]
        have hcyc : iterPar t (3 + k) x = some x := by
          rw [iterPar_add, h3x]
          exact hx
        exact iterPar_cycle_absurd t (hb.acyc x) (by omega) hcyc
      show (rotateSpec t v p).parent x = t.parent x
      rw [rotateSpec_parent]
      simp [hxp, hxv, hxc]

theorem dep_congr (t t' : STT) {w : Nat} (h : ∀ k, iterPar t' k w = iterPar t k w)
    (ht : ∃ k, iterPar t k w = none) (ht' : ∃ k, iterPar t' k w = none) :
    dep t' w ht' = dep t w ht := by
  unfold dep
  apply Nat.le_antisymm
  · exact Nat.find_le (by rw [h]; exact Nat.find_spec ht)
  · exact Nat.find_le (by rw [← h]; exact Nat.find_spec ht')

/-- Each rotation strictly decreases the depth of the rotated node. -/
theorem dep_rotateSpec_lt (t : STT) (hb : WFb t) {v p : Nat} (hp : t.parent v = some p)
    (h' : ∀ w, ∃ k, iterPar (rotateSpec t v p) k w = none) :
    dep (rotateSpec t v p) v (h' v) < dep t v (hb.acyc v) := by
  have hvp : v ≠ p := (rotDistinct t hb hp).1
  rcases hgp : t.parent p with _ | g
  · have hpar' : (rotateSpec t v p).parent v = none := by
      rw [rotateSpec_parent]
      simp [hvp, hgp]
    rw [dep_parent_none _ (h' v) hpar']
    have h1 := dep_parent_some t hp (hb.acyc v) (hb.acyc p)
    have h2 := dep_pos t (hb.acyc p)
    omega
  · have hpar' : (rotateSpec t v p).parent v = some g := by
      rw [rotateSpec_parent]
      simp [hvp, hgp]
    rw [dep_parent_some _ hpar' (h' v) (h' g)]
    rw [dep_congr t _ (iterPar_rotateSpec_above t hb hp hgp) (hb.acyc g) (h' g)]
    have h1 := dep_parent_some t hp (hb.acyc v) (hb.acyc p)
    have h2 := dep_parent_some t hgp (hb.acyc p) (hb.acyc g)
    omega

/-- In a well-formed structure a node in range has depth at most `n`
(pigeonhole on the distinct nodes of its ancestor chain). -/
theorem dep_le_n (t : STT) (hb : WFb t) {v : Nat} (hv : v < t.n) :
    dep t v (hb.acyc v) ≤ t.n := by
  by_contra hgt
  push_neg at hgt
  have hne : ∀ k, k ≤ t.n → iterPar t k v ≠ none := by
    intro k hk
    have hklt : k < dep t v (hb.acyc v) := by omega
    exact Nat.find_min (hb.acyc v) hklt
  have hsome : ∀ k, k ≤ t.n → ∃ x, iterPar t k v = some x ∧ x < t.n := by
    intro k
    induction k with
    | zero => intro hk0; exact ⟨v, rfl, hv⟩
    | succ k ih =>
      intro hk
      obtain ⟨x, hx, hxn⟩ := ih (by omega)
      have hstep : iterPar t (k + 1) v = t.parent x := by
        show (iterPar t k v).bind t.parent = _
        rw [hx]
        rfl
      cases hpx : t.parent x with
      | none => exact absurd (hstep.trans hpx) (hne (k + 1) hk)
      | some y => exact ⟨y, hstep.trans hpx, (hb.parRange x y hpx).2⟩
  have hmap : ∀ a ∈ Finset.range (t.n + 1),
      (fun k => (iterPar t k v).getD 0) a ∈ Finset.range t.n := by
    intro a ha
    rw [Finset.mem_range] at ha
    obtain ⟨x, hx, hxn⟩ := hsome a (by omega)
    simp [hx, hxn]
  have hcard : (Finset.range t.n).card < (Finset.range (t.n + 1)).card := by simp
  obtain ⟨i, hi, j, hj, hij, hfij⟩ :=
    Finset.exists_ne_map_eq_of_card_lt_of_maps_to hcard hmap
  rw [Finset.mem_range] at hi hj
  obtain ⟨x, hx, -⟩ := hsome i (by omega)
  obtain ⟨y, hy, -⟩ := hsome j (by omega)
  have hxy : x = y := by
    have h5 := hfij
    simp only [hx, hy, Option.getD_some] at h5
    exact h5
  obtain rfl := hxy
  rcases Nat.lt_or_ge i j with hlt | hge
  · obtain ⟨d, rfl⟩ : ∃ d, j = i + d := ⟨j - i, by omega⟩
    have hd : 0 < d := by omega
    have hcyc : iterPar t d x = some x := by
      have h2 : iterPar t (i + d) v = (iterPar t i v).bind (fun z => iterPar t d z) :=
        iterPar_add t i d v
      rw [hx] at h2
      rw [show (some x).bind (fun z => iterPar t d z) = iterPar t d x from rfl] at h2
      rw [← h2]
      exact hy
    exact iterPar_cycle_absurd t (hb.acyc x) hd hcyc
  · have hlt2 : j < i := by omega
    obtain ⟨d, rfl⟩ : ∃ d, i = j + d := ⟨i - j, by omega⟩
    have hd : 0 < d := by omega
    have hcyc : iterPar t d x = some x := by
      have h2 : iterPar t (j + d) v = (iterPar t j v).bind (fun z => iterPar t d z) :=
        iterPar_add t j d v
      rw [hy] at h2
      rw [show (some x).bind (fun z => iterPar t d z) = iterPar t d x from rfl] at h2
      rw [← h2]
      exact hx
    exact iterPar_cycle_absurd t (hb.acyc x) hd hcyc


/-- The inner rotation loop of `make_1_cut`: with fuel at least the depth
of `v`, it succeeds, preserves well-formedness and the node count, leaves
`v` a non-separator, and creates no separators. -/
theorem rotWhileSep_spec : ∀ (fuel : Nat) (t : STT) (v : Nat) (hw : WF t),
    dep t v (hw.toWFb.acyc v) ≤ fuel + 1 →
    ∃ t', rotWhileSep fuel t v = some t' ∧ WF t' ∧ t'.n = t.n ∧
      t'.isSep v = false ∧ (∀ w, t'.isSep w = true → t.isSep w = true) := by
  intro fuel
  induction fuel with
  | zero =>
    intro t v hw hdep
    have hroot : t.parent v = none := by
      cases hpv : t.parent v with
      | none => rfl
      | some p =>
        have h1 := dep_parent_some t hpv (hw.toWFb.acyc v) (hw.toWFb.acyc p)
        have h2 := dep_pos t (hw.toWFb.acyc p)
        omega
    have hns : t.isSep v = false := isSep_root t hroot
    refine ⟨t, ?_, hw, rfl, hns, fun w h => h⟩
    simp [rotWhileSep, hns]
  | succ fuel ih =>
    intro t v hw hdep
    cases hs : t.isSep v with
    | false =>
      refine ⟨t, ?_, hw, rfl, hs, fun w h => h⟩
      simp [rotWhileSep, hs]
    | true =>
      rcases hpv : t.parent v with _ | p
      · rw [isSep_root t hpv] at hs
        exact Bool.noConfusion hs
      · have hb := hw.toWFb
        obtain ⟨hvp, hgfacts, hcfacts⟩ := rotDistinct t hb hpv
        have heq : t.rotateAt v p = rotateSpec t v p :=
          rotateAt_eq_spec t v p hpv hvp hgfacts hcfacts
        have hleg : t.canRotate v = true := (canRotate_iff t hpv).mpr (Or.inl hs)
        have hw' : WF (rotateSpec t v p) := WF_rotateSpec t hw hpv hleg
        have hdlt : dep (rotateSpec t v p) v (hw'.toWFb.acyc v) < dep t v (hb.acyc v) :=
          dep_rotateSpec_lt t hb hpv hw'.toWFb.acyc
        obtain ⟨t', h1, h2, h3, h4, h5⟩ := ih (rotateSpec t v p) v hw' (by omega)
        refine ⟨t', ?_, h2, by rw [h3, rotateSpec_n], h4, ?_⟩
        · show (if t.isSep v = true
              then (t.rotate v).bind (fun t2 => rotWhileSep fuel t2 v)
              else some t) = some t'
          rw [if_pos hs]
          show ((t.parent v).map (fun q => t.rotateAt v q)).bind
            (fun t2 => rotWhileSep fuel t2 v) = some t'
          rw [hpv]
          show rotWhileSep fuel (t.rotateAt v p) v = some t'
          rw [heq]
          exact h1
        · intro w hsw
          exact sep_mono_rotateSpec t hw hpv hs w (h5 w hsw)

/-- The fold of `make_1_cut` over a list of in-range nodes: succeeds,
preserves well-formedness and node count, preserves non-separator status,
and leaves every listed node a non-separator. -/
theorem foldRot_spec : ∀ (l : List Nat) (s : STT) (n0 : Nat), WF s → s.n = n0 →
    (∀ v ∈ l, v < n0) →
    ∃ s', l.foldlM (fun s2 v => rotWhileSep s2.n s2 v) s = some s' ∧ WF s' ∧ s'.n = n0 ∧
      (∀ w, s.isSep w = false → s'.isSep w = false) ∧
      (∀ v ∈ l, s'.isSep v = false) := by
  intro l
  induction l with
  | nil =>
    intro s n0 hw hn hmem
    exact ⟨s, rfl, hw, hn, fun w h => h, by simp⟩
  | cons v l ih =>
    intro s n0 hw hn hmem
    have hvn : v < s.n := by
      rw [hn]
      exact hmem v (by simp)
    have hdep : dep s v (hw.toWFb.acyc v) ≤ s.n + 1 := by
      have := dep_le_n s hw.toWFb hvn
      omega
    obtain ⟨s1, h1, hw1, hn1, hns1, hmono1⟩ := rotWhileSep_spec s.n s v hw hdep
    obtain ⟨s', h2, hw2, hn2, hpres2, hall2⟩ :=
      ih s1 n0 hw1 (hn1.trans hn) (fun u hu => hmem u (List.mem_cons_of_mem _ hu))
    have hanti : ∀ w, s.isSep w = false → s1.isSep w = false := by
      intro w hw0
      cases hsw : s1.isSep w with
      | false => rfl
      | true =>
        rw [hmono1 w hsw] at hw0
        exact Bool.noConfusion hw0
    refine ⟨s', ?_, hw2, hn2, fun w h => hpres2 w (hanti w h), ?_⟩
    · show (rotWhileSep s.n s v).bind
        (fun s2 => l.foldlM (fun s3 u => rotWhileSep s3.n s3 u) s2) = some s'
      rw [h1]
      exact h2
    · intro u hu
      rcases List.mem_cons.mp hu with rfl | hul
      · exact hpres2 u hns1
      · exact hall2 u hul

/-- `make_1_cut` on any well-formed STT succeeds and leaves a structure
with no separators at all. -/
theorem make1cut_spec (t : STT) (hw : WF t) :
    ∃ t', make1cut t = some t' ∧ WF t' ∧ t'.n = t.n ∧ ∀ w, t'.isSep w = false := by
  obtain ⟨t', h1, hw', hn', -, hall⟩ :=
    foldRot_spec (List.range t.n) t t.n hw rfl (fun v hv => List.mem_range.mp hv)
  refine ⟨t', h1, hw', hn', ?_⟩
  intro w
  cases hsw : t'.isSep w with
  | false => rfl
  | true =>
    exfalso
    obtain ⟨a, hpar, hslot⟩ := isSep_elim t' hsw
    have hwn : w < t'.n := by
      rcases hslot with h | h
      · exact (hw'.toWFb.dsRange a w h).2
      · exact (hw'.toWFb.isRange a w h).2
    have hfalse := hall w (by rw [List.mem_range]; omega)
    rw [hfalse] at hsw
    exact Bool.noConfusion hsw


/-- The concrete state `exC7` is well-formed. -/
theorem exC7_wf : WF exC7 :=
  WF_of_dec (by decide)
    (outClean_ofLists _ _ _ (by decide) (by decide))

/-- **C3**: on a well-formed 2-cut STT, any rotation permitted by
`can_rotate` succeeds and preserves well-formedness: direct- and
indirect-separator children still have the node as parent, no node is
simultaneously its parent's direct and indirect separator child, pointers
stay in range, the parent structure stays acyclic, roots have no
separator children, and every node with an indirect-separator child is
itself a separator. -/
theorem c3_rotation_preserves_wf (t : STT) (hw : WF t) (v : Nat)
    (hl : t.canRotate v = true) :
    ∃ t', t.rotate v = some t' ∧ WF t' := by
  rcases hpv : t.parent v with _ | p
  · simp [STT.canRotate, hpv] at hl
  · obtain ⟨hvp, hgf, hcf⟩ := rotDistinct t hw.toWFb hpv
    refine ⟨rotateSpec t v p, ?_, WF_rotateSpec t hw hpv hl⟩
    show (t.parent v).map (fun q => t.rotateAt v q) = some (rotateSpec t v p)
    rw [hpv]
    show some (t.rotateAt v p) = some (rotateSpec t v p)
    rw [rotateAt_eq_spec t v p hpv hvp hgf hcf]

/-- **C3** — witness: the preservation theorem applied to the concrete
well-formed state `exC7` at node 0 (a direct separator, so `can_rotate`
holds). -/
theorem c3_rotation_preserves_wf_witness :
    WF exC7 ∧ exC7.canRotate 0 = true ∧ ∃ t', exC7.rotate 0 = some t' ∧ WF t' :=
  ⟨exC7_wf, by decide, c3_rotation_preserves_wf exC7 exC7_wf 0 (by decide)⟩

/-- **C7** (amended): `make_1_cut` terminates on every well-formed STT and
afterwards no node is a separator.  The spec's stated reason — that each
rotation strictly decreases the sum of separator subtree sizes — is false
(`c7_potential_counterexample`); termination instead follows because each
rotation strictly decreases the depth of the rotated node
(`dep_rotateSpec_lt`). -/
theorem c7_make1cut_amended (t : STT) (hw : WF t) :
    ∃ t', make1cut t = some t' ∧ ∀ w, t'.isSep w = false := by
  obtain ⟨t', h1, -, -, h4⟩ := make1cut_spec t hw
  exact ⟨t', h1, h4⟩

/-- **C7** — witness: the amended theorem applied to the concrete
well-formed state `exC7`. -/
theorem c7_make1cut_amended_witness :
    WF exC7 ∧ ∃ t', make1cut exC7 = some t' ∧ ∀ w, t'.isSep w = false :=
  ⟨exC7_wf, c7_make1cut_amended exC7 exC7_wf⟩


/-- A successful `SttView` rotation acts on the core as `rotateAt`. -/
theorem rotate_core_at {S : Type} [SttView S] {s s1 : S} {v : Nat}
    (h : SttView.rotate s v = some s1) :
    ∃ p, (SttView.core s).parent v = some p ∧
      SttView.core s1 = (SttView.core s).rotateAt v p := by
  have hlaw := SttView.core_rotate s v
  rw [h] at hlaw
  cases hpv : (SttView.core s).parent v with
  | none =>
    rw [STT.rotate, hpv] at hlaw
    simp at hlaw
  | some p =>
    refine ⟨p, rfl, ?_⟩
    rw [STT.rotate, hpv] at hlaw
    simp only [Option.map_some', Option.some.injEq] at hlaw
    exact hlaw

/-- On a `WFb` core, a successful `SttView` rotation acts as `rotateSpec`
and preserves `WFb`. -/
theorem rotate_core_spec {S : Type} [SttView S] {s s1 : S} {v : Nat}
    (hb : WFb (SttView.core s)) (h : SttView.rotate s v = some s1) :
    WFb (SttView.core s1) ∧ ∃ p, (SttView.core s).parent v = some p ∧
      SttView.core s1 = rotateSpec (SttView.core s) v p := by
  obtain ⟨p, hpv, hcore⟩ := rotate_core_at h
  obtain ⟨hvp, hgf, hcf⟩ := rotDistinct _ hb hpv
  rw [rotateAt_eq_spec _ v p hpv hvp hgf hcf] at hcore
  refine ⟨?_, p, hpv, hcore⟩
  rw [hcore]
  exact WFb_rotateSpec _ hb hpv

theorem rotate_wfb {S : Type} [SttView S] {s s1 : S} {v : Nat}
    (hb : WFb (SttView.core s)) (h : SttView.rotate s v = some s1) :
    WFb (SttView.core s1) :=
  (rotate_core_spec hb h).1

/-- Rotating a child of a root makes it a root. -/
theorem rotate_root_parent {S : Type} [SttView S] {s s1 : S} {v p : Nat}
    (hb : WFb (SttView.core s)) (hpv : vParent s v = some p)
    (hpp : vParent s p = none) (h : SttView.rotate s v = some s1) :
    vParent s1 v = none := by
  obtain ⟨-, q, hq, hcore⟩ := rotate_core_spec hb h
  simp only [vParent] at hpv hpp ⊢
  rw [hq] at hpv
  obtain rfl := Option.some.inj hpv
  rw [hcore, rotateSpec_parent]
  have hvq : v ≠ q := (rotDistinct _ hb hq).1
  simp [hvq, hpp]

theorem splayStep_wfb {S : Type} [SttView S] {s s1 : S} {x : Nat}
    (hb : WFb (SttView.core s)) (h : splayStep s x = some s1) :
    WFb (SttView.core s1) := by
  unfold splayStep at h
  cases hp : vParent s x with
  | none => rw [hp] at h; exact Option.noConfusion h
  | some p =>
    rw [hp] at h
    simp only [Option.bind_eq_bind, Option.some_bind] at h
    by_cases hd : vIsDirectSep s x = true
    · rw [if_pos hd] at h
      cases hr : SttView.rotate s x with
      | none => rw [hr] at h; exact Option.noConfusion h
      | some s2 =>
        rw [hr] at h
        simp only [Option.bind_eq_bind, Option.some_bind] at h
        exact rotate_wfb (rotate_wfb hb hr) h
    · rw [if_neg hd] at h
      cases hr : SttView.rotate s p with
      | none => rw [hr] at h; exact Option.noConfusion h
      | some s2 =>
        rw [hr] at h
        simp only [Option.bind_eq_bind, Option.some_bind] at h
        exact rotate_wfb (rotate_wfb hb hr) h

theorem tpBranchingStep_wfb {S : Type} [SttView S] {s s1 : S} {v : Nat}
    {target : SplayTarget} (hb : WFb (SttView.core s))
    (h : tpBranchingStep s v target = some s1) : WFb (SttView.core s1) := by
  unfold tpBranchingStep at h
  cases hp : vParent s v with
  | none => rw [hp] at h; exact Option.noConfusion h
  | some p =>
    rw [hp] at h
    simp only [Option.bind_eq_bind, Option.some_bind] at h
    cases hg : vParent s p with
    | none => rw [hg] at h; exact Option.noConfusion h
    | some g =>
      rw [hg] at h
      simp only [Option.bind_eq_bind, Option.some_bind] at h
      by_cases hc : (!(vIsSep s p) && vIsSep s g) = true
      · rw [if_pos hc] at h
        exact rotate_wfb hb h
      · rw [if_neg hc] at h
        by_cases hgg : vParent s g = none
        · rw [if_pos hgg] at h
          cases target with
          | belowRoot => exact rotate_wfb hb h
          | root => exact splayStep_wfb hb h
        · rw [if_neg hgg] at h
          exact splayStep_wfb hb h

theorem stpBranchingStep_wfb {S : Type} [SttView S] {s s1 : S} {v : Nat}
    (hb : WFb (SttView.core s)) (h : stpBranchingStep s v = some s1) :
    WFb (SttView.core s1) := by
  unfold stpBranchingStep at h
  cases hp : vParent s v with
  | none => rw [hp] at h; exact Option.noConfusion h
  | some p =>
    rw [hp] at h
    simp only [Option.bind_eq_bind, Option.some_bind] at h
    cases hg : vParent s p with
    | none => rw [hg] at h; exact Option.noConfusion h
    | some g =>
      rw [hg] at h
      simp only [Option.bind_eq_bind, Option.some_bind] at h
      by_cases hc : (!(vIsSep s p) && vIsSep s g) = true
      · rw [if_pos hc] at h
        exact rotate_wfb hb h
      · rw [if_neg hc] at h
        exact splayStep_wfb hb h

theorem sltpBranchingStep_wfb {S : Type} [SttView S] {s s1 : S} {v : Nat}
    (hb : WFb (SttView.core s)) (h : sltpBranchingStep s v = some s1) :
    WFb (SttView.core s1) := by
  unfold sltpBranchingStep at h
  cases hp : vParent s v with
  | none => rw [hp] at h; exact Option.noConfusion h
  | some p =>
    rw [hp] at h
    simp only [Option.bind_eq_bind, Option.some_bind] at h
    cases hg : vParent s p with
    | none => rw [hg] at h; exact Option.noConfusion h
    | some g =>
      rw [hg] at h
      simp only [Option.bind_eq_bind, Option.some_bind] at h
      by_cases hc : (!(vIsSep s p) && vIsSep s g) = true
      · rw [if_pos hc] at h
        exact rotate_wfb hb h
      · rw [if_neg hc] at h
        exact splayStep_wfb hb h


theorem greedyTrySplay_wfb {S : Type} [SttView S] {s s1 : S} {v : Nat}
    {target : SplayTarget} {r : SplayResult} (hb : WFb (SttView.core s))
    (h : greedyTrySplay s v target = some (r, s1)) : WFb (SttView.core s1) := by
  unfold greedyTrySplay at h
  cases hp : vParent s v with
  | none =>
    simp only [hp] at h
    have h2 : s = s1 := congrArg Prod.snd (Option.some.inj h)
    exact h2 ▸ hb
  | some p =>
    simp only [hp] at h
    cases hg : vParent s p with
    | none =>
      simp only [hg] at h
      by_cases ht : target = SplayTarget.root
      · rw [if_pos ht] at h
        cases hr : SttView.rotate s v with
        | none => rw [hr] at h; exact Option.noConfusion h
        | some s2 =>
          rw [hr] at h
          simp only [Option.bind_eq_bind, Option.some_bind] at h
          have h2 : s2 = s1 := congrArg Prod.snd (Option.some.inj h)
          exact h2 ▸ rotate_wfb hb hr
      · rw [if_neg ht] at h
        have h2 : s = s1 := congrArg Prod.snd (Option.some.inj h)
        exact h2 ▸ hb
    | some g =>
      simp only [hg] at h
      by_cases hc1 : (decide (target = SplayTarget.root) || (vParent s g).isSome) = true
      · rw [if_pos hc1] at h
        by_cases hc2 : canSplayStep s v p g = true
        · rw [if_pos hc2] at h
          cases hsp : splayStep s v with
          | none => rw [hsp] at h; exact Option.noConfusion h
          | some s2 =>
            rw [hsp] at h
            simp only [Option.bind_eq_bind, Option.some_bind] at h
            have h2 : s2 = s1 := congrArg Prod.snd (Option.some.inj h)
            exact h2 ▸ splayStep_wfb hb hsp
        · rw [if_neg hc2] at h
          have h2 : s = s1 := congrArg Prod.snd (Option.some.inj h)
          exact h2 ▸ hb
      · rw [if_neg hc1] at h
        cases hr : SttView.rotate s v with
        | none => rw [hr] at h; exact Option.noConfusion h
        | some s2 =>
          rw [hr] at h
          simp only [Option.bind_eq_bind, Option.some_bind] at h
          have h2 : s2 = s1 := congrArg Prod.snd (Option.some.inj h)
          exact h2 ▸ rotate_wfb hb hr

theorem greedyTrySplay_done_root {S : Type} [SttView S] {s s1 : S} {v : Nat}
    (hb : WFb (SttView.core s))
    (h : greedyTrySplay s v SplayTarget.root = some (SplayResult.done, s1)) :
    vParent s1 v = none := by
  unfold greedyTrySplay at h
  cases hp : vParent s v with
  | none =>
    simp only [hp] at h
    have h2 : s = s1 := congrArg Prod.snd (Option.some.inj h)
    rw [← h2]
    exact hp
  | some p =>
    simp only [hp] at h
    cases hg : vParent s p with
    | none =>
      simp only [hg] at h
      rw [if_pos trivial] at h
      cases hr : SttView.rotate s v with
      | none => rw [hr] at h; exact Option.noConfusion h
      | some s2 =>
        rw [hr] at h
        simp only [Option.bind_eq_bind, Option.some_bind] at h
        have h2 : s2 = s1 := congrArg Prod.snd (Option.some.inj h)
        rw [← h2]
        exact rotate_root_parent hb hp hg hr
    | some g =>
      simp only [hg] at h
      rw [if_pos (by simp)] at h
      by_cases hc2 : canSplayStep s v p g = true
      · rw [if_pos hc2] at h
        cases hsp : splayStep s v with
        | none => rw [hsp] at h; exact Option.noConfusion h
        | some s2 =>
          rw [hsp] at h
          simp only [Option.bind_eq_bind, Option.some_bind] at h
          have h1 : SplayResult.success = SplayResult.done :=
            congrArg Prod.fst (Option.some.inj h)
          exact SplayResult.noConfusion h1
      · rw [if_neg hc2] at h
        have h1 : SplayResult.failed = SplayResult.done :=
          congrArg Prod.fst (Option.some.inj h)
        exact SplayResult.noConfusion h1

theorem greedyMoveTo_rootwf {S : Type} [SttView S] : ∀ (fuel : Nat) (s s' : S) (v : Nat),
    WFb (SttView.core s) → greedyMoveTo fuel s v SplayTarget.root = some s' →
    vParent s' v = none ∧ WFb (SttView.core s') := by
  intro fuel
  induction fuel with
  | zero => intro s s' v hb h; exact Option.noConfusion h
  | succ fuel ih =>
    intro s s' v hb h
    rw [greedyMoveTo] at h
    cases hts : greedyTrySplay s v SplayTarget.root with
    | none => rw [hts] at h; exact Option.noConfusion h
    | some rs =>
      obtain ⟨r, s1⟩ := rs
      rw [hts] at h
      simp only [Option.bind_eq_bind, Option.some_bind] at h
      have hb1 : WFb (SttView.core s1) := greedyTrySplay_wfb hb hts
      cases r with
      | success => exact ih s1 s' v hb1 h
      | done =>
        obtain rfl := Option.some.inj h
        exact ⟨greedyTrySplay_done_root hb hts, hb1⟩
      | failed =>
        cases hp : vParent s1 v with
        | none => rw [hp] at h; exact Option.noConfusion h
        | some p =>
          rw [hp] at h
          simp only [Option.bind_eq_bind, Option.some_bind] at h
          cases hts2 : greedyTrySplay s1 p SplayTarget.root with
          | none => rw [hts2] at h; exact Option.noConfusion h
          | some rs2 =>
            obtain ⟨r2, s2⟩ := rs2
            rw [hts2] at h
            simp only [Option.bind_eq_bind, Option.some_bind] at h
            have hb2 : WFb (SttView.core s2) := greedyTrySplay_wfb hb1 hts2
            by_cases hr2 : r2 = SplayResult.failed
            · rw [if_pos hr2] at h
              cases hg : vParent s2 p with
              | none => rw [hg] at h; exact Option.noConfusion h
              | some g =>
                rw [hg] at h
                simp only [Option.bind_eq_bind, Option.some_bind] at h
                cases hsp : splayStep s2 g with
                | none => rw [hsp] at h; exact Option.noConfusion h
                | some s3 =>
                  rw [hsp] at h
                  simp only [Option.bind_eq_bind, Option.some_bind] at h
                  exact ih s3 s' v (splayStep_wfb hb2 hsp) h
            · rw [if_neg hr2] at h
              exact ih s2 s' v hb2 h


theorem mtrFixP_wfb {S : Type} [SttView S] : ∀ (fuel : Nat) (s s' : S) (p : Nat),
    WFb (SttView.core s) → mtrFixP fuel s p = some s' → WFb (SttView.core s') := by
  intro fuel
  induction fuel with
  | zero => intro s s' p hb h; exact Option.noConfusion h
  | succ fuel ih =>
    intro s s' p hb h
    rw [mtrFixP] at h
    cases hg : vParent s p with
    | none =>
      simp only [hg] at h
      obtain rfl := Option.some.inj h
      exact hb
    | some g =>
      simp only [hg] at h
      by_cases hsep : isSepHint s p g = true
      · rw [if_pos hsep] at h
        cases hr : SttView.rotate s p with
        | none => rw [hr] at h; exact Option.noConfusion h
        | some s1 =>
          rw [hr] at h
          simp only [Option.bind_eq_bind, Option.some_bind] at h
          exact ih s1 s' p (rotate_wfb hb hr) h
      · rw [if_neg hsep] at h
        obtain rfl := Option.some.inj h
        exact hb

theorem moveStep_wfb {S : Type} [SttView S] {fuel : Nat} {s s' : S} {v p : Nat}
    (hb : WFb (SttView.core s)) (h : moveStep fuel s v p = some s') :
    WFb (SttView.core s') := by
  unfold moveStep at h
  by_cases hsep : isSepHint s v p = true
  · rw [if_pos hsep] at h
    simp only [Option.bind_eq_bind, Option.some_bind] at h
    exact rotate_wfb hb h
  · rw [if_neg hsep] at h
    cases hf : mtrFixP fuel s p with
    | none => rw [hf] at h; exact Option.noConfusion h
    | some s1 =>
      rw [hf] at h
      simp only [Option.bind_eq_bind, Option.some_bind] at h
      exact rotate_wfb (mtrFixP_wfb fuel s s1 p hb hf) h

theorem mtrNtr_rootwf {S : Type} [SttView S] : ∀ (fuel : Nat) (s s' : S) (v : Nat),
    WFb (SttView.core s) → mtrNtr fuel s v = some s' →
    vParent s' v = none ∧ WFb (SttView.core s') := by
  intro fuel
  induction fuel with
  | zero =>
    intro s s' v hb h
    rw [mtrNtr] at h
    cases hp : vParent s v with
    | none =>
      simp only [hp] at h
      obtain rfl := Option.some.inj h
      exact ⟨hp, hb⟩
    | some p =>
      simp only [hp] at h
      exact Option.noConfusion h
  | succ fuel ih =>
    intro s s' v hb h
    rw [mtrNtr] at h
    cases hp : vParent s v with
    | none =>
      simp only [hp] at h
      obtain rfl := Option.some.inj h
      exact ⟨hp, hb⟩
    | some p =>
      simp only [hp] at h
      cases hms : moveStep (fuel + 1) s v p with
      | none => rw [hms] at h; exact Option.noConfusion h
      | some s1 =>
        rw [hms] at h
        simp only [Option.bind_eq_bind, Option.some_bind] at h
        exact ih s1 s' v (moveStep_wfb hb hms) h

theorem tpFirstFrom_wfb {S : Type} [SttView S] : ∀ (fuel : Nat) (s s' : S) (b : Nat)
    (target : SplayTarget), WFb (SttView.core s) →
    tpFirstFrom fuel s b target = some s' → WFb (SttView.core s') := by
  intro fuel
  induction fuel with
  | zero => intro s s' b target hb h; exact Option.noConfusion h
  | succ fuel ih =>
    intro s s' b target hb h
    rw [tpFirstFrom] at h
    cases hbs : tpBranchingStep s b target with
    | none => rw [hbs] at h; exact Option.noConfusion h
    | some s1 =>
      rw [hbs] at h
      simp only [Option.bind_eq_bind, Option.some_bind] at h
      have hb1 := tpBranchingStep_wfb hb hbs
      by_cases hsep : vIsSep s1 b = true
      · rw [if_pos hsep] at h
        exact ih s1 s' b target hb1 h
      · rw [if_neg hsep] at h
        cases hfn : findNextBranching (fuel + 1) s1 b with
        | none => rw [hfn] at h; exact Option.noConfusion h
        | some ob =>
          rw [hfn] at h
          simp only [Option.bind_eq_bind, Option.some_bind] at h
          cases ob with
          | none =>
            obtain rfl := Option.some.inj h
            exact hb1
          | some b2 => exact ih s1 s' b2 target hb1 h

theorem tpSecondPass_rootwf {S : Type} [SttView S] : ∀ (fuel : Nat) (s s' : S) (v : Nat),
    WFb (SttView.core s) → tpSecondPass fuel s v SplayTarget.root = some s' →
    vParent s' v = none ∧ WFb (SttView.core s') := by
  intro fuel
  induction fuel with
  | zero => intro s s' v hb h; exact Option.noConfusion h
  | succ fuel ih =>
    intro s s' v hb h
    rw [tpSecondPass] at h
    cases hp : vParent s v with
    | none =>
      simp only [hp] at h
      obtain rfl := Option.some.inj h
      exact ⟨hp, hb⟩
    | some p =>
      simp only [hp] at h
      cases hg : vParent s p with
      | none =>
        simp only [hg] at h
        rw [if_pos (by trivial)] at h
        exact ⟨rotate_root_parent hb hp hg h, rotate_wfb hb h⟩
      | some g =>
        simp only [hg] at h
        rw [if_pos (by simp)] at h
        cases hsp : splayStep s v with
        | none => rw [hsp] at h; exact Option.noConfusion h
        | some s1 =>
          rw [hsp] at h
          simp only [Option.bind_eq_bind, Option.some_bind] at h
          exact ih s1 s' v (splayStep_wfb hb hsp) h

theorem tpNtr_rootwf {S : Type} [SttView S] (fuel : Nat) (s s' : S) (v : Nat)
    (hb : WFb (SttView.core s)) (h : tpNtr fuel s v = some s') :
    vParent s' v = none ∧ WFb (SttView.core s') := by
  rw [tpNtr, tpMoveTo] at h
  cases hfn : findNextBranching fuel s v with
  | none => rw [hfn] at h; exact Option.noConfusion h
  | some ob =>
    rw [hfn] at h
    simp only [Option.bind_eq_bind, Option.some_bind] at h
    cases ob with
    | none =>
      simp only [Option.bind_eq_bind, Option.some_bind] at h
      exact tpSecondPass_rootwf fuel s s' v hb h
    | some b =>
      replace h : Option.bind (tpFirstFrom fuel s b SplayTarget.root)
          (fun y => tpSecondPass fuel y v SplayTarget.root) = some s' := h
      cases hff : tpFirstFrom fuel s b SplayTarget.root with
      | none => rw [hff] at h; exact Option.noConfusion h
      | some s1 =>
        rw [hff] at h
        simp only [Option.some_bind] at h
        exact tpSecondPass_rootwf fuel s1 s' v
          (tpFirstFrom_wfb fuel s s1 b SplayTarget.root hb hff) h

theorem stpFirstFrom_wfb {S : Type} [SttView S] : ∀ (fuel : Nat) (s s' : S) (b : Nat),
    WFb (SttView.core s) → stpFirstFrom fuel s b = some s' → WFb (SttView.core s') := by
  intro fuel
  induction fuel with
  | zero => intro s s' b hb h; exact Option.noConfusion h
  | succ fuel ih =>
    intro s s' b hb h
    rw [stpFirstFrom] at h
    cases hbs : stpBranchingStep s b with
    | none => rw [hbs] at h; exact Option.noConfusion h
    | some s1 =>
      rw [hbs] at h
      simp only [Option.bind_eq_bind, Option.some_bind] at h
      have hb1 := stpBranchingStep_wfb hb hbs
      by_cases hsep : vIsSep s1 b = true
      · rw [if_pos hsep] at h
        exact ih s1 s' b hb1 h
      · rw [if_neg hsep] at h
        cases hfn : findNextBranching (fuel + 1) s1 b with
        | none => rw [hfn] at h; exact Option.noConfusion h
        | some ob =>
          rw [hfn] at h
          simp only [Option.bind_eq_bind, Option.some_bind] at h
          cases ob with
          | none =>
            obtain rfl := Option.some.inj h
            exact hb1
          | some b2 => exact ih s1 s' b2 hb1 h

theorem stpSecond_rootwf {S : Type} [SttView S] : ∀ (fuel : Nat) (s s' : S) (v : Nat),
    WFb (SttView.core s) → stpSecond fuel s v = some s' →
    vParent s' v = none ∧ WFb (SttView.core s') := by
  intro fuel
  induction fuel with
  | zero => intro s s' v hb h; exact Option.noConfusion h
  | succ fuel ih =>
    intro s s' v hb h
    rw [stpSecond] at h
    cases hp : vParent s v with
    | none =>
      simp only [hp] at h
      obtain rfl := Option.some.inj h
      exact ⟨hp, hb⟩
    | some p =>
      simp only [hp] at h
      cases hg : vParent s p with
      | none =>
        simp only [hg] at h
        exact ⟨rotate_root_parent hb hp hg h, rotate_wfb hb h⟩
      | some g =>
        simp only [hg] at h
        cases hsp : splayStep s v with
        | none => rw [hsp] at h; exact Option.noConfusion h
        | some s1 =>
          rw [hsp] at h
          simp only [Option.bind_eq_bind, Option.some_bind] at h
          exact ih s1 s' v (splayStep_wfb hb hsp) h

theorem stpNtr_rootwf {S : Type} [SttView S] (fuel : Nat) (s s' : S) (v : Nat)
    (hb : WFb (SttView.core s)) (h : stpNtr fuel s v = some s') :
    vParent s' v = none ∧ WFb (SttView.core s') := by
  rw [stpNtr] at h
  cases hfn : findNextBranching fuel s v with
  | none => rw [hfn] at h; exact Option.noConfusion h
  | some ob =>
    rw [hfn] at h
    simp only [Option.bind_eq_bind, Option.some_bind] at h
    cases ob with
    | none =>
      simp only [Option.bind_eq_bind, Option.some_bind] at h
      exact stpSecond_rootwf fuel s s' v hb h
    | some b =>
      replace h : Option.bind (stpFirstFrom fuel s b)
          (fun y => stpSecond fuel y v) = some s' := h
      cases hff : stpFirstFrom fuel s b with
      | none => rw [hff] at h; exact Option.noConfusion h
      | some s1 =>
        rw [hff] at h
        simp only [Option.some_bind] at h
        exact stpSecond_rootwf fuel s1 s' v (stpFirstFrom_wfb fuel s s1 b hb hff) h

theorem ltpMoveTo_rootwf {S : Type} [SttView S] : ∀ (fuel : Nat) (s s' : S) (v : Nat),
    WFb (SttView.core s) → ltpMoveTo fuel s v SplayTarget.root = some s' →
    vParent s' v = none ∧ WFb (SttView.core s') := by
  intro fuel
  induction fuel with
  | zero => intro s s' v hb h; exact Option.noConfusion h
  | succ fuel ih =>
    intro s s' v hb h
    rw [ltpMoveTo] at h
    cases hp : vParent s v with
    | none =>
      simp only [hp] at h
      obtain rfl := Option.some.inj h
      exact ⟨hp, hb⟩
    | some p =>
      simp only [hp] at h
      cases hg : vParent s p with
      | none =>
        simp only [hg] at h
        rw [if_pos (by trivial)] at h
        exact ⟨rotate_root_parent hb hp hg h, rotate_wfb hb h⟩
      | some g =>
        simp only [hg] at h
        rw [if_pos (by simp)] at h
        by_cases hc : canSplayStep s v p g = true
        · rw [if_pos hc] at h
          cases hsp : splayStep s v with
          | none => rw [hsp] at h; exact Option.noConfusion h
          | some s1 =>
            rw [hsp] at h
            simp only [Option.bind_eq_bind, Option.some_bind] at h
            exact ih s1 s' v (splayStep_wfb hb hsp) h
        · rw [if_neg hc] at h
          by_cases hps : vIsSep s p = true
          · rw [if_pos hps] at h
            cases hsp : splayStep s p with
            | none => rw [hsp] at h; exact Option.noConfusion h
            | some s1 =>
              rw [hsp] at h
              simp only [Option.bind_eq_bind, Option.some_bind] at h
              exact ih s1 s' v (splayStep_wfb hb hsp) h
          · rw [if_neg hps] at h
            cases hbs : tpBranchingStep s g SplayTarget.root with
            | none => rw [hbs] at h; exact Option.noConfusion h
            | some s1 =>
              rw [hbs] at h
              simp only [Option.bind_eq_bind, Option.some_bind] at h
              exact ih s1 s' v (tpBranchingStep_wfb hb hbs) h

theorem sltpNtr_rootwf {S : Type} [SttView S] : ∀ (fuel : Nat) (s s' : S) (v : Nat),
    WFb (SttView.core s) → sltpNtr fuel s v = some s' →
    vParent s' v = none ∧ WFb (SttView.core s') := by
  intro fuel
  induction fuel with
  | zero => intro s s' v hb h; exact Option.noConfusion h
  | succ fuel ih =>
    intro s s' v hb h
    rw [sltpNtr] at h
    cases hp : vParent s v with
    | none =>
      simp only [hp] at h
      obtain rfl := Option.some.inj h
      exact ⟨hp, hb⟩
    | some p =>
      simp only [hp] at h
      cases hg : vParent s p with
      | none =>
        simp only [hg] at h
        exact ⟨rotate_root_parent hb hp hg h, rotate_wfb hb h⟩
      | some g =>
        simp only [hg] at h
        by_cases hc : canSplayStep s v p g = true
        · rw [if_pos hc] at h
          cases hsp : splayStep s v with
          | none => rw [hsp] at h; exact Option.noConfusion h
          | some s1 =>
            rw [hsp] at h
            simp only [Option.bind_eq_bind, Option.some_bind] at h
            exact ih s1 s' v (splayStep_wfb hb hsp) h
        · rw [if_neg hc] at h
          by_cases hps : vIsSep s p = true
          · rw [if_pos hps] at h
            cases hsp : splayStep s p with
            | none => rw [hsp] at h; exact Option.noConfusion h
            | some s1 =>
              rw [hsp] at h
              simp only [Option.bind_eq_bind, Option.some_bind] at h
              exact ih s1 s' v (splayStep_wfb hb hsp) h
          · rw [if_neg hps] at h
            cases hbs : sltpBranchingStep s g with
            | none => rw [hbs] at h; exact Option.noConfusion h
            | some s1 =>
              rw [hbs] at h
              simp only [Option.bind_eq_bind, Option.some_bind] at h
              exact ih s1 s' v (sltpBranchingStep_wfb hb hbs) h


/-- A successful self-query through the extended reader answers `None`,
as soon as `node_to_root` leaves its argument a root. -/
theorem nodesToTopCPW_self_none {S W : Type} [SttView S] (ntr nbr : S → Nat → Option S)
    (pdist : S → Nat → Option W) (s : S) (v : Nat)
    (hb : WFb (SttView.core s))
    (hpost : ∀ s0 s1, WFb (SttView.core s0) → ntr s0 v = some s1 →
      vParent s1 v = none ∧ WFb (SttView.core s1))
    {r : Option W} {sf : S}
    (h : nodesToTopCPW ntr nbr pdist s v v = some (r, sf)) : r = none := by
  rw [nodesToTopCPW] at h
  cases h1 : ntr s v with
  | none => rw [h1] at h; exact Option.noConfusion h
  | some s1 =>
    rw [h1] at h
    simp only [Option.bind_eq_bind, Option.some_bind] at h
    rw [if_pos (hpost s s1 hb h1).1] at h
    have h2 : (none : Option W) = r := congrArg Prod.fst (Option.some.inj h)
    exact h2.symm

/-- A successful self-query through the stable reader answers
`Some(identity)`, as soon as `node_to_root` leaves its argument a root. -/
theorem stableCPW_self_id {S W : Type} [SttView S] [AddCommMonoid W]
    (ntr : S → Nat → Option S) (pdist : S → Nat → Option W)
    (fuel : Nat) (s : S) (v : Nat) (hb : WFb (SttView.core s))
    (hpost : ∀ s0 s1, WFb (SttView.core s0) → ntr s0 v = some s1 →
      vParent s1 v = none ∧ WFb (SttView.core s1))
    {r : Option W} {sf : S}
    (h : stableCPW ntr pdist fuel s v v = some (r, sf)) : r = some 0 := by
  rw [stableCPW] at h
  cases h1 : ntr s v with
  | none => rw [h1] at h; exact Option.noConfusion h
  | some s1 =>
    rw [h1] at h
    simp only [Option.bind_eq_bind, Option.some_bind] at h
    cases h2 : ntr s1 v with
    | none => rw [h2] at h; exact Option.noConfusion h
    | some s2 =>
      rw [h2] at h
      simp only [Option.bind_eq_bind, Option.some_bind] at h
      have hroot := (hpost s1 s2 (hpost s s1 hb h1).2 h2).1
      cases fuel with
      | zero =>
        rw [stableClimb] at h
        exact Option.noConfusion h
      | succ fc =>
        rw [stableClimb] at h
        simp only [hroot] at h
        simp only [Option.bind_eq_bind, Option.some_bind] at h
        rw [if_pos trivial] at h
        have h3 : (some (0 : W) : Option W) = r := congrArg Prod.fst (Option.some.inj h)
        exact h3.symm

/-- A structure with no pointers at all satisfies `WFb` (fresh forests). -/
theorem WFb_clean (t : STT) (hpar : ∀ v, t.parent v = none)
    (hd : ∀ v, t.dsep v = none) (hi : ∀ v, t.isep v = none) : WFb t := by
  refine ⟨?_, ?_, ?_, ?_, ?_, ?_, ?_⟩
  · intro w x hwx; rw [hpar w] at hwx; exact Option.noConfusion hwx
  · intro w x hwx; rw [hd w] at hwx; exact Option.noConfusion hwx
  · intro w x hwx; rw [hi w] at hwx; exact Option.noConfusion hwx
  · intro w x hwx; rw [hd w] at hwx; exact Option.noConfusion hwx
  · intro w x hwx; rw [hi w] at hwx; exact Option.noConfusion hwx
  · intro w x hwx; rw [hd w] at hwx; exact Option.noConfusion hwx
  · intro w; exact ⟨1, by rw [iterPar_one]; exact hpar w⟩

/-- **C8**: self-queries disagree across implementations.  On any
structurally well-formed state, a successful `compute_path_weight(v, v)`
answers `None` for every extended-strategy standard forest (move-to-root,
greedy splay, two-pass splay, local two-pass splay) but `Some(identity)`
for every stable-strategy standard forest (move-to-root, greedy splay,
stable two-pass, stable local two-pass); the link-cut forest also answers
`Some(identity)` (shown on a reachable fresh one-vertex forest and a
reachable two-vertex forest after one `link`). -/
theorem c8_self_query_disagreement :
    (∀ (W : Type) [Add W] (s : WSTT W) (v f1 f2 : Nat) (r : Option W) (sf : WSTT W),
      WFb s.s → nodesToTopCPW (mtrNtr f1) (mtrNbr f2) WSTT.ppw? s v v = some (r, sf) →
      r = none) ∧
    (∀ (W : Type) [Add W] (s : WSTT W) (v f1 f2 : Nat) (r : Option W) (sf : WSTT W),
      WFb s.s → nodesToTopCPW (greedyNtr f1) (greedyNbr f2) WSTT.ppw? s v v = some (r, sf) →
      r = none) ∧
    (∀ (W : Type) [Add W] (s : WSTT W) (v f1 f2 : Nat) (r : Option W) (sf : WSTT W),
      WFb s.s → nodesToTopCPW (tpNtr f1) (tpNbr f2) WSTT.ppw? s v v = some (r, sf) →
      r = none) ∧
    (∀ (W : Type) [Add W] (s : WSTT W) (v f1 f2 : Nat) (r : Option W) (sf : WSTT W),
      WFb s.s → nodesToTopCPW (ltpNtr f1) (ltpNbr f2) WSTT.ppw? s v v = some (r, sf) →
      r = none) ∧
    (∀ (W : Type) [AddCommMonoid W] (s : WSTT W) (v f fc : Nat) (r : Option W) (sf : WSTT W),
      WFb s.s → stableCPW (mtrNtr f) WSTT.ppw? fc s v v = some (r, sf) → r = some 0) ∧
    (∀ (W : Type) [AddCommMonoid W] (s : WSTT W) (v f fc : Nat) (r : Option W) (sf : WSTT W),
      WFb s.s → stableCPW (greedyNtr f) WSTT.ppw? fc s v v = some (r, sf) → r = some 0) ∧
    (∀ (W : Type) [AddCommMonoid W] (s : WSTT W) (v f fc : Nat) (r : Option W) (sf : WSTT W),
      WFb s.s → stableCPW (stpNtr f) WSTT.ppw? fc s v v = some (r, sf) → r = some 0) ∧
    (∀ (W : Type) [AddCommMonoid W] (s : WSTT W) (v f fc : Nat) (r : Option W) (sf : WSTT W),
      WFb s.s → stableCPW (sltpNtr f) WSTT.ppw? fc s v v = some (r, sf) → r = some 0) ∧
    ((LCT.computePathWeight 8 (LCT.init Nat 1) 0 0).map Prod.fst = some (some 0)) ∧
    (exL2.bind (fun t2 => (LCT.computePathWeight 8 t2 0 0).map Prod.fst) = some (some 0)) := by
  refine ⟨?_, ?_, ?_, ?_, ?_, ?_, ?_, ?_, ?_, ?_⟩
  · intro W _ s v f1 f2 r sf hb h
    exact nodesToTopCPW_self_none _ _ _ s v hb
      (fun s0 s1 hb0 h0 => mtrNtr_rootwf f1 s0 s1 v hb0 h0) h
  · intro W _ s v f1 f2 r sf hb h
    exact nodesToTopCPW_self_none _ _ _ s v hb
      (fun s0 s1 hb0 h0 => greedyMoveTo_rootwf f1 s0 s1 v hb0 h0) h
  · intro W _ s v f1 f2 r sf hb h
    exact nodesToTopCPW_self_none _ _ _ s v hb
      (fun s0 s1 hb0 h0 => tpNtr_rootwf f1 s0 s1 v hb0 h0) h
  · intro W _ s v f1 f2 r sf hb h
    exact nodesToTopCPW_self_none _ _ _ s v hb
      (fun s0 s1 hb0 h0 => ltpMoveTo_rootwf f1 s0 s1 v hb0 h0) h
  · intro W _ s v f fc r sf hb h
    exact stableCPW_self_id _ _ fc s v hb
      (fun s0 s1 hb0 h0 => mtrNtr_rootwf f s0 s1 v hb0 h0) h
  · intro W _ s v f fc r sf hb h
    exact stableCPW_self_id _ _ fc s v hb
      (fun s0 s1 hb0 h0 => greedyMoveTo_rootwf f s0 s1 v hb0 h0) h
  · intro W _ s v f fc r sf hb h
    exact stableCPW_self_id _ _ fc s v hb
      (fun s0 s1 hb0 h0 => stpNtr_rootwf f s0 s1 v hb0 h0) h
  · intro W _ s v f fc r sf hb h
    exact stableCPW_self_id _ _ fc s v hb
      (fun s0 s1 hb0 h0 => sltpNtr_rootwf f s0 s1 v hb0 h0) h
  · decide
  · decide

/-- **C8** — witness: the disagreement theorem applied at the fresh
one-vertex forest on both an extended (move-to-root) and a stable
(move-to-root) reader: the same self-query succeeds in both and the
answers differ as claimed. -/
theorem c8_self_query_disagreement_witness :
    (nodesToTopCPW (mtrNtr 4) (mtrNbr 4) WSTT.ppw? (WSTT.init Nat 1) 0 0 =
      some (none, WSTT.init Nat 1)) ∧
    (stableCPW (mtrNtr 4) WSTT.ppw? 4 (WSTT.init Nat 1) 0 0 =
      some (some 0, WSTT.init Nat 1)) ∧
    ((none : Option Nat) = none) ∧ ((some (0 : Nat) : Option Nat) = some 0) := by
  refine ⟨rfl, rfl, ?_, ?_⟩
  · exact c8_self_query_disagreement.1 Nat (WSTT.init Nat 1) 0 4 4 none (WSTT.init Nat 1)
      (WFb_clean _ (fun _ => rfl) (fun _ => rfl) (fun _ => rfl)) rfl
  · exact c8_self_query_disagreement.2.2.2.2.1 Nat (WSTT.init Nat 1) 0 4 4 (some 0)
      (WSTT.init Nat 1) (WFb_clean _ (fun _ => rfl) (fun _ => rfl) (fun _ => rfl)) rfl


/-! ### The underlying tree of a 2-cut STT and its invariance under legal
rotations (claim C2).  `pport w` is the vertex of `w`'s subtree adjacent
to `w`'s parent in the underlying tree; the STT edge `(w, parent w)`
represents the underlying edge `{pport w, parent w}`. -/

theorem iseptail_succ_some (t : STT) {z y : Nat} (fuel : Nat) (h : t.isep z = some y) :
    iseptail t (fuel + 1) z = iseptail t fuel y := by
  show (match t.isep z with | some y2 => iseptail t fuel y2 | none => z) = iseptail t fuel y
  rw [h]

theorem iseptail_succ_none (t : STT) {z : Nat} (fuel : Nat) (h : t.isep z = none) :
    iseptail t (fuel + 1) z = z := by
  show (match t.isep z with | some y2 => iseptail t fuel y2 | none => z) = z
  rw [h]

/-- A node of maximal depth has no indirect-separator child. -/
theorem isep_none_deep (t : STT) (hb : WFb t) {z : Nat} (hz : z < t.n)
    (hd : t.n ≤ dep t z (hb.acyc z)) : t.isep z = none := by
  cases hiz : t.isep z with
  | none => rfl
  | some y =>
    have hpy : t.parent y = some z := hb.isCoh z y hiz
    have hyn : y < t.n := (hb.isRange z y hiz).2
    have hdy := dep_parent_some t hpy (hb.acyc y) (hb.acyc z)
    have h2 := dep_le_n t hb hyn
    omega

/-- `iseptail` is independent of the fuel once the fuel covers the
remaining chain length (`n - dep z` steps always suffice). -/
theorem iseptail_stable (t : STT) (hb : WFb t) : ∀ (fuel fuel2 z : Nat), z < t.n →
    t.n ≤ dep t z (hb.acyc z) + fuel → t.n ≤ dep t z (hb.acyc z) + fuel2 →
    iseptail t fuel z = iseptail t fuel2 z := by
  intro fuel
  induction fuel with
  | zero =>
    intro fuel2 z hz h1 h2
    have hd := dep_le_n t hb hz
    have hnone := isep_none_deep t hb hz (by omega)
    cases fuel2 with
    | zero => rfl
    | succ f2 =>
      rw [iseptail_succ_none t f2 hnone]
      rfl
  | succ fuel ih =>
    intro fuel2 z hz h1 h2
    cases fuel2 with
    | zero =>
      have hd := dep_le_n t hb hz
      have hnone := isep_none_deep t hb hz (by omega)
      rw [iseptail_succ_none t fuel hnone]
      rfl
    | succ f2 =>
      cases hiz : t.isep z with
      | none => rw [iseptail_succ_none t fuel hiz, iseptail_succ_none t f2 hiz]
      | some y =>
        have hyn : y < t.n := (hb.isRange z y hiz).2
        have hpy : t.parent y = some z := hb.isCoh z y hiz
        have hdy := dep_parent_some t hpy (hb.acyc y) (hb.acyc z)
        rw [iseptail_succ_some t fuel hiz, iseptail_succ_some t f2 hiz]
        exact ih f2 y hyn (by omega) (by omega)

/-- With full fuel `t.n`, a node without an indirect-separator child is
its own chain tail. -/
theorem iseptail_n_none (t : STT) {z : Nat} (hz : z < t.n) (hiz : t.isep z = none) :
    iseptail t t.n z = z := by
  obtain ⟨m, hm⟩ : ∃ m, t.n = m + 1 := ⟨t.n - 1, by omega⟩
  rw [hm, iseptail_succ_none t m hiz]

/-- With full fuel `t.n`, one chain step can be peeled off without
changing the fuel. -/
theorem iseptail_n_step (t : STT) (hb : WFb t) {z y : Nat} (hz : z < t.n)
    (hiz : t.isep z = some y) : iseptail t t.n z = iseptail t t.n y := by
  obtain ⟨m, hm⟩ : ∃ m, t.n = m + 1 := ⟨t.n - 1, by omega⟩
  have hyn : y < t.n := (hb.isRange z y hiz).2
  have hpy : t.parent y = some z := hb.isCoh z y hiz
  have hdy := dep_parent_some t hpy (hb.acyc y) (hb.acyc z)
  have hdz := dep_pos t (hb.acyc z)
  have hdyn := dep_le_n t hb hyn
  calc iseptail t t.n z = iseptail t (m + 1) z := by rw [hm]
    _ = iseptail t m y := iseptail_succ_some t m hiz
    _ = iseptail t t.n y := iseptail_stable t hb m t.n y hyn (by omega) (by omega)

/-- `iseptail_n_none` specialized to a rotated structure, with the node
count expressed on the original. -/
theorem iseptail_rs_none (t : STT) (v p : Nat) {z : Nat} (hz : z < t.n)
    (hiz : (rotateSpec t v p).isep z = none) :
    iseptail (rotateSpec t v p) t.n z = z :=
  iseptail_n_none (rotateSpec t v p) hz hiz

/-- `iseptail_n_step` specialized to a rotated structure, with the node
count expressed on the original. -/
theorem iseptail_rs_step (t : STT) {v p : Nat} (hb2 : WFb (rotateSpec t v p)) {z y : Nat}
    (hz : z < t.n) (hiz : (rotateSpec t v p).isep z = some y) :
    iseptail (rotateSpec t v p) t.n z = iseptail (rotateSpec t v p) t.n y :=
  iseptail_n_step (rotateSpec t v p) hb2 hz hiz

/-- Nodes away from the rotation site keep their `isep` pointer. -/
theorem rotateSpec_isep_off (t : STT) {v p z : Nat} (h1 : z ≠ p) (h2 : z ≠ v)
    (h3 : t.dsep v ≠ some z) (h4 : t.isep z ≠ some p) :
    (rotateSpec t v p).isep z = t.isep z := by
  rw [rotateSpec_isep, if_neg h1, if_neg h2, if_neg h3]
  by_cases hgz : t.parent p = some z
  · rw [if_pos hgz, if_neg (fun hc => h4 hc.2)]
  · rw [if_neg hgz]

/-- Nodes away from the rotation site keep their `dsep` pointer. -/
theorem rotateSpec_dsep_off (t : STT) {v p z : Nat} (h1 : z ≠ p) (h2 : z ≠ v)
    (h3 : t.dsep v ≠ some z) (h4 : t.parent p ≠ some z) :
    (rotateSpec t v p).dsep z = t.dsep z := by
  rw [rotateSpec_dsep, if_neg h1, if_neg h2, if_neg h3, if_neg h4]

/-- The grandparent keeps its `dsep` pointer when that pointer is not the
rotated node's parent. -/
theorem rotateSpec_dsep_gp (t : STT) {v p z : Nat} (h1 : z ≠ p) (h2 : z ≠ v)
    (h3 : t.dsep v ≠ some z) (hg : t.parent p = some z) (h4 : t.dsep z ≠ some p) :
    (rotateSpec t v p).dsep z = t.dsep z := by
  rw [rotateSpec_dsep, if_neg h1, if_neg h2, if_neg h3, if_pos hg, if_neg h4]

theorem pport_eq_some (t : STT) {w c : Nat} (h : t.dsep w = some c) :
    pport t w = iseptail t t.n c := by
  show (match t.dsep w with | some c2 => iseptail t t.n c2 | none => w) = iseptail t t.n c
  rw [h]

theorem pport_eq_none (t : STT) {w : Nat} (h : t.dsep w = none) :
    pport t w = w := by
  show (match t.dsep w with | some c2 => iseptail t t.n c2 | none => w) = w
  rw [h]

/-- Chain tails are unchanged by a legal rotation at `v`, for every node
other than `v`, its parent `p`, and its direct-separator child.  A chain
can only enter the modified region at the grandparent (whose chain is
re-routed `g → v → p` instead of `g → p`, or `g → v` instead of
`g → p → v`, with the same tail); below the region the pointers are
untouched.  Induction on the remaining chain length `n - dep`. -/
theorem istail_rotateSpec (t : STT) (hw : WF t) {v p : Nat} (hp : t.parent v = some p)
    (hl : t.canRotate v = true) :
    ∀ (k z : Nat), z < t.n → t.n - dep t z (hw.toWFb.acyc z) ≤ k →
      z ≠ p → z ≠ v → t.dsep v ≠ some z →
      iseptail (rotateSpec t v p) t.n z = iseptail t t.n z := by
  obtain ⟨hvp, hgf, hcf⟩ := rotDistinct t hw.toWFb hp
  have hb2 : WFb (rotateSpec t v p) := (WF_rotateSpec t hw hp hl).toWFb
  have hvn : v < t.n := (hw.toWFb.parRange v p hp).1
  have hpn : p < t.n := (hw.toWFb.parRange v p hp).2
  intro k
  induction k with
  | zero =>
    intro z hz hk hzp hzv hzc
    have hd := dep_le_n t hw.toWFb hz
    have hiz : t.isep z = none := isep_none_deep t hw.toWFb hz (by omega)
    have hiz2 : (rotateSpec t v p).isep z = none := by
      rw [rotateSpec_isep_off t hzp hzv hzc (by rw [hiz]; exact fun h => Option.noConfusion h)]
      exact hiz
    rw [iseptail_rs_none t v p hz hiz2, iseptail_n_none t hz hiz]
  | succ k ih =>
    intro z hz hk hzp hzv hzc
    cases hiz : t.isep z with
    | none =>
      have hiz2 : (rotateSpec t v p).isep z = none := by
        rw [rotateSpec_isep_off t hzp hzv hzc (by rw [hiz]; exact fun h => Option.noConfusion h)]
        exact hiz
      rw [iseptail_rs_none t v p hz hiz2, iseptail_n_none t hz hiz]
    | some y =>
      have hpyz : t.parent y = some z := hw.toWFb.isCoh z y hiz
      have hyn : y < t.n := (hw.toWFb.isRange z y hiz).2
      have hdy : dep t y (hw.toWFb.acyc y) = dep t z (hw.toWFb.acyc z) + 1 :=
        dep_parent_some t hpyz (hw.toWFb.acyc y) (hw.toWFb.acyc z)
      by_cases hyp : y = p
      · -- the chain enters the rotated region: `z` is the grandparent
        obtain rfl := hyp.symm
        have hgz : t.parent p = some z := hpyz
        have hdp : dep t p (hw.toWFb.acyc p) = dep t z (hw.toWFb.acyc z) + 1 := hdy
        have hdv : dep t v (hw.toWFb.acyc v) = dep t p (hw.toWFb.acyc p) + 1 :=
          dep_parent_some t hp (hw.toWFb.acyc v) (hw.toWFb.acyc p)
        have hsepp : t.isSep p = true := isSep_of_isep t hgz hiz
        have hsepv : t.isSep v = true := by
          rcases (canRotate_iff t hp).mp hl with h | h
          · exact h
          · rw [hsepp] at h
            exact Bool.noConfusion h
        have hdzp : t.dsep z ≠ some p := fun hd2 => hw.toWFb.dsIsNe z p hd2 hiz
        have hiz2 : (rotateSpec t v p).isep z = some v := by
          rw [rotateSpec_isep, if_neg hzp, if_neg hzv, if_neg hzc, if_pos hgz,
            if_pos ⟨hdzp, hiz⟩]
        rw [iseptail_rs_step t hb2 hz hiz2, iseptail_n_step t hw.toWFb hz hiz]
        rcases (isSep_iff t hp).mp hsepv with hvd | hvi
        · -- `v` was the direct separator child of `p`
          have hiv2 : (rotateSpec t v p).isep v = some p := by
            rw [rotateSpec_isep, if_neg hvp, if_pos rfl,
              if_pos ⟨by rw [hgz]; rfl, hvd⟩, if_pos hsepp]
          have hodf : optIsDifferent (t.dsep p) v = false := by
            rw [hvd]
            simp [optIsDifferent]
          have hipv : t.isep p ≠ some v := hw.toWFb.dsIsNe p v hvd
          have hip2 : (rotateSpec t v p).isep p = t.isep p := by
            rw [rotateSpec_isep, if_pos rfl, if_neg (by simp [hodf]), if_neg hipv]
          rw [iseptail_rs_step t hb2 hvn hiv2]
          cases hipu : t.isep p with
          | none =>
            rw [iseptail_rs_none t v p hpn (hip2.trans hipu), iseptail_n_none t hpn hipu]
          | some u =>
            have hpup : t.parent u = some p := hw.toWFb.isCoh p u hipu
            have hun : u < t.n := (hw.toWFb.isRange p u hipu).2
            have hdu : dep t u (hw.toWFb.acyc u) = dep t p (hw.toWFb.acyc p) + 1 :=
              dep_parent_some t hpup (hw.toWFb.acyc u) (hw.toWFb.acyc p)
            have hup : u ≠ p := fun he => parent_self_absurd t (hw.toWFb.acyc p) (he ▸ hpup)
            have huv : u ≠ v := fun he => hipv (he ▸ hipu)
            have hcu : t.dsep v ≠ some u := by
              intro hd2
              have := hw.toWFb.dsCoh v u hd2
              rw [hpup] at this
              exact hvp (Option.some.inj this).symm
            rw [iseptail_rs_step t hb2 hpn (hip2.trans hipu),
              iseptail_n_step t hw.toWFb hpn hipu]
            exact ih u hun (by omega) hup huv hcu
        · -- `v` was the indirect separator child of `p`
          have hvdn : t.dsep p ≠ some v := fun hd2 => hw.toWFb.dsIsNe p v hd2 hvi
          have hiv2 : (rotateSpec t v p).isep v = t.isep v := by
            rw [rotateSpec_isep, if_neg hvp, if_pos rfl, if_neg (fun hc => hvdn hc.2)]
          rw [iseptail_n_step t hw.toWFb hpn hvi]
          cases hivu : t.isep v with
          | none =>
            rw [iseptail_rs_none t v p hvn (hiv2.trans hivu), iseptail_n_none t hvn hivu]
          | some u =>
            have hpuv : t.parent u = some v := hw.toWFb.isCoh v u hivu
            have hun : u < t.n := (hw.toWFb.isRange v u hivu).2
            have hdu : dep t u (hw.toWFb.acyc u) = dep t v (hw.toWFb.acyc v) + 1 :=
              dep_parent_some t hpuv (hw.toWFb.acyc u) (hw.toWFb.acyc v)
            have hup : u ≠ p := by
              intro he
              exact parent2_cycle_absurd t (hw.toWFb.acyc v) hp (he ▸ hpuv)
            have huv : u ≠ v := fun he => parent_self_absurd t (hw.toWFb.acyc v) (he ▸ hpuv)
            have hcu : t.dsep v ≠ some u := fun hd2 => hw.toWFb.dsIsNe v u hd2 hivu
            rw [iseptail_rs_step t hb2 hvn (hiv2.trans hivu),
              iseptail_n_step t hw.toWFb hvn hivu]
            exact ih u hun (by omega) hup huv hcu
      · -- ordinary chain step outside the region
        have hiz2 : (rotateSpec t v p).isep z = some y := by
          rw [rotateSpec_isep_off t hzp hzv hzc
            (by rw [hiz]; intro h; exact hyp (Option.some.inj h))]
          exact hiz
        have hyv : y ≠ v := by
          intro he
          rw [he, hp] at hpyz
          exact hzp (Option.some.inj hpyz).symm
        have hcy : t.dsep v ≠ some y := by
          intro hd2
          have := hw.toWFb.dsCoh v y hd2
          rw [hpyz] at this
          exact hzv (Option.some.inj this)
        rw [iseptail_rs_step t hb2 hz hiz2, iseptail_n_step t hw.toWFb hz hiz]
        exact ih y hyn (by omega) hyp hyv hcy

/-- Every node other than `v`, `p` and `v`'s direct-separator child keeps
its boundary vertex under a legal rotation (including the grandparent,
whose chain is re-routed through `v` with the same tail). -/
theorem pport_rotateSpec_other (t : STT) (hw : WF t) {v p : Nat} (hp : t.parent v = some p)
    (hl : t.canRotate v = true) :
    ∀ w, w < t.n → w ≠ p → w ≠ v → t.dsep v ≠ some w →
      pport (rotateSpec t v p) w = pport t w := by
  obtain ⟨hvp, hgf, hcf⟩ := rotDistinct t hw.toWFb hp
  have hb2 : WFb (rotateSpec t v p) := (WF_rotateSpec t hw hp hl).toWFb
  have hvn : v < t.n := (hw.toWFb.parRange v p hp).1
  have hpn : p < t.n := (hw.toWFb.parRange v p hp).2
  intro w hwn hwp hwv hwc
  by_cases hgw : t.parent p = some w
  · by_cases hdwp : t.dsep w = some p
    · -- `w` is the grandparent and `p` is its direct-separator child
      have hd2 : (rotateSpec t v p).dsep w = some v := by
        rw [rotateSpec_dsep, if_neg hwp, if_neg hwv, if_neg hwc, if_pos hgw, if_pos hdwp]
      have hsepp : t.isSep p = true := isSep_of_dsep t hgw hdwp
      have hsepv : t.isSep v = true := by
        rcases (canRotate_iff t hp).mp hl with h | h
        · exact h
        · rw [hsepp] at h
          exact Bool.noConfusion h
      rw [pport_eq_some (rotateSpec t v p) hd2, rotateSpec_n, pport_eq_some t hdwp]
      rcases (isSep_iff t hp).mp hsepv with hvd | hvi
      · have hiv2 : (rotateSpec t v p).isep v = some p := by
          rw [rotateSpec_isep, if_neg hvp, if_pos rfl,
            if_pos ⟨by rw [hgw]; rfl, hvd⟩, if_pos hsepp]
        have hodf : optIsDifferent (t.dsep p) v = false := by
          rw [hvd]
          simp [optIsDifferent]
        have hipv : t.isep p ≠ some v := hw.toWFb.dsIsNe p v hvd
        have hip2 : (rotateSpec t v p).isep p = t.isep p := by
          rw [rotateSpec_isep, if_pos rfl, if_neg (by simp [hodf]), if_neg hipv]
        rw [iseptail_rs_step t hb2 hvn hiv2]
        cases hipu : t.isep p with
        | none =>
          rw [iseptail_rs_none t v p hpn (hip2.trans hipu), iseptail_n_none t hpn hipu]
        | some u =>
          have hpup : t.parent u = some p := hw.toWFb.isCoh p u hipu
          have hun : u < t.n := (hw.toWFb.isRange p u hipu).2
          have hup : u ≠ p := fun he => parent_self_absurd t (hw.toWFb.acyc p) (he ▸ hpup)
          have huv : u ≠ v := fun he => hipv (he ▸ hipu)
          have hcu : t.dsep v ≠ some u := by
            intro hd3
            have := hw.toWFb.dsCoh v u hd3
            rw [hpup] at this
            exact hvp (Option.some.inj this).symm
          rw [iseptail_rs_step t hb2 hpn (hip2.trans hipu),
            iseptail_n_step t hw.toWFb hpn hipu]
          exact istail_rotateSpec t hw hp hl t.n u hun (Nat.sub_le _ _) hup huv hcu
      · have hvdn : t.dsep p ≠ some v := fun hd3 => hw.toWFb.dsIsNe p v hd3 hvi
        have hiv2 : (rotateSpec t v p).isep v = t.isep v := by
          rw [rotateSpec_isep, if_neg hvp, if_pos rfl, if_neg (fun hc => hvdn hc.2)]
        rw [iseptail_n_step t hw.toWFb hpn hvi]
        cases hivu : t.isep v with
        | none =>
          rw [iseptail_rs_none t v p hvn (hiv2.trans hivu), iseptail_n_none t hvn hivu]
        | some u =>
          have hpuv : t.parent u = some v := hw.toWFb.isCoh v u hivu
          have hun : u < t.n := (hw.toWFb.isRange v u hivu).2
          have hup : u ≠ p := fun he =>
            parent2_cycle_absurd t (hw.toWFb.acyc v) hp (he ▸ hpuv)
          have huv : u ≠ v := fun he => parent_self_absurd t (hw.toWFb.acyc v) (he ▸ hpuv)
          have hcu : t.dsep v ≠ some u := fun hd3 => hw.toWFb.dsIsNe v u hd3 hivu
          rw [iseptail_rs_step t hb2 hvn (hiv2.trans hivu),
            iseptail_n_step t hw.toWFb hvn hivu]
          exact istail_rotateSpec t hw hp hl t.n u hun (Nat.sub_le _ _) hup huv hcu
    · -- `w` is the grandparent but `p` is not its direct-separator child
      have hd2 : (rotateSpec t v p).dsep w = t.dsep w :=
        rotateSpec_dsep_gp t hwp hwv hwc hgw hdwp
      cases hdw : t.dsep w with
      | none =>
        rw [pport_eq_none (rotateSpec t v p) (hd2.trans hdw), pport_eq_none t hdw]
      | some y =>
        have hpyw : t.parent y = some w := hw.toWFb.dsCoh w y hdw
        have hyn : y < t.n := (hw.toWFb.dsRange w y hdw).2
        have hyp2 : y ≠ p := fun he => hdwp (he ▸ hdw)
        have hyv : y ≠ v := by
          intro he
          rw [he, hp] at hpyw
          exact hwp (Option.some.inj hpyw).symm
        have hcy : t.dsep v ≠ some y := by
          intro hd3
          have := hw.toWFb.dsCoh v y hd3
          rw [hpyw] at this
          exact hwv (Option.some.inj this)
        rw [pport_eq_some (rotateSpec t v p) (hd2.trans hdw), rotateSpec_n,
          pport_eq_some t hdw]
        exact istail_rotateSpec t hw hp hl t.n y hyn (Nat.sub_le _ _) hyp2 hyv hcy
  · -- `w` is not the grandparent
    have hd2 : (rotateSpec t v p).dsep w = t.dsep w :=
      rotateSpec_dsep_off t hwp hwv hwc hgw
    cases hdw : t.dsep w with
    | none =>
      rw [pport_eq_none (rotateSpec t v p) (hd2.trans hdw), pport_eq_none t hdw]
    | some y =>
      have hpyw : t.parent y = some w := hw.toWFb.dsCoh w y hdw
      have hyn : y < t.n := (hw.toWFb.dsRange w y hdw).2
      have hyp2 : y ≠ p := fun he => hgw (he ▸ hpyw)
      have hyv : y ≠ v := by
        intro he
        rw [he, hp] at hpyw
        exact hwp (Option.some.inj hpyw).symm
      have hcy : t.dsep v ≠ some y := by
        intro hd3
        have := hw.toWFb.dsCoh v y hd3
        rw [hpyw] at this
        exact hwv (Option.some.inj this)
      rw [pport_eq_some (rotateSpec t v p) (hd2.trans hdw), rotateSpec_n,
        pport_eq_some t hdw]
      exact istail_rotateSpec t hw hp hl t.n y hyn (Nat.sub_le _ _) hyp2 hyv hcy

/-- After the rotation, if `v` had no direct-separator child then `p`
becomes its own boundary vertex. -/
theorem pport_rotateSpec_p_none (t : STT) {v p : Nat} (hc : t.dsep v = none) :
    pport (rotateSpec t v p) p = p := by
  have hd2 : (rotateSpec t v p).dsep p = none := by
    rw [rotateSpec_dsep, if_pos rfl]
    exact hc
  exact pport_eq_none (rotateSpec t v p) hd2

/-- After the rotation, `p`'s boundary vertex is the old boundary vertex
of `v`'s direct-separator child `c` (which becomes `p`'s new
direct-separator child, with its two separator slots swapped). -/
theorem pport_rotateSpec_p_some (t : STT) (hw : WF t) {v p c : Nat}
    (hp : t.parent v = some p) (hl : t.canRotate v = true) (hc : t.dsep v = some c) :
    pport (rotateSpec t v p) p = pport t c := by
  obtain ⟨hvp, hgf, hcf⟩ := rotDistinct t hw.toWFb hp
  obtain ⟨hcv, hcp, hcg⟩ := hcf c hc
  have hb2 : WFb (rotateSpec t v p) := (WF_rotateSpec t hw hp hl).toWFb
  have hcn : c < t.n := (hw.toWFb.dsRange v c hc).2
  have hpcv : t.parent c = some v := hw.toWFb.dsCoh v c hc
  have hd2 : (rotateSpec t v p).dsep p = some c := by
    rw [rotateSpec_dsep, if_pos rfl]
    exact hc
  have hic2 : (rotateSpec t v p).isep c = t.dsep c := by
    rw [rotateSpec_isep, if_neg hcp, if_neg hcv, if_pos hc]
  rw [pport_eq_some (rotateSpec t v p) hd2, rotateSpec_n]
  cases hdc : t.dsep c with
  | none =>
    rw [iseptail_rs_none t v p hcn (hic2.trans hdc), pport_eq_none t hdc]
  | some d =>
    have hpdc : t.parent d = some c := hw.toWFb.dsCoh c d hdc
    have hdn : d < t.n := (hw.toWFb.dsRange c d hdc).2
    have hdp : d ≠ p := by
      intro he
      exact parent3_cycle_absurd t (hw.toWFb.acyc v) hp (he ▸ hpdc) hpcv
    have hdv : d ≠ v := by
      intro he
      rw [he, hp] at hpdc
      exact hcp (Option.some.inj hpdc).symm
    have hcd : t.dsep v ≠ some d := by
      intro hd3
      have := hw.toWFb.dsCoh v d hd3
      rw [hpdc] at this
      exact hcv (Option.some.inj this)
    rw [iseptail_rs_step t hb2 hcn (hic2.trans hdc), pport_eq_some t hdc]
    exact istail_rotateSpec t hw hp hl t.n d hdn (Nat.sub_le _ _) hdp hdv hcd

/-- After the rotation, the old direct-separator child `c` of `v` (now a
child of `p`) has the old boundary vertex of `v`. -/
theorem pport_rotateSpec_c (t : STT) (hw : WF t) {v p c : Nat}
    (hp : t.parent v = some p) (hl : t.canRotate v = true) (hc : t.dsep v = some c) :
    pport (rotateSpec t v p) c = pport t v := by
  obtain ⟨hvp, hgf, hcf⟩ := rotDistinct t hw.toWFb hp
  obtain ⟨hcv, hcp, hcg⟩ := hcf c hc
  have hb2 : WFb (rotateSpec t v p) := (WF_rotateSpec t hw hp hl).toWFb
  have hcn : c < t.n := (hw.toWFb.dsRange v c hc).2
  have hpcv : t.parent c = some v := hw.toWFb.dsCoh v c hc
  have hd2 : (rotateSpec t v p).dsep c = t.isep c := by
    rw [rotateSpec_dsep, if_neg hcp, if_neg hcv, if_pos hc]
  rw [pport_eq_some t hc]
  cases hic : t.isep c with
  | none =>
    rw [pport_eq_none (rotateSpec t v p) (hd2.trans hic), iseptail_n_none t hcn hic]
  | some i =>
    have hpic : t.parent i = some c := hw.toWFb.isCoh c i hic
    have hin : i < t.n := (hw.toWFb.isRange c i hic).2
    have hip2 : i ≠ p := by
      intro he
      exact parent3_cycle_absurd t (hw.toWFb.acyc v) hp (he ▸ hpic) hpcv
    have hiv : i ≠ v := by
      intro he
      rw [he, hp] at hpic
      exact hcp (Option.some.inj hpic).symm
    have hci : t.dsep v ≠ some i := by
      intro hd3
      have := hw.toWFb.dsCoh v i hd3
      rw [hpic] at this
      exact hcv (Option.some.inj this)
    rw [pport_eq_some (rotateSpec t v p) (hd2.trans hic), rotateSpec_n,
      iseptail_n_step t hw.toWFb hcn hic]
    exact istail_rotateSpec t hw hp hl t.n i hin (Nat.sub_le _ _) hip2 hiv hci

/-- After the rotation, `v` (now a child of the old grandparent `g`)
has the old boundary vertex of `p`. -/
theorem pport_rotateSpec_v (t : STT) (hw : WF t) {v p g : Nat}
    (hp : t.parent v = some p) (hl : t.canRotate v = true) (hg : t.parent p = some g) :
    pport (rotateSpec t v p) v = pport t p := by
  obtain ⟨hvp, hgf, hcf⟩ := rotDistinct t hw.toWFb hp
  have hb2 : WFb (rotateSpec t v p) := (WF_rotateSpec t hw hp hl).toWFb
  have hvn : v < t.n := (hw.toWFb.parRange v p hp).1
  have hpn : p < t.n := (hw.toWFb.parRange v p hp).2
  by_cases hvd : t.dsep p = some v
  · have hd2 : (rotateSpec t v p).dsep v = t.isep v := by
      rw [rotateSpec_dsep, if_neg hvp, if_pos rfl, if_pos (by rw [hg]; rfl), if_pos hvd]
    rw [pport_eq_some t hvd]
    cases hiv : t.isep v with
    | none =>
      rw [pport_eq_none (rotateSpec t v p) (hd2.trans hiv), iseptail_n_none t hvn hiv]
    | some j =>
      have hpjv : t.parent j = some v := hw.toWFb.isCoh v j hiv
      have hjn : j < t.n := (hw.toWFb.isRange v j hiv).2
      have hjp : j ≠ p := fun he =>
        parent2_cycle_absurd t (hw.toWFb.acyc v) hp (he ▸ hpjv)
      have hjv : j ≠ v := fun he => parent_self_absurd t (hw.toWFb.acyc v) (he ▸ hpjv)
      have hcj : t.dsep v ≠ some j := fun hd3 => hw.toWFb.dsIsNe v j hd3 hiv
      rw [pport_eq_some (rotateSpec t v p) (hd2.trans hiv), rotateSpec_n,
        iseptail_n_step t hw.toWFb hvn hiv]
      exact istail_rotateSpec t hw hp hl t.n j hjn (Nat.sub_le _ _) hjp hjv hcj
  · have hd2 : (rotateSpec t v p).dsep v = some p := by
      rw [rotateSpec_dsep, if_neg hvp, if_pos rfl, if_pos (by rw [hg]; rfl), if_neg hvd]
    rw [pport_eq_some (rotateSpec t v p) hd2, rotateSpec_n]
    cases hdp : t.dsep p with
    | some y =>
      have hyv : y ≠ v := fun he => hvd (he ▸ hdp)
      have hodf : optIsDifferent (t.dsep p) v = true := by
        rw [hdp]
        simp [optIsDifferent, hyv]
      have hip2 : (rotateSpec t v p).isep p = some y := by
        rw [rotateSpec_isep, if_pos rfl, if_pos hodf]
        exact hdp
      have hpyp : t.parent y = some p := hw.toWFb.dsCoh p y hdp
      have hyn : y < t.n := (hw.toWFb.dsRange p y hdp).2
      have hyp2 : y ≠ p := fun he => parent_self_absurd t (hw.toWFb.acyc p) (he ▸ hpyp)
      have hcy : t.dsep v ≠ some y := by
        intro hd3
        have := hw.toWFb.dsCoh v y hd3
        rw [hpyp] at this
        exact hvp (Option.some.inj this).symm
      rw [iseptail_rs_step t hb2 hpn hip2, pport_eq_some t hdp]
      exact istail_rotateSpec t hw hp hl t.n y hyn (Nat.sub_le _ _) hyp2 hyv hcy
    | none =>
      have hodf : optIsDifferent (t.dsep p) v = false := by
        rw [hdp]
        rfl
      cases hip : t.isep p with
      | none =>
        have hipv : t.isep p ≠ some v := by
          rw [hip]
          exact fun h => Option.noConfusion h
        have hip2 : (rotateSpec t v p).isep p = none := by
          rw [rotateSpec_isep, if_pos rfl, if_neg (by simp [hodf]), if_neg hipv]
          exact hip
        rw [iseptail_rs_none t v p hpn hip2, pport_eq_none t hdp]
      | some u =>
        by_cases huv : u = v
        · obtain rfl := huv.symm
          have hip2 : (rotateSpec t v p).isep p = none := by
            rw [rotateSpec_isep, if_pos rfl, if_neg (by simp [hodf]), if_pos hip]
          rw [iseptail_rs_none t v p hpn hip2, pport_eq_none t hdp]
        · exfalso
          have hsepp : t.isSep p = true := hw.isepSep p u hip
          have hsepv : t.isSep v = true := by
            rcases (canRotate_iff t hp).mp hl with h | h
            · exact h
            · rw [hsepp] at h
              exact Bool.noConfusion h
          rcases (isSep_iff t hp).mp hsepv with h | h
          · exact hvd h
          · rw [hip] at h
            exact huv (Option.some.inj h)

/-- A legal rotation leaves the underlying tree's adjacency unchanged:
the rotated STT represents exactly the same edges.  The rotated STT edges
at `p`, `v` and the old direct-separator child of `v` stand for the old
edges at the child, `p` and `v` respectively (the `(p, v)` edge flips
orientation when `v` had no direct-separator child); all other edges are
untouched. -/
theorem underEdge_rotateSpec (t : STT) (hw : WF t) {v p : Nat} (hp : t.parent v = some p)
    (hl : t.canRotate v = true) :
    ∀ x y, underEdge (rotateSpec t v p) x y ↔ underEdge t x y := by
  obtain ⟨hvp, hgf, hcf⟩ := rotDistinct t hw.toWFb hp
  have hb2 : WFb (rotateSpec t v p) := (WF_rotateSpec t hw hp hl).toWFb
  have hFwd : ∀ w q, (rotateSpec t v p).parent w = some q →
      ∃ w2 q2, t.parent w2 = some q2 ∧
        ((pport t w2 = pport (rotateSpec t v p) w ∧ q2 = q) ∨
         (pport t w2 = q ∧ q2 = pport (rotateSpec t v p) w)) := by
    intro w q hwq
    have hwn : w < t.n := (hb2.parRange w q hwq).1
    have hwq2 := hwq
    rw [rotateSpec_parent] at hwq2
    by_cases hwp : w = p
    · obtain rfl := hwp.symm
      rw [if_pos rfl] at hwq2
      obtain rfl := Option.some.inj hwq2
      cases hdc : t.dsep v with
      | none =>
        exact ⟨v, p, hp, Or.inr ⟨pport_eq_none t hdc,
          (pport_rotateSpec_p_none t hdc).symm⟩⟩
      | some c =>
        exact ⟨c, v, hw.toWFb.dsCoh v c hdc,
          Or.inl ⟨(pport_rotateSpec_p_some t hw hp hl hdc).symm, rfl⟩⟩
    · rw [if_neg hwp] at hwq2
      by_cases hwv : w = v
      · obtain rfl := hwv.symm
        rw [if_pos rfl] at hwq2
        exact ⟨p, q, hwq2, Or.inl ⟨(pport_rotateSpec_v t hw hp hl hwq2).symm, rfl⟩⟩
      · rw [if_neg hwv] at hwq2
        by_cases hwc : t.dsep v = some w
        · rw [if_pos hwc] at hwq2
          obtain rfl := Option.some.inj hwq2
          exact ⟨v, p, hp, Or.inl ⟨(pport_rotateSpec_c t hw hp hl hwc).symm, rfl⟩⟩
        · rw [if_neg hwc] at hwq2
          exact ⟨w, q, hwq2,
            Or.inl ⟨(pport_rotateSpec_other t hw hp hl w hwn hwp hwv hwc).symm, rfl⟩⟩
  have hBwd : ∀ w q, t.parent w = some q →
      ∃ w2 q2, (rotateSpec t v p).parent w2 = some q2 ∧
        ((pport (rotateSpec t v p) w2 = pport t w ∧ q2 = q) ∨
         (pport (rotateSpec t v p) w2 = q ∧ q2 = pport t w)) := by
    intro w q hwq
    have hwn : w < t.n := (hw.toWFb.parRange w q hwq).1
    by_cases hwv : w = v
    · obtain rfl := hwv.symm
      have hqp : p = q := by
        rw [hp] at hwq
        exact Option.some.inj hwq
      obtain rfl := hqp
      cases hdc : t.dsep v with
      | none =>
        refine ⟨p, v, ?_, Or.inr ⟨pport_rotateSpec_p_none t hdc,
          (pport_eq_none t hdc).symm⟩⟩
        rw [rotateSpec_parent, if_pos rfl]
      | some c =>
        obtain ⟨hcv2, hcp2, -⟩ := hcf c hdc
        refine ⟨c, p, ?_, Or.inl ⟨pport_rotateSpec_c t hw hp hl hdc, rfl⟩⟩
        rw [rotateSpec_parent, if_neg hcp2, if_neg hcv2, if_pos hdc]
    · by_cases hwp : w = p
      · obtain rfl := hwp.symm
        refine ⟨v, q, ?_, Or.inl ⟨pport_rotateSpec_v t hw hp hl hwq, rfl⟩⟩
        rw [rotateSpec_parent, if_neg hvp, if_pos rfl]
        exact hwq
      · by_cases hwc : t.dsep v = some w
        · have hqv : v = q := by
            have h2 := hw.toWFb.dsCoh v w hwc
            rw [hwq] at h2
            exact (Option.some.inj h2).symm
          obtain rfl := hqv
          refine ⟨p, v, ?_, Or.inl ⟨pport_rotateSpec_p_some t hw hp hl hwc, rfl⟩⟩
          rw [rotateSpec_parent, if_pos rfl]
        · refine ⟨w, q, ?_,
            Or.inl ⟨pport_rotateSpec_other t hw hp hl w hwn hwp hwv hwc, rfl⟩⟩
          rw [rotateSpec_parent, if_neg hwp, if_neg hwv, if_neg hwc]
          exact hwq
  intro x y
  constructor
  · rintro (⟨w, q, hwq, hpw, rfl⟩ | ⟨w, q, hwq, hpw, rfl⟩)
    · obtain ⟨w2, q2, h1, h2⟩ := hFwd w q hwq
      rcases h2 with ⟨ha, hb3⟩ | ⟨ha, hb3⟩
      · exact Or.inl ⟨w2, q2, h1, ha.trans hpw, hb3⟩
      · exact Or.inr ⟨w2, q2, h1, ha, hb3.trans hpw⟩
    · obtain ⟨w2, q2, h1, h2⟩ := hFwd w q hwq
      rcases h2 with ⟨ha, hb3⟩ | ⟨ha, hb3⟩
      · exact Or.inr ⟨w2, q2, h1, ha.trans hpw, hb3⟩
      · exact Or.inl ⟨w2, q2, h1, ha, hb3.trans hpw⟩
  · rintro (⟨w, q, hwq, hpw, rfl⟩ | ⟨w, q, hwq, hpw, rfl⟩)
    · obtain ⟨w2, q2, h1, h2⟩ := hBwd w q hwq
      rcases h2 with ⟨ha, hb3⟩ | ⟨ha, hb3⟩
      · exact Or.inl ⟨w2, q2, h1, ha.trans hpw, hb3⟩
      · exact Or.inr ⟨w2, q2, h1, ha, hb3.trans hpw⟩
    · obtain ⟨w2, q2, h1, h2⟩ := hBwd w q hwq
      rcases h2 with ⟨ha, hb3⟩ | ⟨ha, hb3⟩
      · exact Or.inr ⟨w2, q2, h1, ha.trans hpw, hb3⟩
      · exact Or.inl ⟨w2, q2, h1, ha, hb3.trans hpw⟩

/-- The inner rotation loop of `make_1_cut` only performs rotations at
separators, which are legal, so it preserves the underlying tree. -/
theorem rotWhileSep_edges : ∀ (fuel : Nat) (t t' : STT) (v : Nat), WF t →
    rotWhileSep fuel t v = some t' →
    WF t' ∧ ∀ x y, underEdge t' x y ↔ underEdge t x y := by
  intro fuel
  induction fuel with
  | zero =>
    intro t t' v hw h
    have h2 : (if t.isSep v = true then none else some t) = some t' := h
    by_cases hs : t.isSep v = true
    · rw [if_pos hs] at h2
      exact Option.noConfusion h2
    · rw [if_neg hs] at h2
      obtain rfl := Option.some.inj h2
      exact ⟨hw, fun x y => Iff.rfl⟩
  | succ fuel ih =>
    intro t t' v hw h
    have h2 : (if t.isSep v = true then (t.rotate v).bind (fun t2 => rotWhileSep fuel t2 v)
        else some t) = some t' := h
    by_cases hs : t.isSep v = true
    · rw [if_pos hs] at h2
      rcases hpv : t.parent v with _ | p
      · rw [isSep_root t hpv] at hs
        exact Bool.noConfusion hs
      · obtain ⟨hvp, hgf, hcf⟩ := rotDistinct t hw.toWFb hpv
        have heq : t.rotate v = some (rotateSpec t v p) := by
          show (t.parent v).map (fun q => t.rotateAt v q) = _
          rw [hpv]
          exact congrArg some (rotateAt_eq_spec t v p hpv hvp hgf hcf)
        rw [heq] at h2
        replace h2 : rotWhileSep fuel (rotateSpec t v p) v = some t' := h2
        have hleg : t.canRotate v = true := (canRotate_iff t hpv).mpr (Or.inl hs)
        obtain ⟨hw', hiff⟩ := ih (rotateSpec t v p) t' v (WF_rotateSpec t hw hpv hleg) h2
        exact ⟨hw',
          fun x y => (hiff x y).trans (underEdge_rotateSpec t hw hpv hleg x y)⟩
    · rw [if_neg hs] at h2
      obtain rfl := Option.some.inj h2
      exact ⟨hw, fun x y => Iff.rfl⟩

/-- The node fold of `make_1_cut` preserves the underlying tree. -/
theorem foldRot_edges : ∀ (l : List Nat) (s s' : STT), WF s →
    l.foldlM (fun s2 v => rotWhileSep s2.n s2 v) s = some s' →
    WF s' ∧ ∀ x y, underEdge s' x y ↔ underEdge s x y := by
  intro l
  induction l with
  | nil =>
    intro s s' hw h
    obtain rfl := Option.some.inj h
    exact ⟨hw, fun x y => Iff.rfl⟩
  | cons v l ih =>
    intro s s' hw h
    replace h : (rotWhileSep s.n s v).bind
        (fun s2 => l.foldlM (fun s3 u => rotWhileSep s3.n s3 u) s2) = some s' := h
    cases h1 : rotWhileSep s.n s v with
    | none =>
      rw [h1] at h
      exact Option.noConfusion h
    | some s1 =>
      rw [h1] at h
      replace h : l.foldlM (fun s3 u => rotWhileSep s3.n s3 u) s1 = some s' := h
      obtain ⟨hw1, hiff1⟩ := rotWhileSep_edges s.n s s1 v hw h1
      obtain ⟨hw', hiff2⟩ := ih s1 s' hw1 h
      exact ⟨hw', fun x y => (hiff2 x y).trans (hiff1 x y)⟩

/-- `make_1_cut` preserves the underlying tree. -/
theorem make1cut_edges (t t' : STT) (hw : WF t) (h : make1cut t = some t') :
    WF t' ∧ ∀ x y, underEdge t' x y ↔ underEdge t x y :=
  foldRot_edges (List.range t.n) t t' hw h

/-- On a separator-free STT every node is its own boundary vertex. -/
theorem pport_of_noSep (t : STT) (hb : WFb t) (hns : ∀ w, t.isSep w = false) (w : Nat) :
    pport t w = w := by
  cases hd : t.dsep w with
  | none => exact pport_eq_none t hd
  | some c =>
    exfalso
    have hpc : t.parent c = some w := hb.dsCoh w c hd
    have h2 := isSep_of_dsep t hpc hd
    rw [hns c] at h2
    exact Bool.noConfusion h2

/-- On a separator-free STT the underlying-tree adjacency is exactly the
parent-pointer adjacency. -/
theorem underEdge_noSep (t : STT) (hb : WFb t) (hns : ∀ w, t.isSep w = false) (x y : Nat) :
    underEdge t x y ↔ (t.parent x = some y ∨ t.parent y = some x) := by
  constructor
  · rintro (⟨w, q, hwq, hpw, rfl⟩ | ⟨w, q, hwq, hpw, rfl⟩)
    · rw [pport_of_noSep t hb hns w] at hpw
      obtain rfl := hpw
      exact Or.inl hwq
    · rw [pport_of_noSep t hb hns w] at hpw
      obtain rfl := hpw
      exact Or.inr hwq
  · rintro (h | h)
    · exact Or.inl ⟨x, y, h, pport_of_noSep t hb hns x, rfl⟩
    · exact Or.inr ⟨y, x, h, pport_of_noSep t hb hns y, rfl⟩

/-- A sequence of `can_rotate`-checked rotations preserves well-formedness
and the underlying tree. -/
theorem rotateSeq_edges : ∀ (l : List Nat) (t t2 : STT), WF t →
    rotateSeq t l = some t2 →
    WF t2 ∧ ∀ x y, underEdge t2 x y ↔ underEdge t x y := by
  intro l
  induction l with
  | nil =>
    intro t t2 hw h
    obtain rfl := Option.some.inj h
    exact ⟨hw, fun x y => Iff.rfl⟩
  | cons v l ih =>
    intro t t2 hw h
    replace h : (if t.canRotate v = true then (t.rotate v).bind (fun s => rotateSeq s l)
        else none) = some t2 := h
    by_cases hc : t.canRotate v = true
    · rw [if_pos hc] at h
      rcases hpv : t.parent v with _ | p
      · simp [STT.canRotate, hpv] at hc
      · obtain ⟨hvp, hgf, hcf⟩ := rotDistinct t hw.toWFb hpv
        have heq : t.rotate v = some (rotateSpec t v p) := by
          show (t.parent v).map (fun q => t.rotateAt v q) = _
          rw [hpv]
          exact congrArg some (rotateAt_eq_spec t v p hpv hvp hgf hcf)
        rw [heq] at h
        replace h : rotateSeq (rotateSpec t v p) l = some t2 := h
        obtain ⟨hwf, hiff⟩ := ih (rotateSpec t v p) t2 (WF_rotateSpec t hw hpv hc) h
        exact ⟨hwf, fun x y => (hiff x y).trans (underEdge_rotateSpec t hw hpv hc x y)⟩
    · rw [if_neg hc] at h
      exact Option.noConfusion h

/-- **C2**: a sequence of rotations each permitted by `can_rotate`
preserves the underlying tree of a well-formed 2-cut STT: running
`make_1_cut` on the rotated STT and reading the parent pointers recovers
exactly the underlying-tree adjacency `underEdge` of the original STT —
the same edge set that `make_1_cut` on the original STT produces. -/
theorem c2_rotation_preserves_tree (t : STT) (hw : WF t) (l : List Nat) (t2 : STT)
    (hseq : rotateSeq t l = some t2) :
    ∃ t3 t4, make1cut t2 = some t3 ∧ make1cut t = some t4 ∧
      (∀ x y, (t3.parent x = some y ∨ t3.parent y = some x) ↔ underEdge t x y) ∧
      (∀ x y, (t3.parent x = some y ∨ t3.parent y = some x) ↔
        (t4.parent x = some y ∨ t4.parent y = some x)) := by
  obtain ⟨hw2, hiff2⟩ := rotateSeq_edges l t t2 hw hseq
  obtain ⟨t3, h3, hw3, -, hns3⟩ := make1cut_spec t2 hw2
  obtain ⟨t4, h4, hw4, -, hns4⟩ := make1cut_spec t hw
  obtain ⟨-, hiff3⟩ := make1cut_edges t2 t3 hw2 h3
  obtain ⟨-, hiff4⟩ := make1cut_edges t t4 hw h4
  have hmain : ∀ x y, (t3.parent x = some y ∨ t3.parent y = some x) ↔ underEdge t x y := by
    intro x y
    rw [← underEdge_noSep t3 hw3.toWFb hns3 x y]
    exact (hiff3 x y).trans (hiff2 x y)
  refine ⟨t3, t4, h3, h4, hmain, ?_⟩
  intro x y
  rw [← underEdge_noSep t4 hw4.toWFb hns4 x y]
  exact (hmain x y).trans (hiff4 x y).symm

/-! ### Stability of the stable strategies (claim C4): ancestor relations
and the invariant preserved by every rotation they perform. -/

theorem anc_refl (t : STT) (w : Nat) : anc t w w := ⟨0, rfl⟩

theorem anc_step (t : STT) {a b w : Nat} (h : anc t a w) (hp : t.parent a = some b) :
    anc t b w := by
  obtain ⟨k, hk⟩ := h
  refine ⟨k + 1, ?_⟩
  show (iterPar t k w).bind t.parent = some b
  rw [hk]
  exact hp

theorem anc_prepend (t : STT) {a b w : Nat} (hp : t.parent w = some b) (h : anc t a b) :
    anc t a w := by
  obtain ⟨k, hk⟩ := h
  refine ⟨1 + k, ?_⟩
  rw [iterPar_add]
  rw [iterPar_one, hp]
  exact hk

theorem anc_succ_ex (t : STT) {w a : Nat} {k : Nat} (h : iterPar t (k + 1) w = some a) :
    ∃ b, iterPar t k w = some b ∧ t.parent b = some a := by
  have h2 : (iterPar t k w).bind t.parent = some a := h
  cases hb : iterPar t k w with
  | none =>
    rw [hb] at h2
    exact Option.noConfusion h2
  | some b =>
    rw [hb] at h2
    exact ⟨b, rfl, h2⟩

theorem anc_first_ex (t : STT) {w a : Nat} {k : Nat} (h : iterPar t (k + 1) w = some a) :
    ∃ b, t.parent w = some b ∧ iterPar t k b = some a := by
  have h2 : iterPar t (1 + k) w = some a := by
    rw [Nat.add_comm]
    exact h
  rw [iterPar_add, iterPar_one] at h2
  cases hpw : t.parent w with
  | none =>
    rw [hpw] at h2
    exact Option.noConfusion h2
  | some b =>
    rw [hpw] at h2
    exact ⟨b, rfl, h2⟩

theorem acyc_of_iter (t : STT) {k w b : Nat} (hb : iterPar t k w = some b)
    (hw : ∃ j, iterPar t j w = none) : ∃ j, iterPar t j b = none := by
  obtain ⟨j, hj⟩ := hw
  refine ⟨j, ?_⟩
  have h2 : iterPar t (k + j) w = none := iterPar_none_mono t hj (Nat.le_add_left j k)
  rw [iterPar_add, hb] at h2
  exact h2

theorem dep_iterPar (t : STT) : ∀ (k : Nat) {w a : Nat}, iterPar t k w = some a →
    ∀ (hw : ∃ j, iterPar t j w = none) (ha : ∃ j, iterPar t j a = none),
    dep t w hw = dep t a ha + k := by
  intro k
  induction k with
  | zero =>
    intro w a h hw ha
    obtain rfl := Option.some.inj h
    rfl
  | succ k ih =>
    intro w a h hw ha
    obtain ⟨b, hbk, hpb⟩ := anc_succ_ex t h
    have hbx : ∃ j, iterPar t j b = none := acyc_of_iter t hbk hw
    have h1 := ih hbk hw hbx
    have h2 := dep_parent_some t hpb hbx ha
    omega

theorem anc_antisymm (t : STT) (hac : ∀ z, ∃ j, iterPar t j z = none) {a w : Nat}
    (h1 : anc t a w) (h2 : anc t w a) : a = w := by
  obtain ⟨k, hk⟩ := h1
  obtain ⟨j, hj⟩ := h2
  have d1 := dep_iterPar t k hk (hac w) (hac a)
  have d2 := dep_iterPar t j hj (hac a) (hac w)
  have hk0 : k = 0 := by omega
  rw [hk0] at hk
  exact (Option.some.inj hk).symm

theorem anc_total (t : STT) {a b w : Nat} (h1 : anc t a w) (h2 : anc t b w) :
    anc t a b ∨ anc t b a := by
  obtain ⟨k, hk⟩ := h1
  obtain ⟨j, hj⟩ := h2
  rcases Nat.le_total k j with h | h
  · right
    refine ⟨j - k, ?_⟩
    have h3 : iterPar t (k + (j - k)) w = some b := by
      rw [show k + (j - k) = j by omega]
      exact hj
    rw [iterPar_add, hk] at h3
    exact h3
  · left
    refine ⟨k - j, ?_⟩
    have h3 : iterPar t (j + (k - j)) w = some a := by
      rw [show j + (k - j) = k by omega]
      exact hk
    rw [iterPar_add, hj] at h3
    exact h3

theorem anc_root (t : STT) {r w : Nat} (hr : t.parent r = none) (h : anc t w r) :
    w = r := by
  obtain ⟨k, hk⟩ := h
  cases k with
  | zero => exact (Option.some.inj hk).symm
  | succ k =>
    rw [iterPar_none_mono t (show iterPar t 1 r = none from hr) (by omega)] at hk
    exact Option.noConfusion hk

/-- Two roots above the same node coincide. -/
theorem anc_root_unique (t : STT) {a r w : Nat} (ha : t.parent a = none)
    (hr : t.parent r = none) (h1 : anc t a w) (h2 : anc t r w) : a = r := by
  rcases anc_total t h1 h2 with h | h
  · exact anc_root t hr h
  · exact (anc_root t ha h).symm

theorem anc_strict_parent (t : STT) {a w b : Nat} (h : anc t a w) (hne : a ≠ w)
    (hp : t.parent w = some b) : anc t a b := by
  obtain ⟨k, hk⟩ := h
  cases k with
  | zero => exact absurd (Option.some.inj hk).symm hne
  | succ k =>
    obtain ⟨c, hpc, hck⟩ := anc_first_ex t hk
    rw [hp] at hpc
    obtain rfl := Option.some.inj hpc
    exact ⟨k, hck⟩

/-- Possible values of a remote node's `dsep` slot after a rotation. -/
theorem rotateSpec_dsep_sub (t : STT) {v p r a : Nat} (h1 : r ≠ p) (h2 : r ≠ v)
    (h3 : t.dsep v ≠ some r) (h : (rotateSpec t v p).dsep r = some a) :
    a = v ∨ t.dsep r = some a := by
  rw [rotateSpec_dsep, if_neg h1, if_neg h2, if_neg h3] at h
  by_cases hg : t.parent p = some r
  · rw [if_pos hg] at h
    by_cases hd : t.dsep r = some p
    · rw [if_pos hd] at h
      exact Or.inl (Option.some.inj h).symm
    · rw [if_neg hd] at h
      exact Or.inr h
  · rw [if_neg hg] at h
    exact Or.inr h

/-- Possible values of a remote node's `isep` slot after a rotation. -/
theorem rotateSpec_isep_sub (t : STT) {v p r a : Nat} (h1 : r ≠ p) (h2 : r ≠ v)
    (h3 : t.dsep v ≠ some r) (h : (rotateSpec t v p).isep r = some a) :
    a = v ∨ t.isep r = some a := by
  rw [rotateSpec_isep, if_neg h1, if_neg h2, if_neg h3] at h
  by_cases hg : t.parent p = some r
  · rw [if_pos hg] at h
    by_cases hd : t.dsep r ≠ some p ∧ t.isep r = some p
    · rw [if_pos hd] at h
      exact Or.inl (Option.some.inj h).symm
    · rw [if_neg hd] at h
      exact Or.inr h
  · rw [if_neg hg] at h
    exact Or.inr h

theorem rotateSpec_dsep_p_sub (t : STT) {v p a : Nat}
    (h : (rotateSpec t v p).dsep p = some a) : t.dsep v = some a := by
  rw [rotateSpec_dsep, if_pos rfl] at h
  exact h

theorem rotateSpec_isep_p_sub (t : STT) {v p a : Nat}
    (h : (rotateSpec t v p).isep p = some a) :
    t.dsep p = some a ∨ t.isep p = some a := by
  rw [rotateSpec_isep, if_pos rfl] at h
  by_cases h1 : optIsDifferent (t.dsep p) v = true
  · rw [if_pos h1] at h
    exact Or.inl h
  · rw [if_neg h1] at h
    by_cases h2 : t.isep p = some v
    · rw [if_pos h2] at h
      exact Option.noConfusion h
    · rw [if_neg h2] at h
      exact Or.inr h

theorem rotateSpec_dsep_v_sub (t : STT) {v p a : Nat} (hvp : v ≠ p)
    (h : (rotateSpec t v p).dsep v = some a) : a = p ∨ t.isep v = some a := by
  rw [rotateSpec_dsep, if_neg hvp, if_pos rfl] at h
  by_cases h1 : (t.parent p).isSome = true
  · rw [if_pos h1] at h
    by_cases h2 : t.dsep p = some v
    · rw [if_pos h2] at h
      exact Or.inr h
    · rw [if_neg h2] at h
      exact Or.inl (Option.some.inj h).symm
  · rw [if_neg h1] at h
    exact Option.noConfusion h

theorem rotateSpec_isep_v_sub (t : STT) {v p a : Nat} (hvp : v ≠ p)
    (h : (rotateSpec t v p).isep v = some a) : a = p ∨ t.isep v = some a := by
  rw [rotateSpec_isep, if_neg hvp, if_pos rfl] at h
  by_cases h1 : (t.parent p).isSome = true ∧ t.dsep p = some v
  · rw [if_pos h1] at h
    by_cases h2 : t.isSep p = true
    · rw [if_pos h2] at h
      exact Or.inl (Option.some.inj h).symm
    · rw [if_neg h2] at h
      exact Option.noConfusion h
  · rw [if_neg h1] at h
    exact Or.inr h

/-- A node that is a separator after a rotation at `x` either was one
before, or is `x` or `x`'s old parent. -/
theorem isSep_rotateSpec_sub (s : STT) (hb : WFb s) {x q : Nat} (hx : s.parent x = some q)
    (a : Nat) (h : (rotateSpec s x q).isSep a = true) :
    s.isSep a = true ∨ a = x ∨ a = q := by
  have hxq : x ≠ q := (rotDistinct s hb hx).1
  obtain ⟨r, hpar, hslot⟩ := isSep_elim (rotateSpec s x q) h
  by_cases h1 : a = q
  · exact Or.inr (Or.inr h1)
  · by_cases h2 : a = x
    · exact Or.inr (Or.inl h2)
    · rw [rotateSpec_parent, if_neg h1, if_neg h2] at hpar
      by_cases h3 : s.dsep x = some a
      · exact Or.inl (isSep_of_dsep s (hb.dsCoh x a h3) h3)
      · rw [if_neg h3] at hpar
        by_cases hr1 : r = q
        · obtain rfl := hr1.symm
          rcases hslot with hd | hi
          · exact absurd (rotateSpec_dsep_p_sub s hd) h3
          · rcases rotateSpec_isep_p_sub s hi with hdq | hiq
            · exact Or.inl (isSep_of_dsep s hpar hdq)
            · exact Or.inl (isSep_of_isep s hpar hiq)
        · by_cases hr2 : r = x
          · obtain rfl := hr2.symm
            rcases hslot with hd | hi
            · rcases rotateSpec_dsep_v_sub s hxq hd with haq | hix
              · exact absurd haq h1
              · exact Or.inl (isSep_of_isep s hpar hix)
            · rcases rotateSpec_isep_v_sub s hxq hi with haq | hix
              · exact absurd haq h1
              · exact Or.inl (isSep_of_isep s hpar hix)
          · by_cases hr3 : s.dsep x = some r
            · rcases hslot with hd | hi
              · have he : (rotateSpec s x q).dsep r = s.isep r := by
                  rw [rotateSpec_dsep, if_neg hr1, if_neg hr2, if_pos hr3]
                rw [he] at hd
                exact Or.inl (isSep_of_isep s hpar hd)
              · have he : (rotateSpec s x q).isep r = s.dsep r := by
                  rw [rotateSpec_isep, if_neg hr1, if_neg hr2, if_pos hr3]
                rw [he] at hi
                exact Or.inl (isSep_of_dsep s hpar hi)
            · rcases hslot with hd | hi
              · rcases rotateSpec_dsep_sub s hr1 hr2 hr3 hd with hax | hda
                · exact Or.inr (Or.inl hax)
                · exact Or.inl (isSep_of_dsep s hpar hda)
              · rcases rotateSpec_isep_sub s hr1 hr2 hr3 hi with hax | hia
                · exact Or.inr (Or.inl hax)
                · exact Or.inl (isSep_of_isep s hpar hia)

/-- Every ancestor of `v` after a rotation at an ancestor `x` of `v` was
already an ancestor of `v`. -/
theorem anc_rotateSpec_to (s : STT) (hb : WFb s) {x q v : Nat} (hx : s.parent x = some q)
    (hv : anc s x v) : ∀ a, anc (rotateSpec s x q) a v → anc s a v := by
  intro a ha
  obtain ⟨k, hk⟩ := ha
  induction k generalizing a with
  | zero => exact ⟨0, hk⟩
  | succ k ih =>
    obtain ⟨w, hw, hpw⟩ := anc_succ_ex (rotateSpec s x q) hk
    have hwv : anc s w v := ih w hw
    rw [rotateSpec_parent] at hpw
    by_cases h1 : w = q
    · rw [if_pos h1] at hpw
      obtain rfl := Option.some.inj hpw
      exact hv
    · rw [if_neg h1] at hpw
      by_cases h2 : w = x
      · rw [if_pos h2] at hpw
        exact anc_step s (anc_step s hv hx) hpw
      · rw [if_neg h2] at hpw
        by_cases h3 : s.dsep x = some w
        · rw [if_pos h3] at hpw
          obtain rfl := Option.some.inj hpw
          exact anc_step s hv hx
        · rw [if_neg h3] at hpw
          exact anc_step s hwv hpw

set_option maxHeartbeats 800000 in
/-- The stability invariant is preserved by every rotation the stable
strategies perform: a rotation at an ancestor `x` of `v`, provided that —
when `x`'s parent `q` is a root — `v` does not lie below `x`'s
direct-separator child.  `u`'s root path stays 1-cut and keeps meeting
`v`'s root path only at `v` or at a root. -/
theorem rotINV (s : STT) (hb : WFb s) {x q u v : Nat} (hx : s.parent x = some q)
    (hv : anc s x v) (hbc : pathClean s u) (hc : topOnly s u v)
    (hS2 : s.parent q = none → ∀ c, s.dsep x = some c → ¬ anc s c v) :
    pathClean (rotateSpec s x q) u ∧ topOnly (rotateSpec s x q) u v := by
  have hxq : x ≠ q := (rotDistinct s hb hx).1
  have hqv : anc s q v := anc_step s hv hx
  have hqx : anc s q x := ⟨1, by rw [iterPar_one]; exact hx⟩
  have hqvne : q ≠ v := by
    intro he
    have h2 : anc s v x := he ▸ hqx
    have h3 : x = v := anc_antisymm s hb.acyc hv h2
    rw [h3, he] at hx
    exact parent_self_absurd s (hb.acyc v) hx
  have hc0u : ∀ c, s.dsep x = some c → ¬ anc s c u := by
    intro c hdc hancu
    have hsc : s.isSep c = true := isSep_of_dsep s (hb.dsCoh x c hdc) hdc
    have := hbc c hancu
    rw [hsc] at this
    exact Bool.noConfusion this
  have hvto := anc_rotateSpec_to s hb hx hv
  by_cases hqu : anc s q u
  · -- the old parent `q` is on `u`'s path, hence a root
    have hqr : s.parent q = none := hc q hqu hqv hqvne
    by_cases hxu : anc s x u
    · -- `x` is on `u`'s path too, hence `x = v`
      have hxv : x = v := by
        by_contra hne
        rw [hc x hxu hv hne] at hx
        exact Option.noConfusion hx
      obtain rfl := hxv
      have huq : u ≠ q := by
        intro he
        exact hxq (anc_root s hqr (he ▸ hxu))
      have hfw : ∀ a, anc (rotateSpec s x q) a u → anc s a u ∧ a ≠ q := by
        intro a ha
        obtain ⟨k, hk⟩ := ha
        induction k generalizing a with
        | zero =>
          obtain rfl := Option.some.inj hk
          exact ⟨anc_refl s u, huq⟩
        | succ k ih =>
          obtain ⟨w, hw, hpw⟩ := anc_succ_ex _ hk
          obtain ⟨hwu, hwq⟩ := ih w hw
          rw [rotateSpec_parent, if_neg hwq] at hpw
          by_cases h2 : w = x
          · rw [if_pos h2, hqr] at hpw
            exact Option.noConfusion hpw
          · rw [if_neg h2] at hpw
            by_cases h3 : s.dsep x = some w
            · exact absurd hwu (hc0u w h3)
            · rw [if_neg h3] at hpw
              refine ⟨anc_step s hwu hpw, ?_⟩
              intro he
              rw [he] at hpw
              rcases anc_total s hwu hxu with hwx | hxw
              · have h4 : anc s w q := anc_strict_parent s hwx h2 hx
                rw [anc_root s hqr h4, hqr] at hpw
                exact Option.noConfusion hpw
              · have h4 : anc s x q := anc_strict_parent s hxw (fun h5 => h2 h5.symm) hpw
                exact hxq (anc_root s hqr h4)
      refine ⟨?_, ?_⟩
      · intro a ha
        rcases hfw a ha with ⟨hau, haq⟩
        by_cases hax : a = x
        · obtain rfl := hax.symm
          exact isSep_root _ (by rw [rotateSpec_parent, if_neg hxq, if_pos rfl]; exact hqr)
        · rcases Bool.eq_false_or_eq_true ((rotateSpec s x q).isSep a) with hsa | hsa
          · exfalso
            rcases isSep_rotateSpec_sub s hb hx a hsa with h | h | h
            · have := hbc a hau
              rw [h] at this
              exact Bool.noConfusion this
            · exact hax h
            · exact haq h
          · exact hsa
      · intro a hau hav hane
        exfalso
        rcases hfw a hau with ⟨hau2, haq⟩
        have hav2 : anc s a x := hvto a hav
        have hpa : s.parent a = none := hc a hau2 hav2 hane
        exact haq (anc_root_unique s hpa hqr hav2 hqv)
    · -- `x` joins `u`'s path above the old root `q`
      have hcv : ∀ c, s.dsep x = some c → ¬ anc s c v := hS2 hqr
      have hxroot : (rotateSpec s x q).parent x = none := by
        rw [rotateSpec_parent, if_neg hxq, if_pos rfl]
        exact hqr
      have hfw : ∀ a, anc (rotateSpec s x q) a u → anc s a u ∨ a = x := by
        intro a ha
        obtain ⟨k, hk⟩ := ha
        induction k generalizing a with
        | zero => exact Or.inl ⟨0, hk⟩
        | succ k ih =>
          obtain ⟨w, hw, hpw⟩ := anc_succ_ex _ hk
          rcases ih w hw with hwu | hwx
          · rw [rotateSpec_parent] at hpw
            by_cases h1 : w = q
            · rw [if_pos h1] at hpw
              exact Or.inr (Option.some.inj hpw).symm
            · rw [if_neg h1] at hpw
              by_cases h2 : w = x
              · exact absurd (h2 ▸ hwu) hxu
              · rw [if_neg h2] at hpw
                by_cases h3 : s.dsep x = some w
                · exact absurd hwu (hc0u w h3)
                · rw [if_neg h3] at hpw
                  exact Or.inl (anc_step s hwu hpw)
          · obtain rfl := hwx
            rw [hxroot] at hpw
            exact Option.noConfusion hpw
      have hnqv : ¬ anc (rotateSpec s x q) q v := by
        intro ha
        obtain ⟨k, hk⟩ := ha
        cases k with
        | zero => exact hqvne (Option.some.inj hk).symm
        | succ k =>
          obtain ⟨w, hw, hpw⟩ := anc_succ_ex _ hk
          have hwv : anc s w v := hvto w ⟨k, hw⟩
          rw [rotateSpec_parent] at hpw
          by_cases h1 : w = q
          · rw [if_pos h1] at hpw
            exact hxq (Option.some.inj hpw)
          · rw [if_neg h1] at hpw
            by_cases h2 : w = x
            · rw [if_pos h2, hqr] at hpw
              exact Option.noConfusion hpw
            · rw [if_neg h2] at hpw
              by_cases h3 : s.dsep x = some w
              · exact hcv w h3 hwv
              · rw [if_neg h3] at hpw
                rcases anc_total s hwv hv with hwx | hxw
                · have h4 : anc s w q := anc_strict_parent s hwx h2 hx
                  rw [anc_root s hqr h4, hqr] at hpw
                  exact Option.noConfusion hpw
                · have h4 : anc s x q := anc_strict_parent s hxw (fun h5 => h2 h5.symm) hpw
                  exact hxq (anc_root s hqr h4)
      refine ⟨?_, ?_⟩
      · intro a ha
        rcases hfw a ha with hau | hax
        · by_cases haq : a = q
          · obtain rfl := haq.symm
            rcases Bool.eq_false_or_eq_true ((rotateSpec s x q).isSep q) with hsq | hsq
            swap
            · exact hsq
            · exfalso
              have hpar2 : (rotateSpec s x q).parent q = some x := by
                rw [rotateSpec_parent, if_pos rfl]
              rcases (isSep_iff _ hpar2).mp hsq with hd | hi
              · rw [rotateSpec_dsep, if_neg hxq, if_pos rfl,
                  if_neg (by rw [hqr]; exact fun h => Bool.noConfusion h)] at hd
                exact Option.noConfusion hd
              · rw [rotateSpec_isep, if_neg hxq, if_pos rfl,
                  if_neg (fun hco => by rw [hqr] at hco; exact Bool.noConfusion hco.1)] at hi
                have := hb.isCoh x q hi
                rw [hqr] at this
                exact Option.noConfusion this
          · rcases Bool.eq_false_or_eq_true ((rotateSpec s x q).isSep a) with hsa | hsa
            · exfalso
              rcases isSep_rotateSpec_sub s hb hx a hsa with h | h | h
              · have := hbc a hau
                rw [h] at this
                exact Bool.noConfusion this
              · exact hxu (h ▸ hau)
              · exact haq h
            · exact hsa
        · obtain rfl := hax.symm
          exact isSep_root _ hxroot
      · intro a hau hav hane
        rcases hfw a hau with hau2 | hax
        · exfalso
          have hav2 : anc s a v := hvto a hav
          have hpa : s.parent a = none := hc a hau2 hav2 hane
          have haq : a = q := anc_root_unique s hpa hqr hav2 hqv
          exact hnqv (haq ▸ hav)
        · obtain rfl := hax.symm
          exact hxroot
  · -- the rotation happens away from `u`'s path
    have hxu : ¬ anc s x u := fun h => hqu (anc_step s h hx)
    have hiter : ∀ k, iterPar (rotateSpec s x q) k u = iterPar s k u := by
      intro k
      induction k with
      | zero => rfl
      | succ k ih =>
        show (iterPar (rotateSpec s x q) k u).bind (rotateSpec s x q).parent
            = (iterPar s k u).bind s.parent
        rw [ih]
        cases hw : iterPar s k u with
        | none => rfl
        | some w =>
          show (rotateSpec s x q).parent w = s.parent w
          have hwu : anc s w u := ⟨k, hw⟩
          rw [rotateSpec_parent, if_neg (fun he : w = q => hqu (he ▸ hwu)),
            if_neg (fun he : w = x => hxu (he ▸ hwu)),
            if_neg (fun he : s.dsep x = some w => hc0u w he hwu)]
    have hancu : ∀ a, anc (rotateSpec s x q) a u → anc s a u := by
      intro a ha
      obtain ⟨k, hk⟩ := ha
      rw [hiter k] at hk
      exact ⟨k, hk⟩
    refine ⟨?_, ?_⟩
    · intro a ha
      have hau := hancu a ha
      rcases Bool.eq_false_or_eq_true ((rotateSpec s x q).isSep a) with hsa | hsa
      · exfalso
        rcases isSep_rotateSpec_sub s hb hx a hsa with h | h | h
        · have := hbc a hau
          rw [h] at this
          exact Bool.noConfusion this
        · exact hxu (h ▸ hau)
        · exact hqu (h ▸ hau)
      · exact hsa
    · intro a hau hav hane
      have hau2 := hancu a hau
      have hav2 : anc s a v := hvto a hav
      have hpa : s.parent a = none := hc a hau2 hav2 hane
      rw [rotateSpec_parent, if_neg (fun he : a = q => hqu (he ▸ hau2)),
        if_neg (fun he : a = x => hxu (he ▸ hau2)),
        if_neg (fun he : s.dsep x = some a => hc0u a he hau2)]
      exact hpa

/-- **C2** — witness: the preservation theorem applied to the concrete
well-formed state `exC7` and the legal single-rotation sequence `[0]`. -/
theorem c2_rotation_preserves_tree_witness :
    WF exC7 ∧ rotateSeq exC7 [0] = some (exC7.rotateAt 0 1) ∧
    ∃ t3 t4, make1cut (exC7.rotateAt 0 1) = some t3 ∧ make1cut exC7 = some t4 ∧
      (∀ x y, (t3.parent x = some y ∨ t3.parent y = some x) ↔ underEdge exC7 x y) ∧
      (∀ x y, (t3.parent x = some y ∨ t3.parent y = some x) ↔
        (t4.parent x = some y ∨ t4.parent y = some x)) :=
  ⟨exC7_wf, rfl,
    c2_rotation_preserves_tree exC7 exC7_wf [0] (exC7.rotateAt 0 1) rfl⟩

/-! ### C4 machinery: ancestry transfer under stable-strategy rotations -/

theorem anc_trans (t : STT) {a b c : Nat} (h1 : anc t a b) (h2 : anc t b c) :
    anc t a c := by
  obtain ⟨j, hj⟩ := h1
  obtain ⟨k, hk⟩ := h2
  refine ⟨k + j, ?_⟩
  rw [iterPar_add, hk]
  exact hj

/-- A node is never an ancestor of its own parent. -/
theorem anc_parent_absurd (t : STT) (hac : ∀ z, ∃ k, iterPar t k z = none)
    {c z : Nat} (hp : t.parent c = some z) (h : anc t c z) : False := by
  have h2 : anc t z c := ⟨1, by rw [iterPar_one]; exact hp⟩
  have h3 : c = z := anc_antisymm t hac h h2
  rw [h3] at hp
  exact parent_self_absurd t (hac z) hp

/-- The root path of `v` enters each node through a unique child: two
children of the same node that are both ancestors of `v` coincide. -/
theorem anc_child_unique (t : STT) (hac : ∀ z, ∃ k, iterPar t k z = none)
    {b c e v : Nat} (hc : t.parent c = some b) (he : t.parent e = some b)
    (hcv : anc t c v) (hev : anc t e v) : c = e := by
  rcases anc_total t hcv hev with h | h
  · by_cases hne : c = e
    · exact hne
    · exact absurd (anc_strict_parent t h hne he) (anc_parent_absurd t hac hc)
  · by_cases hne : e = c
    · exact hne.symm
    · exact absurd (anc_strict_parent t h hne hc) (anc_parent_absurd t hac he)

/-- After a rotation at an ancestor `x` of `w`, `x` is still an ancestor
of `w`: nodes below `x` keep reaching it (the detached direct-separator
child now reaches it through the old parent `q`). -/
theorem anc_rotateSpec_at (s : STT) (hb : WFb s) {x q : Nat}
    (hx : s.parent x = some q) : ∀ k w, iterPar s k w = some x →
    anc (rotateSpec s x q) x w := by
  intro k
  induction k with
  | zero =>
    intro w hk
    have hwx : w = x := Option.some.inj hk
    rw [hwx]
    exact anc_refl _ _
  | succ k ih =>
    intro w hk
    by_cases hwx : w = x
    · rw [hwx]
      exact anc_refl _ _
    · obtain ⟨c, hpw, hck⟩ := anc_first_ex s hk
      have hxc : anc (rotateSpec s x q) x c := ih c hck
      have hwq : w ≠ q := by
        rintro rfl
        exact anc_parent_absurd s hb.acyc hx ⟨k + 1, hk⟩
      by_cases hdw : s.dsep x = some w
      · refine ⟨2, ?_⟩
        have h1 : (rotateSpec s x q).parent w = some q := by
          rw [rotateSpec_parent, if_neg hwq, if_neg hwx, if_pos hdw]
        have h2 : (rotateSpec s x q).parent q = some x := by
          rw [rotateSpec_parent, if_pos rfl]
        show ((iterPar (rotateSpec s x q) 1 w).bind (rotateSpec s x q).parent) = some x
        rw [iterPar_one, h1]
        exact h2
      · have hpw' : (rotateSpec s x q).parent w = some c := by
          rw [rotateSpec_parent, if_neg hwq, if_neg hwx, if_neg hdw]
          exact hpw
        exact anc_prepend _ hpw' hxc

/-- After a rotation at an ancestor `y` of `v`, every node of `v`'s root
path that lies below `y` (inclusive) is still an ancestor of `v`. -/
theorem anc_rotateSpec_below (s : STT) (hb : WFb s) {y q v : Nat}
    (hy : s.parent y = some q) : ∀ k z, iterPar s k v = some z → anc s y z →
    anc (rotateSpec s y q) z v := by
  intro k
  induction k with
  | zero =>
    intro z hk _
    have hzv : z = v := (Option.some.inj hk).symm
    rw [hzv]
    exact anc_refl _ _
  | succ k ih =>
    intro z hk hyz
    obtain ⟨w, hw, hpw⟩ := anc_succ_ex s hk
    have hyw : anc s y w := anc_prepend s hpw hyz
    have hwv2 : anc (rotateSpec s y q) w v := ih w hw hyw
    have hwq : w ≠ q := by
      rintro rfl
      exact anc_parent_absurd s hb.acyc hy hyw
    by_cases hwy : w = y
    · exfalso
      rw [hwy, hy] at hpw
      have hzq : q = z := Option.some.inj hpw
      rw [← hzq] at hyz
      exact anc_parent_absurd s hb.acyc hy hyz
    · by_cases hdw : s.dsep y = some w
      · have hpwy : s.parent w = some y := hb.dsCoh y w hdw
        rw [hpwy] at hpw
        have hzy : y = z := Option.some.inj hpw
        obtain ⟨j, hj⟩ := (show anc s z v from ⟨k + 1, hk⟩)
        rw [← hzy]
        rw [← hzy] at hj
        exact anc_rotateSpec_at s hb hy j v hj
      · have hpw2 : (rotateSpec s y q).parent w = some z := by
          rw [rotateSpec_parent, if_neg hwq, if_neg hwy, if_neg hdw]
          exact hpw
        exact anc_step _ hwv2 hpw2

/-- For a rotation at a node `v` of its own root path the root-case side
condition of `rotINV` is free: no child of `v` is an ancestor of `v`. -/
theorem hS2_dsep_self (t : STT) (hb : WFb t) {v : Nat} :
    ∀ c, t.dsep v = some c → ¬ anc t c v := by
  intro c hdc hcv
  exact anc_parent_absurd t hb.acyc (hb.dsCoh v c hdc) hcv

/-- One rotation step of a stable strategy: a legal `SttView` rotation at
an ancestor `x` of `v` preserves full well-formedness and the stability
invariant for `u`, and `x` stays an ancestor of `v`. -/
theorem rotate_inv {S : Type} [SttView S] {s s1 : S} {x u v : Nat}
    (hw : WF (SttView.core s)) (h : SttView.rotate s x = some s1)
    (hl : (SttView.core s).canRotate x = true)
    (hv : anc (SttView.core s) x v)
    (hbc : pathClean (SttView.core s) u) (hc : topOnly (SttView.core s) u v)
    (hS2 : ∀ q, (SttView.core s).parent x = some q → (SttView.core s).parent q = none →
      ∀ c, (SttView.core s).dsep x = some c → ¬ anc (SttView.core s) c v) :
    WF (SttView.core s1) ∧ pathClean (SttView.core s1) u ∧
      topOnly (SttView.core s1) u v ∧ anc (SttView.core s1) x v ∧
      ∃ q, (SttView.core s).parent x = some q ∧
        SttView.core s1 = rotateSpec (SttView.core s) x q := by
  obtain ⟨-, q, hq, hcore⟩ := rotate_core_spec hw.toWFb h
  have hwf2 : WF (rotateSpec (SttView.core s) x q) := WF_rotateSpec _ hw hq hl
  obtain ⟨hp2, ht2⟩ := rotINV (SttView.core s) hw.toWFb hq hv hbc hc (hS2 q hq)
  obtain ⟨j, hj⟩ := hv
  have hanc2 : anc (rotateSpec (SttView.core s) x q) x v :=
    anc_rotateSpec_at (SttView.core s) hw.toWFb hq j v hj
  rw [hcore]
  exact ⟨hwf2, hp2, ht2, hanc2, q, hq, rfl⟩

/-- A strict ancestor is entered through some child on the path. -/
theorem anc_entry_ex (t : STT) {a w : Nat} (h : anc t a w) (hne : a ≠ w) :
    ∃ c, t.parent c = some a ∧ anc t c w := by
  obtain ⟨k, hk⟩ := h
  cases k with
  | zero => exact absurd (Option.some.inj hk).symm hne
  | succ k =>
    obtain ⟨b, hb2, hpb⟩ := anc_succ_ex t hk
    exact ⟨b, hpb, ⟨k, hb2⟩⟩

/-- Separator status only depends on the parent pointer and the parent's
separator slots. -/
theorem isSep_eq_of_parent_slots (t t2 : STT) {a : Nat}
    (hp : t2.parent a = t.parent a)
    (hs : ∀ b, t.parent a = some b → t2.dsep b = t.dsep b ∧ t2.isep b = t.isep b) :
    t2.isSep a = t.isSep a := by
  cases hpa : t.parent a with
  | none =>
    rw [hpa] at hp
    simp [STT.isSep, STT.isDirectSep, STT.isIndirectSep, hp, hpa]
  | some b =>
    rw [hpa] at hp
    obtain ⟨hd, hi⟩ := hs b hpa
    simp [STT.isSep, STT.isDirectSep, STT.isIndirectSep, hp, hpa, hd, hi]

/-- The entry fact — every child of `x` on `v`'s root path is a
non-separator — survives a rotation at `x`. -/
theorem entryFact_rotateSpec (s : STT) (hb : WFb s) {x q v : Nat}
    (hx : s.parent x = some q) (hv : anc s x v)
    (hE : ∀ e, s.parent e = some x → anc s e v → s.isSep e = false) :
    ∀ e, (rotateSpec s x q).parent e = some x → anc (rotateSpec s x q) e v →
      (rotateSpec s x q).isSep e = false := by
  have hxq : x ≠ q := (rotDistinct s hb hx).1
  intro e he2 hev2
  have hevs : anc s e v := anc_rotateSpec_to s hb hx hv e hev2
  by_cases h1 : e = q
  · -- the old parent `q` cannot be on `v`'s root path after the rotation
    exfalso
    subst h1
    have hqv : e ≠ v := by
      rintro rfl
      exact anc_parent_absurd s hb.acyc hx hv
    obtain ⟨c, hpc, hcv2⟩ := anc_entry_ex (rotateSpec s x e) hev2 hqv
    rw [rotateSpec_parent] at hpc
    by_cases hc1 : c = e
    · rw [if_pos hc1] at hpc
      exact hxq (Option.some.inj hpc)
    · rw [if_neg hc1] at hpc
      by_cases hc2 : c = x
      · rw [if_pos hc2] at hpc
        exact parent_self_absurd s (hb.acyc e) hpc
      · rw [if_neg hc2] at hpc
        by_cases hc3 : s.dsep x = some c
        · have hcvs : anc s c v := anc_rotateSpec_to s hb hx hv c hcv2
          have hEc := hE c (hb.dsCoh x c hc3) hcvs
          rw [isSep_of_dsep s (hb.dsCoh x c hc3) hc3] at hEc
          exact Bool.noConfusion hEc
        · rw [if_neg hc3] at hpc
          have hcvs : anc s c v := anc_rotateSpec_to s hb hx hv c hcv2
          exact hc2 (anc_child_unique s hb.acyc hpc hx hcvs hv)
  · rw [rotateSpec_parent, if_neg h1] at he2
    by_cases h2 : e = x
    · exfalso
      rw [if_pos h2] at he2
      exact parent2_cycle_absurd s (hb.acyc x) hx he2
    · rw [if_neg h2] at he2
      by_cases h3 : s.dsep x = some e
      · exfalso
        rw [if_pos h3] at he2
        exact hxq (Option.some.inj he2).symm
      · rw [if_neg h3] at he2
        have hse : s.isSep e = false := hE e he2 hevs
        rcases Bool.eq_false_or_eq_true ((rotateSpec s x q).isSep e) with hs2 | hs2
        · exfalso
          have hpar2 : (rotateSpec s x q).parent e = some x := by
            rw [rotateSpec_parent, if_neg h1, if_neg h2, if_neg h3]
            exact he2
          rcases (isSep_iff _ hpar2).mp hs2 with hd2 | hd2
          · rcases rotateSpec_dsep_v_sub s hxq hd2 with h4 | h4
            · exact h1 h4
            · rw [isSep_of_isep s he2 h4] at hse
              exact Bool.noConfusion hse
          · rcases rotateSpec_isep_v_sub s hxq hd2 with h4 | h4
            · exact h1 h4
            · rw [isSep_of_isep s he2 h4] at hse
              exact Bool.noConfusion hse
        · exact hs2

/-- The entry fact for `x` survives a rotation at `x`'s parent `p`
(provided `x` is not `p`'s direct-separator child, so `x` keeps its
slots). -/
theorem entryFact_rotateSpec_parent (s : STT) (hb : WFb s) {x p g v : Nat}
    (hx : s.parent x = some p) (hg : s.parent p = some g) (hnd : s.dsep p ≠ some x)
    (hv : anc s x v)
    (hE : ∀ e, s.parent e = some x → anc s e v → s.isSep e = false) :
    ∀ e, (rotateSpec s p g).parent e = some x → anc (rotateSpec s p g) e v →
      (rotateSpec s p g).isSep e = false := by
  have hxp : x ≠ p := (rotDistinct s hb hx).1
  have hxg : x ≠ g := by
    rintro rfl
    exact parent2_cycle_absurd s (hb.acyc x) hx hg
  have hpv : anc s p v := anc_step s hv hx
  have hngx : s.parent g ≠ some x := by
    intro hcon
    exact parent3_cycle_absurd s (hb.acyc x) hx hg hcon
  intro e he2 hev2
  have hevs : anc s e v := anc_rotateSpec_to s hb hg hpv e hev2
  rw [rotateSpec_parent] at he2
  by_cases h1 : e = g
  · rw [if_pos h1] at he2
    exact absurd (Option.some.inj he2) (fun h => hxp h.symm)
  · rw [if_neg h1] at he2
    by_cases h2 : e = p
    · rw [if_pos h2] at he2
      exact absurd he2 hngx
    · rw [if_neg h2] at he2
      by_cases h3 : s.dsep p = some e
      · rw [if_pos h3] at he2
        exact absurd (Option.some.inj he2) (fun h => hxg h.symm)
      · rw [if_neg h3] at he2
        have hse : s.isSep e = false := hE e he2 hevs
        have hd2 : (rotateSpec s p g).dsep x = s.dsep x := by
          rw [rotateSpec_dsep, if_neg hxg, if_neg hxp, if_neg hnd, if_neg hngx]
        have hi2 : (rotateSpec s p g).isep x = s.isep x := by
          rw [rotateSpec_isep, if_neg hxg, if_neg hxp, if_neg hnd, if_neg hngx]
        have hp2 : (rotateSpec s p g).parent e = some x := by
          rw [rotateSpec_parent, if_neg h1, if_neg h2, if_neg h3]
          exact he2
        rcases Bool.eq_false_or_eq_true ((rotateSpec s p g).isSep e) with hs2 | hs2
        · exfalso
          rcases (isSep_iff _ hp2).mp hs2 with hq2 | hq2
          · rw [hd2] at hq2
            rw [isSep_of_dsep s he2 hq2] at hse
            exact Bool.noConfusion hse
          · rw [hi2] at hq2
            rw [isSep_of_isep s he2 hq2] at hse
            exact Bool.noConfusion hse
        · exact hs2

set_option maxHeartbeats 1600000 in
/-- `splay_step` preserves well-formedness and the stability invariant,
keeps `x` an ancestor of `v`, and preserves the entry fact.  The legality
hypothesis is satisfied both by `can_splay_step` guards and by contexts in
which `x` is a separator or the path is branching-free; the root-case
hypothesis asks for the entry fact only when `x`'s grandparent is a
root. -/
theorem splayStep_inv {S : Type} [SttView S] {s s2 : S} {x u v : Nat}
    (hw : WF (SttView.core s)) (hbc : pathClean (SttView.core s) u)
    (hc : topOnly (SttView.core s) u v) (hv : anc (SttView.core s) x v)
    (hleg : ∀ p g, (SttView.core s).parent x = some p →
      (SttView.core s).parent p = some g →
      ((SttView.core s).isSep g = false ∨
        ((SttView.core s).isSep x = true ∧ (SttView.core s).isSep p = true)) ∨
      (((SttView.core s).isSep x = true ∨ (SttView.core s).isSep p = false) ∧
        ((SttView.core s).isSep p = true ∨ (SttView.core s).isSep g = false)))
    (h3 : ∀ p g, (SttView.core s).parent x = some p →
      (SttView.core s).parent p = some g → (SttView.core s).parent g = none →
      ∀ e, (SttView.core s).parent e = some x → anc (SttView.core s) e v →
        (SttView.core s).isSep e = false)
    (h : splayStep s x = some s2) :
    WF (SttView.core s2) ∧ pathClean (SttView.core s2) u ∧
      topOnly (SttView.core s2) u v ∧ anc (SttView.core s2) x v ∧
      ((∀ e, (SttView.core s).parent e = some x → anc (SttView.core s) e v →
          (SttView.core s).isSep e = false) →
        ∀ e, (SttView.core s2).parent e = some x → anc (SttView.core s2) e v →
          (SttView.core s2).isSep e = false) := by
  unfold splayStep at h
  cases hp : vParent s x with
  | none => rw [hp] at h; exact Option.noConfusion h
  | some p =>
    rw [hp] at h
    simp only [Option.bind_eq_bind, Option.some_bind] at h
    have hpx : (SttView.core s).parent x = some p := hp
    have hxp : x ≠ p := (rotDistinct _ hw.toWFb hpx).1
    by_cases hd : vIsDirectSep s x = true
    · -- first rotation at `x` itself
      rw [if_pos hd] at h
      cases hr1 : SttView.rotate s x with
      | none => rw [hr1] at h; exact Option.noConfusion h
      | some s1 =>
        rw [hr1] at h
        simp only [Option.bind_eq_bind, Option.some_bind] at h
        have hdx : (SttView.core s).dsep p = some x := by
          have hd2 : (SttView.core s).isDirectSep x = true := hd
          simp only [STT.isDirectSep, hpx, decide_eq_true_eq] at hd2
          exact hd2
        have hsx : (SttView.core s).isSep x = true := isSep_of_dsep _ hpx hdx
        have hl1 : (SttView.core s).canRotate x = true := by
          rw [canRotate_iff _ hpx]
          exact Or.inl hsx
        cases hg : (SttView.core s).parent p with
        | none =>
          exfalso
          obtain ⟨-, q, hq, hcore1⟩ := rotate_core_spec hw.toWFb hr1
          rw [hpx] at hq
          obtain rfl := Option.some.inj hq
          obtain ⟨p2, hp2, -⟩ := rotate_core_at h
          rw [hcore1, rotateSpec_parent, if_neg hxp, if_pos rfl, hg] at hp2
          exact Option.noConfusion hp2
        | some g =>
          have hS2a : ∀ q, (SttView.core s).parent x = some q →
              (SttView.core s).parent q = none →
              ∀ c, (SttView.core s).dsep x = some c → ¬ anc (SttView.core s) c v := by
            intro q hq hroot c _ _
            rw [hpx] at hq
            obtain rfl := Option.some.inj hq
            rw [hg] at hroot
            exact Option.noConfusion hroot
          obtain ⟨hw1, hbc1, hc1, hanc1, q, hq, hcore1⟩ :=
            rotate_inv hw hr1 hl1 hv hbc hc hS2a
          rw [hpx] at hq
          obtain rfl := Option.some.inj hq
          have hgx : g ≠ x := ((rotDistinct _ hw.toWFb hpx).2.1 g hg).1
          have hgp : g ≠ p := ((rotDistinct _ hw.toWFb hpx).2.1 g hg).2
          have hdxg : (SttView.core s).dsep x ≠ some g := by
            intro hcon
            exact ((rotDistinct _ hw.toWFb hpx).2.2 g hcon).2.2 g hg rfl
          have hpx1 : (SttView.core s1).parent x = some g := by
            rw [hcore1, rotateSpec_parent, if_neg hxp, if_pos rfl]
            exact hg
          have hdg1 : (SttView.core s1).dsep g =
              (if (SttView.core s).dsep g = some p then some x
               else (SttView.core s).dsep g) := by
            rw [hcore1, rotateSpec_dsep, if_neg hgp, if_neg hgx, if_neg hdxg, if_pos hg]
          have hig1 : (SttView.core s1).isep g =
              (if (SttView.core s).dsep g ≠ some p ∧ (SttView.core s).isep g = some p
               then some x else (SttView.core s).isep g) := by
            rw [hcore1, rotateSpec_isep, if_neg hgp, if_neg hgx, if_neg hdxg, if_pos hg]
          have hl2 : (SttView.core s1).canRotate x = true := by
            rw [canRotate_iff _ hpx1]
            rcases Bool.eq_false_or_eq_true ((SttView.core s).isSep p) with hsp | hsp
            · left
              rw [isSep_iff _ hpx1]
              rcases (isSep_iff _ hg).mp hsp with hdgp | higp
              · left
                rw [hdg1, if_pos hdgp]
              · right
                rw [hig1, if_pos ⟨fun hcon => hw.toWFb.dsIsNe g p hcon higp, higp⟩]
            · right
              have hsg : (SttView.core s).isSep g = false := by
                rcases hleg p g hpx hg with hA | hC
                · rcases hA with h5 | ⟨h5, h6⟩
                  · exact h5
                  · rw [hsp] at h6
                    exact Bool.noConfusion h6
                · rcases hC.2 with h5 | h5
                  · rw [hsp] at h5
                    exact Bool.noConfusion h5
                  · exact h5
              have heq : (SttView.core s1).isSep g = (SttView.core s).isSep g := by
                apply isSep_eq_of_parent_slots
                · rw [hcore1, rotateSpec_parent, if_neg hgp, if_neg hgx, if_neg hdxg]
                · intro b hbg
                  have hbp : b ≠ p := by
                    intro hcon
                    rw [hcon] at hbg
                    exact parent2_cycle_absurd _ (hw.toWFb.acyc p) hg hbg
                  have hbx : b ≠ x := by
                    intro hcon
                    rw [hcon] at hbg
                    exact parent3_cycle_absurd _ (hw.toWFb.acyc x) hpx hg hbg
                  have hdxb : (SttView.core s).dsep x ≠ some b := by
                    intro hcon
                    exact parent4_cycle_absurd _ (hw.toWFb.acyc x) hpx hg hbg
                      (hw.toWFb.dsCoh x b hcon)
                  have hgb : g ≠ b := by
                    rintro rfl
                    exact parent_self_absurd _ (hw.toWFb.acyc g) hbg
                  have hpbne : (SttView.core s).parent p ≠ some b := by
                    rw [hg]
                    exact fun hcon => hgb (Option.some.inj hcon)
                  constructor
                  · rw [hcore1, rotateSpec_dsep, if_neg hbp, if_neg hbx, if_neg hdxb,
                      if_neg hpbne]
                  · rw [hcore1, rotateSpec_isep, if_neg hbp, if_neg hbx, if_neg hdxb,
                      if_neg hpbne]
              rw [heq]
              exact hsg
          have hpsome : ((SttView.core s).parent p).isSome = true := by
            rw [hg]
            rfl
          have hdx1 : (SttView.core s1).dsep x = (SttView.core s).isep x := by
            rw [hcore1, rotateSpec_dsep, if_neg hxp, if_pos rfl, if_pos hpsome, if_pos hdx]
          have hS2b : ∀ q2, (SttView.core s1).parent x = some q2 →
              (SttView.core s1).parent q2 = none →
              ∀ c, (SttView.core s1).dsep x = some c → ¬ anc (SttView.core s1) c v := by
            intro q2 hq2 hroot c hdc hcv
            rw [hpx1] at hq2
            obtain rfl := Option.some.inj hq2
            have hpg1 : (SttView.core s1).parent g = (SttView.core s).parent g := by
              rw [hcore1, rotateSpec_parent, if_neg hgp, if_neg hgx, if_neg hdxg]
            rw [hpg1] at hroot
            rw [hdx1] at hdc
            have hpcx : (SttView.core s).parent c = some x := hw.toWFb.isCoh x c hdc
            rw [hcore1] at hcv
            have hcvs : anc (SttView.core s) c v :=
              anc_rotateSpec_to _ hw.toWFb hpx hv c hcv
            have hEe := h3 p g hpx hg hroot c hpcx hcvs
            rw [isSep_of_isep _ hpcx hdc] at hEe
            exact Bool.noConfusion hEe
          obtain ⟨hw2, hbc2, hc2, hanc2, q2, hq2, hcore2⟩ :=
            rotate_inv hw1 h hl2 hanc1 hbc1 hc1 hS2b
          rw [hpx1] at hq2
          obtain rfl := Option.some.inj hq2
          refine ⟨hw2, hbc2, hc2, hanc2, ?_⟩
          intro hE0
          have hE1 := entryFact_rotateSpec (SttView.core s) hw.toWFb hpx hv hE0
          rw [← hcore1] at hE1
          have hE2 := entryFact_rotateSpec (SttView.core s1) hw1.toWFb hpx1 hanc1 hE1
          rw [← hcore2] at hE2
          exact hE2
    · -- first rotation at `x`'s parent `p`
      rw [if_neg hd] at h
      cases hr1 : SttView.rotate s p with
      | none => rw [hr1] at h; exact Option.noConfusion h
      | some s1 =>
        rw [hr1] at h
        simp only [Option.bind_eq_bind, Option.some_bind] at h
        have hnd : (SttView.core s).dsep p ≠ some x := by
          intro hcon
          exact hd (by simp [vIsDirectSep, STT.isDirectSep, hpx, hcon])
        obtain ⟨g, hgp, -⟩ := rotate_core_at hr1
        have hpv2 : anc (SttView.core s) p v := anc_step _ hv hpx
        have hl1 : (SttView.core s).canRotate p = true := by
          rw [canRotate_iff _ hgp]
          rcases Bool.eq_false_or_eq_true ((SttView.core s).isSep p) with hsp | hsp
          · exact Or.inl hsp
          · right
            rcases hleg p g hpx hgp with hA | hC
            · rcases hA with h5 | ⟨h5, h6⟩
              · exact h5
              · rw [hsp] at h6
                exact Bool.noConfusion h6
            · rcases hC.2 with h5 | h5
              · rw [hsp] at h5
                exact Bool.noConfusion h5
              · exact h5
        have hS2c : ∀ q, (SttView.core s).parent p = some q →
            (SttView.core s).parent q = none →
            ∀ c, (SttView.core s).dsep p = some c → ¬ anc (SttView.core s) c v := by
          intro q hq hroot c hdc hcv
          have hpcp : (SttView.core s).parent c = some p := hw.toWFb.dsCoh p c hdc
          have hcx : c = x := anc_child_unique _ hw.toWFb.acyc hpcp hpx hcv hv
          rw [hcx] at hdc
          exact hnd hdc
        obtain ⟨hw1, hbc1, hc1, hancp1, q, hq, hcore1⟩ :=
          rotate_inv hw hr1 hl1 hpv2 hbc hc hS2c
        rw [hgp] at hq
        obtain rfl := Option.some.inj hq
        have hpg : p ≠ g := (rotDistinct _ hw.toWFb hgp).1
        have hxg : x ≠ g := by
          rintro rfl
          exact parent2_cycle_absurd _ (hw.toWFb.acyc x) hpx hgp
        have hngx : (SttView.core s).parent g ≠ some x := by
          intro hcon
          exact parent3_cycle_absurd _ (hw.toWFb.acyc x) hpx hgp hcon
        have hpx1 : (SttView.core s1).parent x = some p := by
          rw [hcore1, rotateSpec_parent, if_neg hxg, if_neg hxp, if_neg hnd]
          exact hpx
        have hvcopy := hv
        obtain ⟨k, hk⟩ := hvcopy
        have hanc1 : anc (SttView.core s1) x v := by
          rw [hcore1]
          exact anc_rotateSpec_below _ hw.toWFb hgp k x hk
            ⟨1, by rw [iterPar_one]; exact hpx⟩
        have hdx1 : (SttView.core s1).dsep x = (SttView.core s).dsep x := by
          rw [hcore1, rotateSpec_dsep, if_neg hxg, if_neg hxp, if_neg hnd, if_neg hngx]
        have hix1 : (SttView.core s1).isep x = (SttView.core s).isep x := by
          rw [hcore1, rotateSpec_isep, if_neg hxg, if_neg hxp, if_neg hnd, if_neg hngx]
        have hl2 : (SttView.core s1).canRotate x = true := by
          rw [canRotate_iff _ hpx1]
          rcases Bool.eq_false_or_eq_true ((SttView.core s).isSep x) with hsx | hsx
          · left
            rcases (isSep_iff _ hpx).mp hsx with hdpx | hipx
            · exact absurd hdpx hnd
            · rw [isSep_iff _ hpx1]
              by_cases hcond : ((SttView.core s).parent g).isSome = true ∧
                  (SttView.core s).dsep g = some p
              · left
                rw [hcore1, rotateSpec_dsep, if_neg hpg, if_pos rfl, if_pos hcond.1,
                  if_pos hcond.2]
                exact hipx
              · right
                rw [hcore1, rotateSpec_isep, if_neg hpg, if_pos rfl, if_neg hcond]
                exact hipx
          · right
            have hsg : (SttView.core s).isSep g = false := by
              rcases hleg p g hpx hgp with hA | hC
              · rcases hA with h5 | ⟨h5, h6⟩
                · exact h5
                · rw [hsx] at h5
                  exact Bool.noConfusion h5
              · rcases hC.1 with h5 | h5
                · rw [hsx] at h5
                  exact Bool.noConfusion h5
                · rcases hC.2 with h6 | h6
                  · rw [h5] at h6
                    exact Bool.noConfusion h6
                  · exact h6
            have hpp1 : (SttView.core s1).parent p = (SttView.core s).parent g := by
              rw [hcore1, rotateSpec_parent, if_neg hpg, if_pos rfl]
            cases hgg : (SttView.core s).parent g with
            | none =>
              exact isSep_root _ (by rw [hpp1, hgg])
            | some gg =>
              have hggp : gg ≠ p := by
                intro hcon
                rw [hcon] at hgg
                exact parent2_cycle_absurd _ (hw.toWFb.acyc p) hgp hgg
              have hggx : gg ≠ x := by
                intro hcon
                rw [hcon] at hgg
                exact parent3_cycle_absurd _ (hw.toWFb.acyc x) hpx hgp hgg
              have hdpgg : (SttView.core s).dsep p ≠ some gg := by
                intro hcon
                exact parent3_cycle_absurd _ (hw.toWFb.acyc gg)
                  (hw.toWFb.dsCoh p gg hcon) hgp hgg
              have hdsgg : (SttView.core s).dsep gg ≠ some g := by
                intro hcon
                rw [isSep_of_dsep _ hgg hcon] at hsg
                exact Bool.noConfusion hsg
              have hisgg : (SttView.core s).isep gg ≠ some g := by
                intro hcon
                rw [isSep_of_isep _ hgg hcon] at hsg
                exact Bool.noConfusion hsg
              have hggne : gg ≠ g := by
                intro hcon
                rw [hcon] at hgg
                exact parent_self_absurd _ (hw.toWFb.acyc g) hgg
              have hdgg1 : (SttView.core s1).dsep gg = (SttView.core s).dsep gg := by
                rw [hcore1, rotateSpec_dsep, if_neg hggne, if_neg hggp, if_neg hdpgg,
                  if_pos hgg, if_neg hdsgg]
              have higg1 : (SttView.core s1).isep gg = (SttView.core s).isep gg := by
                rw [hcore1, rotateSpec_isep, if_neg hggne, if_neg hggp, if_neg hdpgg,
                  if_pos hgg, if_neg (fun hcon => hisgg hcon.2)]
              rcases Bool.eq_false_or_eq_true ((SttView.core s1).isSep p) with hsp1 | hsp1
              · exfalso
                have hpp1g : (SttView.core s1).parent p = some gg := by
                  rw [hpp1, hgg]
                rcases (isSep_iff _ hpp1g).mp hsp1 with h7 | h7
                · rw [hdgg1] at h7
                  have h8 := hw.toWFb.dsCoh gg p h7
                  rw [hgp] at h8
                  exact hggne (Option.some.inj h8).symm
                · rw [higg1] at h7
                  have h8 := hw.toWFb.isCoh gg p h7
                  rw [hgp] at h8
                  exact hggne (Option.some.inj h8).symm
              · exact hsp1
        have hS2d : ∀ q2, (SttView.core s1).parent x = some q2 →
            (SttView.core s1).parent q2 = none →
            ∀ c, (SttView.core s1).dsep x = some c → ¬ anc (SttView.core s1) c v := by
          intro q2 hq2 hroot c hdc hcv
          rw [hpx1] at hq2
          obtain rfl := Option.some.inj hq2
          have hpp1 : (SttView.core s1).parent p = (SttView.core s).parent g := by
            rw [hcore1, rotateSpec_parent, if_neg hpg, if_pos rfl]
          rw [hpp1] at hroot
          rw [hdx1] at hdc
          have hpcx : (SttView.core s).parent c = some x := hw.toWFb.dsCoh x c hdc
          rw [hcore1] at hcv
          have hcvs : anc (SttView.core s) c v :=
            anc_rotateSpec_to _ hw.toWFb hgp hpv2 c hcv
          have hEe := h3 p g hpx hgp hroot c hpcx hcvs
          rw [isSep_of_dsep _ hpcx hdc] at hEe
          exact Bool.noConfusion hEe
        obtain ⟨hw2, hbc2, hc2, hanc2, q2, hq2, hcore2⟩ :=
          rotate_inv hw1 h hl2 hanc1 hbc1 hc1 hS2d
        rw [hpx1] at hq2
        obtain rfl := Option.some.inj hq2
        refine ⟨hw2, hbc2, hc2, hanc2, ?_⟩
        intro hE0
        have hE1 := entryFact_rotateSpec_parent (SttView.core s) hw.toWFb hpx hgp hnd hv hE0
        rw [← hcore1] at hE1
        have hE2 := entryFact_rotateSpec (SttView.core s1) hw1.toWFb hpx1 hanc1 hE1
        rw [← hcore2] at hE2
        exact hE2

/-! ### C4: the move-to-root strategy preserves the stability invariant -/

/-- The `move_step` fix-up loop preserves well-formedness and the
stability invariant; `v` stays a child of `p`, and on exit `p` is not a
separator. -/
theorem mtrFixP_inv {S : Type} [SttView S] : ∀ (fuel : Nat) (s s' : S) (p u v : Nat),
    WF (SttView.core s) → pathClean (SttView.core s) u → topOnly (SttView.core s) u v →
    (SttView.core s).parent v = some p →
    (SttView.core s).dsep p ≠ some v → (SttView.core s).isep p ≠ some v →
    mtrFixP fuel s p = some s' →
    WF (SttView.core s') ∧ pathClean (SttView.core s') u ∧
      topOnly (SttView.core s') u v ∧ (SttView.core s').parent v = some p ∧
      (SttView.core s').isSep p = false := by
  intro fuel
  induction fuel with
  | zero => intro s s' p u v _ _ _ _ _ _ h; exact Option.noConfusion h
  | succ fuel ih =>
    intro s s' p u v hw hbc hc hpv hdp hip h
    rw [mtrFixP] at h
    cases hg : vParent s p with
    | none =>
      simp only [hg] at h
      obtain rfl := Option.some.inj h
      exact ⟨hw, hbc, hc, hpv, isSep_root _ hg⟩
    | some g =>
      simp only [hg] at h
      have hgp : (SttView.core s).parent p = some g := hg
      by_cases hsep : isSepHint s p g = true
      · rw [if_pos hsep] at h
        cases hr : SttView.rotate s p with
        | none => rw [hr] at h; exact Option.noConfusion h
        | some s1 =>
          rw [hr] at h
          simp only [Option.bind_eq_bind, Option.some_bind] at h
          simp only [isSepHint, vDsep, vIsep, Bool.or_eq_true, decide_eq_true_eq] at hsep
          have hsp : (SttView.core s).isSep p = true := by
            rcases hsep with h1 | h1
            · exact isSep_of_dsep _ hgp h1
            · exact isSep_of_isep _ hgp h1
          have hl : (SttView.core s).canRotate p = true := by
            rw [canRotate_iff _ hgp]
            exact Or.inl hsp
          have hv : anc (SttView.core s) p v := ⟨1, by rw [iterPar_one]; exact hpv⟩
          have hS2 : ∀ q, (SttView.core s).parent p = some q →
              (SttView.core s).parent q = none →
              ∀ c, (SttView.core s).dsep p = some c → ¬ anc (SttView.core s) c v := by
            intro q hq hroot c _ _
            rw [hgp] at hq
            obtain rfl := Option.some.inj hq
            obtain ⟨hd0, hi0⟩ := hw.rootClean g hroot
            rcases hsep with h1 | h1
            · rw [hd0] at h1; exact Option.noConfusion h1
            · rw [hi0] at h1; exact Option.noConfusion h1
          obtain ⟨hw1, hbc1, hc1, -, q, hq, hcore⟩ :=
            rotate_inv hw hr hl hv hbc hc hS2
          rw [hgp] at hq
          obtain rfl := Option.some.inj hq
          have hpg : p ≠ g := (rotDistinct _ hw.toWFb hgp).1
          have hvp2 : v ≠ p := by
            rintro rfl
            exact parent_self_absurd _ (hw.toWFb.acyc v) hpv
          have hvg : v ≠ g := by
            rintro rfl
            exact parent2_cycle_absurd _ (hw.toWFb.acyc v) hpv hgp
          have hpv1 : (SttView.core s1).parent v = some p := by
            rw [hcore, rotateSpec_parent, if_neg hvg, if_neg hvp2, if_neg hdp]
            exact hpv
          have hdp1 : (SttView.core s1).dsep p ≠ some v := by
            rw [hcore]
            intro hcon
            rcases rotateSpec_dsep_v_sub _ hpg hcon with h1 | h1
            · exact hvg h1
            · exact hip h1
          have hip1 : (SttView.core s1).isep p ≠ some v := by
            rw [hcore]
            intro hcon
            rcases rotateSpec_isep_v_sub _ hpg hcon with h1 | h1
            · exact hvg h1
            · exact hip h1
          exact ih s1 s' p u v hw1 hbc1 hc1 hpv1 hdp1 hip1 h
      · rw [if_neg hsep] at h
        obtain rfl := Option.some.inj h
        simp only [isSepHint, vDsep, vIsep, Bool.or_eq_true, decide_eq_true_eq,
          not_or] at hsep
        have hps : (SttView.core s).isSep p = false := by
          rcases Bool.eq_false_or_eq_true ((SttView.core s).isSep p) with h1 | h1
          · exfalso
            rcases (isSep_iff _ hgp).mp h1 with h2 | h2
            · exact hsep.1 h2
            · exact hsep.2 h2
          · exact h1
        exact ⟨hw, hbc, hc, hpv, hps⟩

/-- `MoveToRootStrategy::move_step` preserves well-formedness and the
stability invariant. -/
theorem moveStep_inv {S : Type} [SttView S] {fuel : Nat} {s s' : S} {u v p : Nat}
    (hw : WF (SttView.core s)) (hbc : pathClean (SttView.core s) u)
    (hc : topOnly (SttView.core s) u v)
    (hpv : (SttView.core s).parent v = some p)
    (h : moveStep fuel s v p = some s') :
    WF (SttView.core s') ∧ pathClean (SttView.core s') u ∧
      topOnly (SttView.core s') u v := by
  unfold moveStep at h
  by_cases hsep : isSepHint s v p = true
  · rw [if_pos hsep] at h
    simp only [Option.bind_eq_bind, Option.some_bind] at h
    simp only [isSepHint, vDsep, vIsep, Bool.or_eq_true, decide_eq_true_eq] at hsep
    have hsv : (SttView.core s).isSep v = true := by
      rcases hsep with h1 | h1
      · exact isSep_of_dsep _ hpv h1
      · exact isSep_of_isep _ hpv h1
    have hl : (SttView.core s).canRotate v = true := by
      rw [canRotate_iff _ hpv]
      exact Or.inl hsv
    obtain ⟨hw1, hbc1, hc1, -, -⟩ :=
      rotate_inv hw h hl (anc_refl _ v) hbc hc
        (fun _ _ _ c hdc => hS2_dsep_self _ hw.toWFb c hdc)
    exact ⟨hw1, hbc1, hc1⟩
  · rw [if_neg hsep] at h
    simp only [isSepHint, vDsep, vIsep, Bool.or_eq_true, decide_eq_true_eq,
      not_or] at hsep
    cases hf : mtrFixP fuel s p with
    | none => rw [hf] at h; exact Option.noConfusion h
    | some s1 =>
      rw [hf] at h
      simp only [Option.bind_eq_bind, Option.some_bind] at h
      obtain ⟨hw1, hbc1, hc1, hpv1, hps1⟩ :=
        mtrFixP_inv fuel s s1 p u v hw hbc hc hpv hsep.1 hsep.2 hf
      have hl : (SttView.core s1).canRotate v = true := by
        rw [canRotate_iff _ hpv1]
        exact Or.inr hps1
      obtain ⟨hw2, hbc2, hc2, -, -⟩ :=
        rotate_inv hw1 h hl (anc_refl _ v) hbc1 hc1
          (fun _ _ _ c hdc => hS2_dsep_self _ hw1.toWFb c hdc)
      exact ⟨hw2, hbc2, hc2⟩

/-- `MoveToRootStrategy::node_to_root` preserves well-formedness and the
stability invariant. -/
theorem mtrNtr_inv {S : Type} [SttView S] : ∀ (fuel : Nat) (s s' : S) (u v : Nat),
    WF (SttView.core s) → pathClean (SttView.core s) u → topOnly (SttView.core s) u v →
    mtrNtr fuel s v = some s' →
    WF (SttView.core s') ∧ pathClean (SttView.core s') u ∧
      topOnly (SttView.core s') u v := by
  intro fuel
  induction fuel with
  | zero =>
    intro s s' u v hw hbc hc h
    rw [mtrNtr] at h
    cases hp : vParent s v with
    | none =>
      simp only [hp] at h
      obtain rfl := Option.some.inj h
      exact ⟨hw, hbc, hc⟩
    | some p =>
      simp only [hp] at h
      exact Option.noConfusion h
  | succ fuel ih =>
    intro s s' u v hw hbc hc h
    rw [mtrNtr] at h
    cases hp : vParent s v with
    | none =>
      simp only [hp] at h
      obtain rfl := Option.some.inj h
      exact ⟨hw, hbc, hc⟩
    | some p =>
      simp only [hp] at h
      cases hms : moveStep (fuel + 1) s v p with
      | none => rw [hms] at h; exact Option.noConfusion h
      | some s1 =>
        rw [hms] at h
        simp only [Option.bind_eq_bind, Option.some_bind] at h
        obtain ⟨hw1, hbc1, hc1⟩ := moveStep_inv hw hbc hc hp hms
        exact ih s1 s' u v hw1 hbc1 hc1 h

/-! ### C4: the greedy splay strategy preserves the stability invariant -/

/-- `GreedySplayStrategy::try_splay` at `v` itself preserves
well-formedness and the stability invariant; on failure the state is
unchanged and the guard facts are returned. -/
theorem greedyTrySplay_self_inv {S : Type} [SttView S] {s s1 : S} {u v : Nat}
    {r : SplayResult} (hw : WF (SttView.core s)) (hbc : pathClean (SttView.core s) u)
    (hc : topOnly (SttView.core s) u v)
    (h : greedyTrySplay s v SplayTarget.root = some (r, s1)) :
    WF (SttView.core s1) ∧ pathClean (SttView.core s1) u ∧
      topOnly (SttView.core s1) u v ∧
      (r = SplayResult.failed → s1 = s ∧ ∃ p g, (SttView.core s).parent v = some p ∧
        (SttView.core s).parent p = some g ∧ canSplayStep s v p g = false) := by
  unfold greedyTrySplay at h
  cases hp : vParent s v with
  | none =>
    simp only [hp] at h
    have hs : s = s1 := congrArg Prod.snd (Option.some.inj h)
    have hr : SplayResult.done = r := congrArg Prod.fst (Option.some.inj h)
    subst hs
    exact ⟨hw, hbc, hc, fun hcon => SplayResult.noConfusion (hr.trans hcon)⟩
  | some p =>
    simp only [hp] at h
    have hpv : (SttView.core s).parent v = some p := hp
    cases hg : vParent s p with
    | none =>
      simp only [hg] at h
      rw [if_pos trivial] at h
      cases hr0 : SttView.rotate s v with
      | none => rw [hr0] at h; exact Option.noConfusion h
      | some s2 =>
        rw [hr0] at h
        simp only [Option.bind_eq_bind, Option.some_bind] at h
        have hs : s2 = s1 := congrArg Prod.snd (Option.some.inj h)
        have hr : SplayResult.done = r := congrArg Prod.fst (Option.some.inj h)
        subst hs
        have hl : (SttView.core s).canRotate v = true := by
          rw [canRotate_iff _ hpv]
          exact Or.inr (isSep_root _ hg)
        obtain ⟨hw1, hbc1, hc1, -, -⟩ :=
          rotate_inv hw hr0 hl (anc_refl _ v) hbc hc
            (fun _ _ _ c hdc => hS2_dsep_self _ hw.toWFb c hdc)
        exact ⟨hw1, hbc1, hc1, fun hcon => SplayResult.noConfusion (hr.trans hcon)⟩
    | some g =>
      simp only [hg] at h
      rw [if_pos (by simp)] at h
      have hgp : (SttView.core s).parent p = some g := hg
      by_cases hcs : canSplayStep s v p g = true
      · rw [if_pos hcs] at h
        cases hsp : splayStep s v with
        | none => rw [hsp] at h; exact Option.noConfusion h
        | some s2 =>
          rw [hsp] at h
          simp only [Option.bind_eq_bind, Option.some_bind] at h
          have hs : s2 = s1 := congrArg Prod.snd (Option.some.inj h)
          have hr : SplayResult.success = r := congrArg Prod.fst (Option.some.inj h)
          subst hs
          simp only [canSplayStep, vIsSep, Bool.or_eq_true, Bool.and_eq_true,
            Bool.not_eq_true'] at hcs
          obtain ⟨hw1, hbc1, hc1, -, -⟩ :=
            splayStep_inv hw hbc hc (anc_refl _ v)
              (by
                intro p2 g2 hp2 hg2
                rw [hpv] at hp2
                obtain rfl := Option.some.inj hp2
                rw [hgp] at hg2
                obtain rfl := Option.some.inj hg2
                exact Or.inl hcs)
              (by
                intro p2 g2 hp2 hg2 hroot e hpe hev
                exact (anc_parent_absurd _ hw.toWFb.acyc hpe hev).elim)
              hsp
          exact ⟨hw1, hbc1, hc1, fun hcon => SplayResult.noConfusion (hr.trans hcon)⟩
      · rw [if_neg hcs] at h
        have hs : s = s1 := congrArg Prod.snd (Option.some.inj h)
        have hr : SplayResult.failed = r := congrArg Prod.fst (Option.some.inj h)
        subst hs
        have hcsf : canSplayStep s v p g = false := by
          rcases Bool.eq_false_or_eq_true (canSplayStep s v p g) with h1 | h1
          · exact absurd h1 hcs
          · exact h1
        exact ⟨hw, hbc, hc, fun _ => ⟨rfl, p, g, hpv, hgp, hcsf⟩⟩

/-- `GreedySplayStrategy::move_to` towards the root preserves
well-formedness and the stability invariant. -/
theorem greedyMoveTo_inv {S : Type} [SttView S] : ∀ (fuel : Nat) (s s' : S) (u v : Nat),
    WF (SttView.core s) → pathClean (SttView.core s) u → topOnly (SttView.core s) u v →
    greedyMoveTo fuel s v SplayTarget.root = some s' →
    WF (SttView.core s') ∧ pathClean (SttView.core s') u ∧
      topOnly (SttView.core s') u v := by
  intro fuel
  induction fuel with
  | zero => intro s s' u v _ _ _ h; exact Option.noConfusion h
  | succ fuel ih =>
    intro s s' u v hw hbc hc h
    rw [greedyMoveTo] at h
    cases hts : greedyTrySplay s v SplayTarget.root with
    | none => rw [hts] at h; exact Option.noConfusion h
    | some rs =>
      obtain ⟨r, s1⟩ := rs
      rw [hts] at h
      simp only [Option.bind_eq_bind, Option.some_bind] at h
      obtain ⟨hw1, hbc1, hc1, hfail⟩ := greedyTrySplay_self_inv hw hbc hc hts
      cases r with
      | success => exact ih s1 s' u v hw1 hbc1 hc1 h
      | done =>
        obtain rfl := Option.some.inj h
        exact ⟨hw1, hbc1, hc1⟩
      | failed =>
        obtain ⟨rfl, p, g, hpv, hpg, hcsf⟩ := hfail rfl
        have hsg : (SttView.core s1).isSep g = true := by
          rcases Bool.eq_false_or_eq_true ((SttView.core s1).isSep g) with h1 | h1
          · exact h1
          · exfalso
            have h2 : canSplayStep s1 v p g = true := by
              simp [canSplayStep, vIsSep, h1]
            rw [h2] at hcsf
            exact Bool.noConfusion hcsf
        cases hpv2 : vParent s1 v with
        | none =>
          rw [hpv2] at h
          exact Option.noConfusion h
        | some p2 =>
          rw [hpv2] at h
          simp only [Option.bind_eq_bind, Option.some_bind] at h
          have h5 : (SttView.core s1).parent v = some p2 := hpv2
          rw [hpv] at h5
          obtain rfl := Option.some.inj h5
          cases hts2 : greedyTrySplay s1 p SplayTarget.root with
          | none => rw [hts2] at h; exact Option.noConfusion h
          | some rs2 =>
            obtain ⟨r2, s2⟩ := rs2
            rw [hts2] at h
            simp only [Option.bind_eq_bind, Option.some_bind] at h
            unfold greedyTrySplay at hts2
            have hpg2 : vParent s1 p = some g := hpg
            simp only [hpg2] at hts2
            cases hGG : vParent s1 g with
            | none =>
              exfalso
              have hgc : (SttView.core s1).parent g = none := hGG
              rw [isSep_root _ hgc] at hsg
              exact Bool.noConfusion hsg
            | some G =>
              simp only [hGG] at hts2
              rw [if_pos (by simp)] at hts2
              have hgp2 : (SttView.core s1).parent g = some G := hGG
              by_cases hcs2 : canSplayStep s1 p g G = true
              · rw [if_pos hcs2] at hts2
                cases hsp2 : splayStep s1 p with
                | none => rw [hsp2] at hts2; exact Option.noConfusion hts2
                | some s2b =>
                  rw [hsp2] at hts2
                  simp only [Option.bind_eq_bind, Option.some_bind] at hts2
                  have hs2e : s2b = s2 := congrArg Prod.snd (Option.some.inj hts2)
                  have hr2e : SplayResult.success = r2 :=
                    congrArg Prod.fst (Option.some.inj hts2)
                  subst hs2e
                  simp only [canSplayStep, vIsSep, Bool.or_eq_true, Bool.and_eq_true,
                    Bool.not_eq_true'] at hcs2
                  obtain ⟨hw2, hbc2, hc2, -, -⟩ :=
                    splayStep_inv hw1 hbc1 hc1 ⟨1, by rw [iterPar_one]; exact hpv⟩
                      (by
                        intro p3 g3 hp3 hg3
                        rw [hpg] at hp3
                        obtain rfl := Option.some.inj hp3
                        rw [hgp2] at hg3
                        obtain rfl := Option.some.inj hg3
                        exact Or.inl hcs2)
                      (by
                        intro p3 g3 hp3 hg3 hroot e hpe hev
                        exfalso
                        rw [hpg] at hp3
                        obtain rfl := Option.some.inj hp3
                        rw [hgp2] at hg3
                        obtain rfl := Option.some.inj hg3
                        obtain ⟨a, hpa, hsl⟩ := isSep_elim _ hsg
                        rw [hgp2] at hpa
                        obtain rfl := Option.some.inj hpa
                        obtain ⟨hd0, hi0⟩ := hw1.rootClean G hroot
                        rcases hsl with h6 | h6
                        · rw [hd0] at h6; exact Option.noConfusion h6
                        · rw [hi0] at h6; exact Option.noConfusion h6)
                      hsp2
                  rw [← hr2e, if_neg (fun hcon => SplayResult.noConfusion hcon)] at h
                  exact ih s2b s' u v hw2 hbc2 hc2 h
              · rw [if_neg hcs2] at hts2
                have hcsf2 : canSplayStep s1 p g G = false := by
                  rcases Bool.eq_false_or_eq_true (canSplayStep s1 p g G) with h1 | h1
                  · exact absurd h1 hcs2
                  · exact h1
                have hs2e : s1 = s2 := congrArg Prod.snd (Option.some.inj hts2)
                have hr2e : SplayResult.failed = r2 :=
                  congrArg Prod.fst (Option.some.inj hts2)
                subst hs2e
                rw [← hr2e, if_pos rfl] at h
                rw [hpg2] at h
                simp only [Option.bind_eq_bind, Option.some_bind] at h
                cases hsp3 : splayStep s1 g with
                | none => rw [hsp3] at h; exact Option.noConfusion h
                | some s3 =>
                  rw [hsp3] at h
                  simp only [Option.bind_eq_bind, Option.some_bind] at h
                  have hsGt : (SttView.core s1).isSep G = true := by
                    rcases Bool.eq_false_or_eq_true ((SttView.core s1).isSep G) with h1 | h1
                    · exact h1
                    · exfalso
                      have h2 : canSplayStep s1 p g G = true := by
                        simp [canSplayStep, vIsSep, h1]
                      rw [h2] at hcsf2
                      exact Bool.noConfusion hcsf2
                  have hspf : (SttView.core s1).isSep p = false := by
                    rcases Bool.eq_false_or_eq_true ((SttView.core s1).isSep p) with h1 | h1
                    · exfalso
                      have h2 : canSplayStep s1 p g G = true := by
                        simp [canSplayStep, vIsSep, h1, hsg]
                      rw [h2] at hcsf2
                      exact Bool.noConfusion hcsf2
                    · exact h1
                  have hanc_g : anc (SttView.core s1) g v :=
                    anc_step _ ⟨1, by rw [iterPar_one]; exact hpv⟩ hpg
                  obtain ⟨hw3, hbc3, hc3, -, -⟩ :=
                    splayStep_inv hw1 hbc1 hc1 hanc_g
                      (by
                        intro p3 g3 hp3 hg3
                        rw [hgp2] at hp3
                        obtain rfl := Option.some.inj hp3
                        exact Or.inl (Or.inr ⟨hsg, hsGt⟩))
                      (by
                        intro p3 g3 hp3 hg3 hroot e hpe hev
                        have he : e = p := anc_child_unique _ hw1.toWFb.acyc hpe hpg
                          hev (anc_step _ (anc_refl _ v) hpv)
                        rw [he]
                        exact hspf)
                      hsp3
                  exact ih s3 s' u v hw3 hbc3 hc3 h

/-! ### C4: the stable local two-pass strategy preserves the invariant -/

/-- `StableLocalTwoPassSplayStrategy::node_to_root` preserves
well-formedness and the stability invariant. -/
theorem sltpNtr_inv {S : Type} [SttView S] : ∀ (fuel : Nat) (s s' : S) (u v : Nat),
    WF (SttView.core s) → pathClean (SttView.core s) u → topOnly (SttView.core s) u v →
    sltpNtr fuel s v = some s' →
    WF (SttView.core s') ∧ pathClean (SttView.core s') u ∧
      topOnly (SttView.core s') u v := by
  intro fuel
  induction fuel with
  | zero => intro s s' u v _ _ _ h; exact Option.noConfusion h
  | succ fuel ih =>
    intro s s' u v hw hbc hc h
    rw [sltpNtr] at h
    cases hp : vParent s v with
    | none =>
      simp only [hp] at h
      obtain rfl := Option.some.inj h
      exact ⟨hw, hbc, hc⟩
    | some p =>
      simp only [hp] at h
      have hpv : (SttView.core s).parent v = some p := hp
      cases hg : vParent s p with
      | none =>
        simp only [hg] at h
        have hl : (SttView.core s).canRotate v = true := by
          rw [canRotate_iff _ hpv]
          exact Or.inr (isSep_root _ hg)
        obtain ⟨hw1, hbc1, hc1, -, -⟩ :=
          rotate_inv hw h hl (anc_refl _ v) hbc hc
            (fun _ _ _ c hdc => hS2_dsep_self _ hw.toWFb c hdc)
        exact ⟨hw1, hbc1, hc1⟩
      | some g =>
        simp only [hg] at h
        have hgp : (SttView.core s).parent p = some g := hg
        by_cases hcs : canSplayStep s v p g = true
        · rw [if_pos hcs] at h
          cases hsp : splayStep s v with
          | none => rw [hsp] at h; exact Option.noConfusion h
          | some s1 =>
            rw [hsp] at h
            simp only [Option.bind_eq_bind, Option.some_bind] at h
            simp only [canSplayStep, vIsSep, Bool.or_eq_true, Bool.and_eq_true,
              Bool.not_eq_true'] at hcs
            obtain ⟨hw1, hbc1, hc1, -, -⟩ :=
              splayStep_inv hw hbc hc (anc_refl _ v)
                (by
                  intro p2 g2 hp2 hg2
                  rw [hpv] at hp2
                  obtain rfl := Option.some.inj hp2
                  rw [hgp] at hg2
                  obtain rfl := Option.some.inj hg2
                  exact Or.inl hcs)
                (by
                  intro p2 g2 hp2 hg2 hroot e hpe hev
                  exact (anc_parent_absurd _ hw.toWFb.acyc hpe hev).elim)
                hsp
            exact ih s1 s' u v hw1 hbc1 hc1 h
        · rw [if_neg hcs] at h
          have hcsf : canSplayStep s v p g = false := by
            rcases Bool.eq_false_or_eq_true (canSplayStep s v p g) with h1 | h1
            · exact absurd h1 hcs
            · exact h1
          have hsg : (SttView.core s).isSep g = true := by
            rcases Bool.eq_false_or_eq_true ((SttView.core s).isSep g) with h1 | h1
            · exact h1
            · exfalso
              have h2 : canSplayStep s v p g = true := by
                simp [canSplayStep, vIsSep, h1]
              rw [h2] at hcsf
              exact Bool.noConfusion hcsf
          by_cases hps : vIsSep s p = true
          · rw [if_pos hps] at h
            cases hsp : splayStep s p with
            | none => rw [hsp] at h; exact Option.noConfusion h
            | some s1 =>
              rw [hsp] at h
              simp only [Option.bind_eq_bind, Option.some_bind] at h
              have hspt : (SttView.core s).isSep p = true := hps
              have hsvf : (SttView.core s).isSep v = false := by
                rcases Bool.eq_false_or_eq_true ((SttView.core s).isSep v) with h1 | h1
                · exfalso
                  have h2 : canSplayStep s v p g = true := by
                    simp [canSplayStep, vIsSep, h1, hspt]
                  rw [h2] at hcsf
                  exact Bool.noConfusion hcsf
                · exact h1
              obtain ⟨hw1, hbc1, hc1, -, -⟩ :=
                splayStep_inv hw hbc hc ⟨1, by rw [iterPar_one]; exact hpv⟩
                  (by
                    intro p2 g2 hp2 hg2
                    rw [hgp] at hp2
                    obtain rfl := Option.some.inj hp2
                    exact Or.inl (Or.inr ⟨hspt, hsg⟩))
                  (by
                    intro p2 g2 hp2 hg2 hroot e hpe hev
                    have he : e = v := anc_child_unique _ hw.toWFb.acyc hpe hpv
                      hev (anc_refl _ v)
                    rw [he]
                    exact hsvf)
                  hsp
              exact ih s1 s' u v hw1 hbc1 hc1 h
          · rw [if_neg hps] at h
            have hspf : (SttView.core s).isSep p = false := by
              rcases Bool.eq_false_or_eq_true ((SttView.core s).isSep p) with h1 | h1
              · exact absurd h1 hps
              · exact h1
            cases hbs : sltpBranchingStep s g with
            | none => rw [hbs] at h; exact Option.noConfusion h
            | some s1 =>
              rw [hbs] at h
              simp only [Option.bind_eq_bind, Option.some_bind] at h
              have hancp : anc (SttView.core s) p v := ⟨1, by rw [iterPar_one]; exact hpv⟩
              have hancg : anc (SttView.core s) g v := anc_step _ hancp hgp
              unfold sltpBranchingStep at hbs
              cases hP : vParent s g with
              | none => rw [hP] at hbs; exact Option.noConfusion hbs
              | some P =>
                rw [hP] at hbs
                simp only [Option.bind_eq_bind, Option.some_bind] at hbs
                have hPg : (SttView.core s).parent g = some P := hP
                cases hG2 : vParent s P with
                | none => rw [hG2] at hbs; exact Option.noConfusion hbs
                | some G2 =>
                  rw [hG2] at hbs
                  simp only [Option.bind_eq_bind, Option.some_bind] at hbs
                  have hPG2 : (SttView.core s).parent P = some G2 := hG2
                  by_cases hbr : (!(vIsSep s P) && vIsSep s G2) = true
                  · rw [if_pos hbr] at hbs
                    have hl : (SttView.core s).canRotate g = true := by
                      rw [canRotate_iff _ hPg]
                      exact Or.inl hsg
                    obtain ⟨hw1, hbc1, hc1, -, -⟩ :=
                      rotate_inv hw hbs hl hancg hbc hc
                        (by
                          intro q hq hroot c hdc hcv
                          rw [hPg] at hq
                          obtain rfl := Option.some.inj hq
                          rw [hPG2] at hroot
                          exact Option.noConfusion hroot)
                    exact ih s1 s' u v hw1 hbc1 hc1 h
                  · rw [if_neg hbr] at hbs
                    have hPor : (SttView.core s).isSep P = true ∨
                        (SttView.core s).isSep G2 = false := by
                      rcases Bool.eq_false_or_eq_true ((SttView.core s).isSep P) with h1 | h1
                      · exact Or.inl h1
                      · rcases Bool.eq_false_or_eq_true ((SttView.core s).isSep G2)
                          with h2 | h2
                        · exact absurd (by simp [vIsSep, h1, h2]) hbr
                        · exact Or.inr h2
                    obtain ⟨hw1, hbc1, hc1, -, -⟩ :=
                      splayStep_inv hw hbc hc hancg
                        (by
                          intro p2 g2 hp2 hg2
                          rw [hPg] at hp2
                          obtain rfl := Option.some.inj hp2
                          rcases hPor with h1 | h1
                          · exact Or.inl (Or.inr ⟨hsg, h1⟩)
                          · rw [hPG2] at hg2
                            obtain rfl := Option.some.inj hg2
                            exact Or.inl (Or.inl h1)
                        )
                        (by
                          intro p2 g2 hp2 hg2 hroot e hpe hev
                          have he : e = p := anc_child_unique _ hw.toWFb.acyc hpe hgp
                            hev hancp
                          rw [he]
                          exact hspf)
                        hbs
                    exact ih s1 s' u v hw1 hbc1 hc1 h

/-! ### C4: the stable two-pass strategy preserves the invariant -/

set_option maxHeartbeats 800000 in
/-- A legal rotation changes the separator status only of the rotated
node, its old parent, and the detached direct-separator child. -/
theorem isSep_rotateSpec_far (s : STT) (hw : WF s) {y q : Nat}
    (hy : s.parent y = some q) (hl : s.canRotate y = true) {a : Nat}
    (h1 : a ≠ q) (h2 : a ≠ y) (h3 : s.dsep y ≠ some a) :
    (rotateSpec s y q).isSep a = s.isSep a := by
  have hpa : (rotateSpec s y q).parent a = s.parent a := by
    rw [rotateSpec_parent, if_neg h1, if_neg h2, if_neg h3]
  cases hb : s.parent a with
  | none =>
    rw [isSep_root _ (hpa.trans hb), isSep_root _ hb]
  | some b =>
    have hpa2 : (rotateSpec s y q).parent a = some b := hpa.trans hb
    have hiff : ((rotateSpec s y q).dsep b = some a ∨ (rotateSpec s y q).isep b = some a) ↔
        (s.dsep b = some a ∨ s.isep b = some a) := by
      by_cases hc1 : b = q
      · subst hc1
        rw [rotateSpec_dsep, if_pos rfl, rotateSpec_isep, if_pos rfl]
        constructor
        · rintro (hd | hi)
          · exact absurd hd h3
          · by_cases ho : optIsDifferent (s.dsep b) y = true
            · rw [if_pos ho] at hi
              exact Or.inl hi
            · rw [if_neg ho] at hi
              by_cases hiy : s.isep b = some y
              · rw [if_pos hiy] at hi
                exact Option.noConfusion hi
              · rw [if_neg hiy] at hi
                exact Or.inr hi
        · rintro (hd | hi)
          · right
            have ho : optIsDifferent (s.dsep b) y = true := by
              rw [hd]
              simp only [optIsDifferent, decide_eq_true_eq]
              exact h2
            rw [if_pos ho]
            exact hd
          · by_cases ho : optIsDifferent (s.dsep b) y = true
            · rw [if_pos ho]
              by_cases hiy : s.isep b = some y
              · rw [hi] at hiy
                exact absurd (Option.some.inj hiy) h2
              · exfalso
                have hys : s.isSep y = false := by
                  rcases Bool.eq_false_or_eq_true (s.isSep y) with h5 | h5
                  · exfalso
                    rcases (isSep_iff _ hy).mp h5 with h6 | h6
                    · rw [h6] at ho
                      simp [optIsDifferent] at ho
                    · exact hiy h6
                  · exact h5
                have hqs : s.isSep b = false := by
                  rcases (canRotate_iff _ hy).mp hl with h5 | h5
                  · rw [hys] at h5
                    exact Bool.noConfusion h5
                  · exact h5
                rw [hw.isepSep b a hi] at hqs
                exact Bool.noConfusion hqs
            · rw [if_neg ho]
              by_cases hiy : s.isep b = some y
              · rw [hi] at hiy
                exact absurd (Option.some.inj hiy) h2
              · rw [if_neg hiy]
                exact Or.inr hi
      · by_cases hc2 : b = y
        · subst hc2
          rw [rotateSpec_dsep, if_neg hc1, if_pos rfl, rotateSpec_isep, if_neg hc1,
            if_pos rfl]
          constructor
          · rintro (hd | hi)
            · by_cases hg : (s.parent q).isSome = true
              · rw [if_pos hg] at hd
                by_cases hdq : s.dsep q = some b
                · rw [if_pos hdq] at hd
                  exact Or.inr hd
                · rw [if_neg hdq] at hd
                  exact absurd (Option.some.inj hd).symm h1
              · rw [if_neg hg] at hd
                exact Option.noConfusion hd
            · by_cases hcond : (s.parent q).isSome = true ∧ s.dsep q = some b
              · rw [if_pos hcond] at hi
                by_cases hsq : s.isSep q = true
                · rw [if_pos hsq] at hi
                  exact absurd (Option.some.inj hi).symm h1
                · rw [if_neg hsq] at hi
                  exact Option.noConfusion hi
              · rw [if_neg hcond] at hi
                exact Or.inr hi
          · rintro (hd | hi)
            · exact absurd hd h3
            · by_cases hcond : (s.parent q).isSome = true ∧ s.dsep q = some b
              · left
                rw [if_pos hcond.1, if_pos hcond.2]
                exact hi
              · right
                rw [if_neg hcond]
                exact hi
        · by_cases hc3 : s.dsep y = some b
          · rw [rotateSpec_dsep, if_neg hc1, if_neg hc2, if_pos hc3,
              rotateSpec_isep, if_neg hc1, if_neg hc2, if_pos hc3]
            exact or_comm
          · by_cases hc4 : s.parent q = some b
            · rw [rotateSpec_dsep, if_neg hc1, if_neg hc2, if_neg hc3, if_pos hc4,
                rotateSpec_isep, if_neg hc1, if_neg hc2, if_neg hc3, if_pos hc4]
              constructor
              · rintro (hd | hi)
                · by_cases hdq : s.dsep b = some q
                  · rw [if_pos hdq] at hd
                    exact absurd (Option.some.inj hd).symm h2
                  · rw [if_neg hdq] at hd
                    exact Or.inl hd
                · by_cases hcnd : s.dsep b ≠ some q ∧ s.isep b = some q
                  · rw [if_pos hcnd] at hi
                    exact absurd (Option.some.inj hi).symm h2
                  · rw [if_neg hcnd] at hi
                    exact Or.inr hi
              · rintro (hd | hi)
                · left
                  by_cases hdq : s.dsep b = some q
                  · rw [hdq] at hd
                    exact absurd (Option.some.inj hd).symm h1
                  · rw [if_neg hdq]
                    exact hd
                · right
                  by_cases hcnd : s.dsep b ≠ some q ∧ s.isep b = some q
                  · rw [hcnd.2] at hi
                    exact absurd (Option.some.inj hi).symm h1
                  · rw [if_neg hcnd]
                    exact hi
            · rw [rotateSpec_dsep, if_neg hc1, if_neg hc2, if_neg hc3, if_neg hc4,
                rotateSpec_isep, if_neg hc1, if_neg hc2, if_neg hc3, if_neg hc4]
    rcases Bool.eq_false_or_eq_true (s.isSep a) with hv1 | hv1
    · rw [hv1]
      exact (isSep_iff _ hpa2).mpr (hiff.mpr ((isSep_iff _ hb).mp hv1))
    · rw [hv1]
      rcases Bool.eq_false_or_eq_true ((rotateSpec s y q).isSep a) with hv2 | hv2
      · exfalso
        have h6 := (isSep_iff _ hb).mpr (hiff.mp ((isSep_iff _ hpa2).mp hv2))
        rw [hv1] at h6
        exact Bool.noConfusion h6
      · exact hv2

/-- A legal rotation leaves `can_rotate` unchanged at any node that is
remote from the rotation together with its parent. -/
theorem canRotate_rotateSpec_far (s : STT) (hw : WF s) {y q : Nat}
    (hy : s.parent y = some q) (hl : s.canRotate y = true) {a : Nat}
    (h1 : a ≠ q) (h2 : a ≠ y) (h3 : s.dsep y ≠ some a)
    (h4 : ∀ b, s.parent a = some b → b ≠ q ∧ b ≠ y ∧ s.dsep y ≠ some b) :
    (rotateSpec s y q).canRotate a = s.canRotate a := by
  have hpa : (rotateSpec s y q).parent a = s.parent a := by
    rw [rotateSpec_parent, if_neg h1, if_neg h2, if_neg h3]
  cases hb : s.parent a with
  | none =>
    simp [STT.canRotate, hpa.trans hb, hb]
  | some b =>
    obtain ⟨hb1, hb2, hb3⟩ := h4 b hb
    have hsa := isSep_rotateSpec_far s hw hy hl h1 h2 h3
    have hsb := isSep_rotateSpec_far s hw hy hl hb1 hb2 hb3
    simp [STT.canRotate, hpa.trans hb, hb, hsa, hsb]

/-- Ancestor relations inside a subtree containing none of the rotated
nodes transfer back from the rotated tree to the original. -/
theorem anc_rotateSpec_from_sub (s : STT) (hb : WFb s) {y q w : Nat}
    (hy : s.parent y = some q)
    (hny : ¬ anc s w y) (hnq : ¬ anc s w q)
    (hnc : ∀ c, s.dsep y = some c → ¬ anc s w c) :
    ∀ k a t2, iterPar (rotateSpec s y q) k a = some t2 → anc s w t2 → anc s t2 a := by
  intro k
  induction k with
  | zero =>
    intro a t2 hk hwt
    have h5 : a = t2 := Option.some.inj hk
    rw [h5]
    exact anc_refl _ _
  | succ k ih =>
    intro a t2 hk hwt
    obtain ⟨z, hz, hpz⟩ := anc_succ_ex _ hk
    rw [rotateSpec_parent] at hpz
    by_cases hz1 : z = q
    · rw [if_pos hz1] at hpz
      obtain rfl := Option.some.inj hpz
      exact absurd hwt hny
    · rw [if_neg hz1] at hpz
      by_cases hz2 : z = y
      · rw [if_pos hz2] at hpz
        exact absurd (anc_prepend s hpz hwt) hnq
      · rw [if_neg hz2] at hpz
        by_cases hz3 : s.dsep y = some z
        · rw [if_pos hz3] at hpz
          obtain rfl := Option.some.inj hpz
          exact absurd hwt hnq
        · rw [if_neg hz3] at hpz
          have hwz : anc s w z := anc_trans s hwt ⟨1, by rw [iterPar_one]; exact hpz⟩
          exact anc_step s (ih a z hz hwz) hpz

/-- The branching-free-segment fact between `v` and `w` is preserved by a
legal rotation strictly above the segment. -/
theorem seg_rotateSpec (s : STT) (hw : WF s) {y q v w : Nat}
    (hy : s.parent y = some q) (hl : s.canRotate y = true) (hyv : anc s y v)
    (hny : ¬ anc s w y) (hnq : ¬ anc s w q)
    (hnc : ∀ c, s.dsep y = some c → ¬ anc s w c)
    (hseg : ∀ a, anc s a v → anc s w a → a ≠ w → s.canRotate a = true) :
    ∀ a, anc (rotateSpec s y q) a v → anc (rotateSpec s y q) w a → a ≠ w →
      (rotateSpec s y q).canRotate a = true := by
  intro a hav hwa hne
  obtain ⟨k, hk⟩ := hwa
  have hwa2 : anc s w a :=
    anc_rotateSpec_from_sub s hw.toWFb hy hny hnq hnc k a w hk (anc_refl _ _)
  have hav2 : anc s a v := anc_rotateSpec_to s hw.toWFb hy hyv a hav
  have ha1 : a ≠ q := fun he => hnq (he ▸ hwa2)
  have ha2 : a ≠ y := fun he => hny (he ▸ hwa2)
  have ha3 : s.dsep y ≠ some a := fun he => hnc a he hwa2
  have h4 : ∀ b, s.parent a = some b → b ≠ q ∧ b ≠ y ∧ s.dsep y ≠ some b := by
    intro b hpb
    have hwb : anc s w b := anc_strict_parent s hwa2 (Ne.symm hne) hpb
    exact ⟨fun he => hnq (he ▸ hwb), fun he => hny (he ▸ hwb), fun he => hnc b he hwb⟩
  rw [canRotate_rotateSpec_far s hw hy hl ha1 ha2 ha3 h4]
  exact hseg a hav2 hwa2 hne

/-- No child of the rotated node inside `w`'s subtree: the detached
direct-separator child is a separator, `w` is not, and anything below a
child of `y` that reached `w` would put `y` below `w`. -/
theorem dsep_not_anc (t : STT) (hb : WFb t) {y w : Nat}
    (hny : ¬ anc t w y) (hwsep : t.isSep w = false) :
    ∀ c, t.dsep y = some c → ¬ anc t w c := by
  intro c hdc hcon
  have hpc : t.parent c = some y := hb.dsCoh y c hdc
  by_cases he : c = w
  · rw [he] at hdc
    rw [isSep_of_dsep t (he ▸ hpc) hdc] at hwsep
    exact Bool.noConfusion hwsep
  · exact hny (anc_strict_parent t hcon (Ne.symm he) hpc)

/-- One legal rotation strictly above `w`'s subtree keeps `w`'s parent,
separator status, ancestry of `v`, and the segment fact intact. -/
theorem rotate_seg {S : Type} [SttView S] {s s1 : S} {y v w b : Nat}
    (hw : WF (SttView.core s)) (h : SttView.rotate s y = some s1)
    (hl : (SttView.core s).canRotate y = true)
    (hyv : anc (SttView.core s) y v) (hyw : anc (SttView.core s) y w)
    (hny : ¬ anc (SttView.core s) w y)
    (hnc2 : ∀ c, (SttView.core s).dsep y = some c → ¬ anc (SttView.core s) w c)
    (hpw : (SttView.core s).parent w = some b)
    (hwv : anc (SttView.core s) w v)
    (hwsep : (SttView.core s).isSep w = false)
    (hseg : ∀ a, anc (SttView.core s) a v → anc (SttView.core s) w a → a ≠ w →
      (SttView.core s).canRotate a = true) :
    WF (SttView.core s1) ∧ (SttView.core s1).parent w = some b ∧
      anc (SttView.core s1) w v ∧ (SttView.core s1).isSep w = false ∧
      ∀ a, anc (SttView.core s1) a v → anc (SttView.core s1) w a → a ≠ w →
        (SttView.core s1).canRotate a = true := by
  obtain ⟨-, q, hq, hcore⟩ := rotate_core_spec hw.toWFb h
  have hw1 : WF (SttView.core s1) := by
    rw [hcore]
    exact WF_rotateSpec _ hw hq hl
  have hnq : ¬ anc (SttView.core s) w q := fun hcon => hny (anc_prepend _ hq hcon)
  have hw2 : w ≠ y := by
    intro he
    exact hny (by rw [he]; exact anc_refl _ y)
  have hw1q : w ≠ q := by
    intro he
    exact hnq (by rw [he]; exact anc_refl _ q)
  have hw3 : (SttView.core s).dsep y ≠ some w := fun he => hnc2 w he (anc_refl _ w)
  refine ⟨hw1, ?_, ?_, ?_, ?_⟩
  · rw [hcore, rotateSpec_parent, if_neg hw1q, if_neg hw2, if_neg hw3]
    exact hpw
  · obtain ⟨k, hk⟩ := hwv
    rw [hcore]
    exact anc_rotateSpec_below _ hw.toWFb hq k w hk hyw
  · rw [hcore, isSep_rotateSpec_far _ hw hq hl hw1q hw2 hw3]
    exact hwsep
  · rw [hcore]
    exact seg_rotateSpec _ hw hq hl hyv hny hnq hnc2 hseg

/-- `splay_step` at the branching node `b` keeps the stop-node facts and
the segment fact. -/
theorem splayStep_seg {S : Type} [SttView S] {s s2 : S} {b v w : Nat}
    (hw : WF (SttView.core s))
    (hwb : (SttView.core s).parent w = some b)
    (hwv : anc (SttView.core s) w v)
    (hwsep : (SttView.core s).isSep w = false)
    (hbsep : (SttView.core s).isSep b = true)
    (hB : ∀ p g, (SttView.core s).parent b = some p →
      (SttView.core s).parent p = some g →
      (SttView.core s).isSep p = true ∨ (SttView.core s).isSep g = false)
    (hseg : ∀ a, anc (SttView.core s) a v → anc (SttView.core s) w a → a ≠ w →
      (SttView.core s).canRotate a = true)
    (h : splayStep s b = some s2) :
    WF (SttView.core s2) ∧ (SttView.core s2).parent w = some b ∧
      anc (SttView.core s2) w v ∧ (SttView.core s2).isSep w = false ∧
      ∀ a, anc (SttView.core s2) a v → anc (SttView.core s2) w a → a ≠ w →
        (SttView.core s2).canRotate a = true := by
  have hbv : anc (SttView.core s) b v := anc_step _ hwv hwb
  have hnwb : ¬ anc (SttView.core s) w b := fun hcon =>
    anc_parent_absurd _ hw.toWFb.acyc hwb hcon
  unfold splayStep at h
  cases hp : vParent s b with
  | none => rw [hp] at h; exact Option.noConfusion h
  | some p =>
    rw [hp] at h
    simp only [Option.bind_eq_bind, Option.some_bind] at h
    have hpb : (SttView.core s).parent b = some p := hp
    have hnwp : ¬ anc (SttView.core s) w p := fun hcon =>
      hnwb (anc_prepend _ hpb hcon)
    by_cases hd : vIsDirectSep s b = true
    · rw [if_pos hd] at h
      cases hr1 : SttView.rotate s b with
      | none => rw [hr1] at h; exact Option.noConfusion h
      | some s1 =>
        rw [hr1] at h
        simp only [Option.bind_eq_bind, Option.some_bind] at h
        have hl1 : (SttView.core s).canRotate b = true := by
          rw [canRotate_iff _ hpb]
          exact Or.inl hbsep
        obtain ⟨hw1, hpw1, hwv1, hwsep1, hseg1⟩ :=
          rotate_seg hw hr1 hl1 hbv ⟨1, by rw [iterPar_one]; exact hwb⟩ hnwb
            (dsep_not_anc _ hw.toWFb hnwb hwsep) hwb hwv hwsep hseg
        cases hg : (SttView.core s).parent p with
        | none =>
          exfalso
          obtain ⟨-, q, hq, hcore1⟩ := rotate_core_spec hw.toWFb hr1
          rw [hpb] at hq
          obtain rfl := Option.some.inj hq
          obtain ⟨p2, hp2, -⟩ := rotate_core_at h
          have hbp : b ≠ p := (rotDistinct _ hw.toWFb hpb).1
          rw [hcore1, rotateSpec_parent, if_neg hbp, if_pos rfl, hg] at hp2
          exact Option.noConfusion hp2
        | some g =>
          obtain ⟨-, q, hq, hcore1⟩ := rotate_core_spec hw.toWFb hr1
          rw [hpb] at hq
          obtain rfl := Option.some.inj hq
          have hbp : b ≠ p := (rotDistinct _ hw.toWFb hpb).1
          have hgb : g ≠ b := ((rotDistinct _ hw.toWFb hpb).2.1 g hg).1
          have hgp2 : g ≠ p := ((rotDistinct _ hw.toWFb hpb).2.1 g hg).2
          have hdbg : (SttView.core s).dsep b ≠ some g := by
            intro hcon
            exact ((rotDistinct _ hw.toWFb hpb).2.2 g hcon).2.2 g hg rfl
          have hpb1 : (SttView.core s1).parent b = some g := by
            rw [hcore1, rotateSpec_parent, if_neg hbp, if_pos rfl]
            exact hg
          have hl2 : (SttView.core s1).canRotate b = true := by
            rw [canRotate_iff _ hpb1]
            rcases Bool.eq_false_or_eq_true ((SttView.core s).isSep p) with hsp | hsp
            · left
              rw [isSep_iff _ hpb1]
              rcases (isSep_iff _ hg).mp hsp with hdgp | higp
              · left
                rw [hcore1, rotateSpec_dsep, if_neg hgp2, if_neg hgb, if_neg hdbg,
                  if_pos hg, if_pos hdgp]
              · right
                rw [hcore1, rotateSpec_isep, if_neg hgp2, if_neg hgb, if_neg hdbg,
                  if_pos hg, if_pos ⟨fun hcon => hw.toWFb.dsIsNe g p hcon higp, higp⟩]
            · right
              have hsg : (SttView.core s).isSep g = false := by
                rcases hB p g hpb hg with h5 | h5
                · rw [hsp] at h5
                  exact Bool.noConfusion h5
                · exact h5
              rw [hcore1, isSep_rotateSpec_far _ hw hpb hl1 hgp2 hgb hdbg]
              exact hsg
          have hnwb1 : ¬ anc (SttView.core s1) w b := fun hcon =>
            anc_parent_absurd _ hw1.toWFb.acyc hpw1 hcon
          exact rotate_seg hw1 h hl2 (anc_step _ hwv1 hpw1)
            ⟨1, by rw [iterPar_one]; exact hpw1⟩ hnwb1
            (dsep_not_anc _ hw1.toWFb hnwb1 hwsep1) hpw1 hwv1 hwsep1 hseg1
    · rw [if_neg hd] at h
      cases hr1 : SttView.rotate s p with
      | none => rw [hr1] at h; exact Option.noConfusion h
      | some s1 =>
        rw [hr1] at h
        simp only [Option.bind_eq_bind, Option.some_bind] at h
        have hnd : (SttView.core s).dsep p ≠ some b := by
          intro hcon
          exact hd (by simp [vIsDirectSep, STT.isDirectSep, hpb, hcon])
        obtain ⟨g, hgp, -⟩ := rotate_core_at hr1
        have hl1 : (SttView.core s).canRotate p = true := by
          rw [canRotate_iff _ hgp]
          exact hB p g hpb hgp
        have hpw2 : anc (SttView.core s) p w := ⟨2, by
          show ((iterPar (SttView.core s) 1 w).bind (SttView.core s).parent) = some p
          rw [iterPar_one, hwb]
          exact hpb⟩
        obtain ⟨hw1, hpw1, hwv1, hwsep1, hseg1⟩ :=
          rotate_seg hw hr1 hl1 (anc_step _ hbv hpb) hpw2 hnwp
            (dsep_not_anc _ hw.toWFb hnwp hwsep) hwb hwv hwsep hseg
        obtain ⟨-, q, hq, hcore1⟩ := rotate_core_spec hw.toWFb hr1
        rw [hgp] at hq
        obtain rfl := Option.some.inj hq
        have hbp : b ≠ p := (rotDistinct _ hw.toWFb hpb).1
        have hpg : p ≠ g := (rotDistinct _ hw.toWFb hgp).1
        have hbg : b ≠ g := by
          intro he
          rw [he] at hpb
          exact parent2_cycle_absurd _ (hw.toWFb.acyc g) hpb hgp
        have hpb1 : (SttView.core s1).parent b = some p := by
          rw [hcore1, rotateSpec_parent, if_neg hbg, if_neg hbp, if_neg hnd]
          exact hpb
        have hl2 : (SttView.core s1).canRotate b = true := by
          rw [canRotate_iff _ hpb1]
          left
          rcases (isSep_iff _ hpb).mp hbsep with hdpb | hipb
          · exact absurd hdpb hnd
          · rw [isSep_iff _ hpb1]
            by_cases hcond : ((SttView.core s).parent g).isSome = true ∧
                (SttView.core s).dsep g = some p
            · left
              rw [hcore1, rotateSpec_dsep, if_neg hpg, if_pos rfl, if_pos hcond.1,
                if_pos hcond.2]
              exact hipb
            · right
              rw [hcore1, rotateSpec_isep, if_neg hpg, if_pos rfl, if_neg hcond]
              exact hipb
        have hnwb1 : ¬ anc (SttView.core s1) w b := fun hcon =>
          anc_parent_absurd _ hw1.toWFb.acyc hpw1 hcon
        exact rotate_seg hw1 h hl2 (anc_step _ hwv1 hpw1)
          ⟨1, by rw [iterPar_one]; exact hpw1⟩ hnwb1
          (dsep_not_anc _ hw1.toWFb hnwb1 hwsep1) hpw1 hwv1 hwsep1 hseg1

/-- If the walk from `z` finds no branching node, the whole root path of
`z` permits rotations. -/
theorem findNextBranching_none_bfree {S : Type} [SttView S] :
    ∀ (fuel : Nat) (s : S) (z : Nat), findNextBranching fuel s z = some none →
    ∀ a c, anc (SttView.core s) a z → (SttView.core s).parent a = some c →
      (SttView.core s).canRotate a = true := by
  intro fuel
  induction fuel with
  | zero => intro s z h; exact Option.noConfusion h
  | succ fuel ih =>
    intro s z h a c haz hpc
    rw [findNextBranching] at h
    by_cases hcr : vCanRotate s z = true
    · rw [if_pos hcr] at h
      cases hpz : vParent s z with
      | none => rw [hpz] at h; exact Option.noConfusion h
      | some p =>
        rw [hpz] at h
        have hpz2 : (SttView.core s).parent z = some p := hpz
        by_cases haz2 : a = z
        · rw [haz2]
          exact hcr
        · exact ih s p h a c (anc_strict_parent _ haz haz2 hpz2) hpc
    · rw [if_neg hcr] at h
      have hz2 : (SttView.core s).parent z = none := Option.some.inj h
      have haz2 : a = z := anc_root _ hz2 haz
      rw [haz2, hz2] at hpc
      exact Option.noConfusion hpc

/-- If the walk from `z` stops below a branching node `b`, then `b` is a
separator, its child on `z`'s path is not, and the segment below the stop
node permits rotations. -/
theorem findNextBranching_some_facts {S : Type} [SttView S] :
    ∀ (fuel : Nat) (s : S) (z b : Nat), WFb (SttView.core s) →
    findNextBranching fuel s z = some (some b) →
    ∃ w, anc (SttView.core s) w z ∧ (SttView.core s).parent w = some b ∧
      (SttView.core s).isSep w = false ∧ (SttView.core s).isSep b = true ∧
      (∀ a, anc (SttView.core s) a z → anc (SttView.core s) w a → a ≠ w →
        (SttView.core s).canRotate a = true) := by
  intro fuel
  induction fuel with
  | zero => intro s z b _ h; exact Option.noConfusion h
  | succ fuel ih =>
    intro s z b hwb h
    rw [findNextBranching] at h
    by_cases hcr : vCanRotate s z = true
    · rw [if_pos hcr] at h
      cases hpz : vParent s z with
      | none => rw [hpz] at h; exact Option.noConfusion h
      | some p =>
        rw [hpz] at h
        obtain ⟨w, hwp, hwb2, hwsep, hbsep, hseg⟩ := ih s p b hwb h
        have hpz2 : (SttView.core s).parent z = some p := hpz
        refine ⟨w, anc_trans _ hwp ⟨1, by rw [iterPar_one]; exact hpz2⟩, hwb2, hwsep,
          hbsep, ?_⟩
        intro a haz hwa hne
        by_cases haz2 : a = z
        · rw [haz2]
          exact hcr
        · exact hseg a (anc_strict_parent _ haz haz2 hpz2) hwa hne
    · rw [if_neg hcr] at h
      have hzb2 : (SttView.core s).parent z = some b := Option.some.inj h
      have hcrf : (SttView.core s).canRotate z = false := by
        rcases Bool.eq_false_or_eq_true ((SttView.core s).canRotate z) with h5 | h5
        · exact absurd h5 hcr
        · exact h5
      have hzsep : (SttView.core s).isSep z = false := by
        rcases Bool.eq_false_or_eq_true ((SttView.core s).isSep z) with h5 | h5
        · exfalso
          have h6 := (canRotate_iff _ hzb2).mpr (Or.inl h5)
          rw [hcrf] at h6
          exact Bool.noConfusion h6
        · exact h5
      have hbsep : (SttView.core s).isSep b = true := by
        rcases Bool.eq_false_or_eq_true ((SttView.core s).isSep b) with h5 | h5
        · exact h5
        · exfalso
          have h6 := (canRotate_iff _ hzb2).mpr (Or.inr h5)
          rw [hcrf] at h6
          exact Bool.noConfusion h6
      refine ⟨z, anc_refl _ _, hzb2, hzsep, hbsep, ?_⟩
      intro a haz hza hne
      exact absurd (anc_antisymm _ hwb.acyc haz hza) hne

/-- `StableTwoPassSplayStrategy::branching_step` preserves
well-formedness, the stability invariant, the stop-node facts and the
segment fact. -/
theorem stpBranchingStep_inv {S : Type} [SttView S] {s s1 : S} {b u v w : Nat}
    (hw : WF (SttView.core s)) (hbc : pathClean (SttView.core s) u)
    (hc : topOnly (SttView.core s) u v)
    (hwb : (SttView.core s).parent w = some b)
    (hwv : anc (SttView.core s) w v)
    (hwsep : (SttView.core s).isSep w = false)
    (hbsep : (SttView.core s).isSep b = true)
    (hseg : ∀ a, anc (SttView.core s) a v → anc (SttView.core s) w a → a ≠ w →
      (SttView.core s).canRotate a = true)
    (h : stpBranchingStep s b = some s1) :
    WF (SttView.core s1) ∧ pathClean (SttView.core s1) u ∧
      topOnly (SttView.core s1) u v ∧ (SttView.core s1).parent w = some b ∧
      anc (SttView.core s1) w v ∧ (SttView.core s1).isSep w = false ∧
      ∀ a, anc (SttView.core s1) a v → anc (SttView.core s1) w a → a ≠ w →
        (SttView.core s1).canRotate a = true := by
  have hbv : anc (SttView.core s) b v := anc_step _ hwv hwb
  have hnwb : ¬ anc (SttView.core s) w b := fun hcon =>
    anc_parent_absurd _ hw.toWFb.acyc hwb hcon
  have hE : ∀ e, (SttView.core s).parent e = some b → anc (SttView.core s) e v →
      (SttView.core s).isSep e = false := by
    intro e hpe hev
    have he : e = w := anc_child_unique _ hw.toWFb.acyc hpe hwb hev hwv
    rw [he]
    exact hwsep
  unfold stpBranchingStep at h
  cases hp : vParent s b with
  | none => rw [hp] at h; exact Option.noConfusion h
  | some p =>
    rw [hp] at h
    simp only [Option.bind_eq_bind, Option.some_bind] at h
    have hpb : (SttView.core s).parent b = some p := hp
    cases hg : vParent s p with
    | none => rw [hg] at h; exact Option.noConfusion h
    | some g =>
      rw [hg] at h
      simp only [Option.bind_eq_bind, Option.some_bind] at h
      have hgp : (SttView.core s).parent p = some g := hg
      by_cases hbr : (!(vIsSep s p) && vIsSep s g) = true
      · rw [if_pos hbr] at h
        have hl1 : (SttView.core s).canRotate b = true := by
          rw [canRotate_iff _ hpb]
          exact Or.inl hbsep
        obtain ⟨hw1, hbc1, hc1, -, -⟩ :=
          rotate_inv hw h hl1 hbv hbc hc
            (by
              intro q hq hroot c hdc hcv
              rw [hpb] at hq
              obtain rfl := Option.some.inj hq
              rw [hgp] at hroot
              exact Option.noConfusion hroot)
        obtain ⟨-, hpw1, hwv1, hwsep1, hseg1⟩ :=
          rotate_seg hw h hl1 hbv ⟨1, by rw [iterPar_one]; exact hwb⟩ hnwb
            (dsep_not_anc _ hw.toWFb hnwb hwsep) hwb hwv hwsep hseg
        exact ⟨hw1, hbc1, hc1, hpw1, hwv1, hwsep1, hseg1⟩
      · rw [if_neg hbr] at h
        have hPor : (SttView.core s).isSep p = true ∨
            (SttView.core s).isSep g = false := by
          rcases Bool.eq_false_or_eq_true ((SttView.core s).isSep p) with h1 | h1
          · exact Or.inl h1
          · rcases Bool.eq_false_or_eq_true ((SttView.core s).isSep g) with h2 | h2
            · exact absurd (by simp [vIsSep, h1, h2]) hbr
            · exact Or.inr h2
        obtain ⟨hw2, hbc2, hc2, -, -⟩ :=
          splayStep_inv hw hbc hc hbv
            (by
              intro p3 g3 hp3 hg3
              rw [hpb] at hp3
              obtain rfl := Option.some.inj hp3
              rw [hgp] at hg3
              obtain rfl := Option.some.inj hg3
              rcases hPor with h5 | h5
              · exact Or.inl (Or.inr ⟨hbsep, h5⟩)
              · exact Or.inl (Or.inl h5))
            (fun p3 g3 hp3 hg3 hroot e hpe hev => hE e hpe hev)
            h
        obtain ⟨-, hpw2, hwv2, hwsep2, hseg2⟩ :=
          splayStep_seg hw hwb hwv hwsep hbsep
            (by
              intro p3 g3 hp3 hg3
              rw [hpb] at hp3
              obtain rfl := Option.some.inj hp3
              rw [hgp] at hg3
              obtain rfl := Option.some.inj hg3
              exact hPor)
            hseg h
        exact ⟨hw2, hbc2, hc2, hpw2, hwv2, hwsep2, hseg2⟩

/-- The first pass of `StableTwoPassSplayStrategy::node_to_root`
preserves well-formedness and the stability invariant, and leaves the
whole root path of `v` rotation-permitting. -/
theorem stpFirstFrom_inv {S : Type} [SttView S] :
    ∀ (fuel : Nat) (s s' : S) (b u v w : Nat),
    WF (SttView.core s) → pathClean (SttView.core s) u → topOnly (SttView.core s) u v →
    (SttView.core s).parent w = some b → anc (SttView.core s) w v →
    (SttView.core s).isSep w = false → (SttView.core s).isSep b = true →
    (∀ a, anc (SttView.core s) a v → anc (SttView.core s) w a → a ≠ w →
      (SttView.core s).canRotate a = true) →
    stpFirstFrom fuel s b = some s' →
    WF (SttView.core s') ∧ pathClean (SttView.core s') u ∧
      topOnly (SttView.core s') u v ∧
      ∀ a c, anc (SttView.core s') a v → (SttView.core s').parent a = some c →
        (SttView.core s').canRotate a = true := by
  intro fuel
  induction fuel with
  | zero => intro s s' b u v w _ _ _ _ _ _ _ _ h; exact Option.noConfusion h
  | succ fuel ih =>
    intro s s' b u v w hw hbc hc hwb hwv hwsep hbsep hseg h
    rw [stpFirstFrom] at h
    cases hbs : stpBranchingStep s b with
    | none => rw [hbs] at h; exact Option.noConfusion h
    | some s1 =>
      rw [hbs] at h
      simp only [Option.bind_eq_bind, Option.some_bind] at h
      obtain ⟨hw1, hbc1, hc1, hwb1, hwv1, hwsep1, hseg1⟩ :=
        stpBranchingStep_inv hw hbc hc hwb hwv hwsep hbsep hseg hbs
      by_cases hsb : vIsSep s1 b = true
      · rw [if_pos hsb] at h
        exact ih s1 s' b u v w hw1 hbc1 hc1 hwb1 hwv1 hwsep1 hsb hseg1 h
      · rw [if_neg hsb] at h
        have hsbf : (SttView.core s1).isSep b = false := by
          rcases Bool.eq_false_or_eq_true ((SttView.core s1).isSep b) with h1 | h1
          · exact absurd h1 hsb
          · exact h1
        cases hfn : findNextBranching (fuel + 1) s1 b with
        | none => rw [hfn] at h; exact Option.noConfusion h
        | some ob =>
          rw [hfn] at h
          simp only [Option.bind_eq_bind, Option.some_bind] at h
          cases ob with
          | none =>
            obtain rfl := Option.some.inj h
            refine ⟨hw1, hbc1, hc1, ?_⟩
            intro a c hav hpac
            by_cases haw : a = w
            · rw [haw]
              rw [canRotate_iff _ hwb1]
              exact Or.inr hsbf
            · rcases anc_total _ hav hwv1 with h5 | h5
              · exact findNextBranching_none_bfree (fuel + 1) s1 b hfn a c
                  (anc_strict_parent _ h5 haw hwb1) hpac
              · exact hseg1 a hav h5 haw
          | some b2 =>
            obtain ⟨w2, hw2z, hw2p, hw2sep, hb2sep, hminiseg⟩ :=
              findNextBranching_some_facts (fuel + 1) s1 b b2 hw1.toWFb hfn
            have hbv1 : anc (SttView.core s1) b v := anc_step _ hwv1 hwb1
            have hw2v : anc (SttView.core s1) w2 v := anc_trans _ hw2z hbv1
            have hsegv : ∀ a, anc (SttView.core s1) a v → anc (SttView.core s1) w2 a →
                a ≠ w2 → (SttView.core s1).canRotate a = true := by
              intro a hav hw2a hne
              by_cases haw : a = w
              · rw [haw]
                rw [canRotate_iff _ hwb1]
                exact Or.inr hsbf
              · rcases anc_total _ hav hwv1 with h5 | h5
                · exact hminiseg a (anc_strict_parent _ h5 haw hwb1) hw2a hne
                · exact hseg1 a hav h5 haw
            exact ih s1 s' b2 u v w2 hw1 hbc1 hc1 hw2p hw2v hw2sep hb2sep hsegv h

/-- When every node of `v`'s root path may rotate, a `splay_step` at `v`
keeps that property. -/
theorem splayStep_bfree {S : Type} [SttView S] {s s2 : S} {v : Nat}
    (hw : WF (SttView.core s))
    (hbf : ∀ a c, anc (SttView.core s) a v → (SttView.core s).parent a = some c →
      (SttView.core s).canRotate a = true)
    (h : splayStep s v = some s2) :
    ∀ a c, anc (SttView.core s2) a v → (SttView.core s2).parent a = some c →
      (SttView.core s2).canRotate a = true := by
  unfold splayStep at h
  cases hp : vParent s v with
  | none => rw [hp] at h; exact Option.noConfusion h
  | some p =>
    rw [hp] at h
    simp only [Option.bind_eq_bind, Option.some_bind] at h
    have hpx : (SttView.core s).parent v = some p := hp
    have hvp : v ≠ p := (rotDistinct _ hw.toWFb hpx).1
    have hl1v : (SttView.core s).canRotate v = true := hbf v p (anc_refl _ v) hpx
    have hpv2 : anc (SttView.core s) p v := anc_step _ (anc_refl _ v) hpx
    by_cases hd : vIsDirectSep s v = true
    · -- two rotations at `v` itself
      rw [if_pos hd] at h
      cases hr1 : SttView.rotate s v with
      | none => rw [hr1] at h; exact Option.noConfusion h
      | some s1 =>
        rw [hr1] at h
        simp only [Option.bind_eq_bind, Option.some_bind] at h
        have hdx : (SttView.core s).dsep p = some v := by
          have hd2 : (SttView.core s).isDirectSep v = true := hd
          simp only [STT.isDirectSep, hpx, decide_eq_true_eq] at hd2
          exact hd2
        obtain ⟨-, q, hq, hcore1⟩ := rotate_core_spec hw.toWFb hr1
        rw [hpx] at hq
        obtain rfl := Option.some.inj hq
        have hw1 : WF (SttView.core s1) := by
          rw [hcore1]
          exact WF_rotateSpec _ hw hpx hl1v
        cases hg : (SttView.core s).parent p with
        | none =>
          exfalso
          obtain ⟨p2, hp2, -⟩ := rotate_core_at h
          rw [hcore1, rotateSpec_parent, if_neg hvp, if_pos rfl, hg] at hp2
          exact Option.noConfusion hp2
        | some g =>
          have hgx : g ≠ v := ((rotDistinct _ hw.toWFb hpx).2.1 g hg).1
          have hgp : g ≠ p := ((rotDistinct _ hw.toWFb hpx).2.1 g hg).2
          have hdxg : (SttView.core s).dsep v ≠ some g := by
            intro hcon
            exact ((rotDistinct _ hw.toWFb hpx).2.2 g hcon).2.2 g hg rfl
          have hgv2 : anc (SttView.core s) g v := anc_step _ hpv2 hg
          have hpx1 : (SttView.core s1).parent v = some g := by
            rw [hcore1, rotateSpec_parent, if_neg hvp, if_pos rfl]
            exact hg
          have hpsome : ((SttView.core s).parent p).isSome = true := by
            rw [hg]
            rfl
          have hds1v : (SttView.core s1).dsep v = (SttView.core s).isep v := by
            rw [hcore1, rotateSpec_dsep, if_neg hvp, if_pos rfl, if_pos hpsome, if_pos hdx]
          have hl2 : (SttView.core s1).canRotate v = true := by
            rw [canRotate_iff _ hpx1]
            rcases Bool.eq_false_or_eq_true ((SttView.core s).isSep p) with hsp | hsp
            · left
              rw [isSep_iff _ hpx1]
              have hdg1 : (SttView.core s1).dsep g =
                  (if (SttView.core s).dsep g = some p then some v
                   else (SttView.core s).dsep g) := by
                rw [hcore1, rotateSpec_dsep, if_neg hgp, if_neg hgx, if_neg hdxg, if_pos hg]
              have hig1 : (SttView.core s1).isep g =
                  (if (SttView.core s).dsep g ≠ some p ∧ (SttView.core s).isep g = some p
                   then some v else (SttView.core s).isep g) := by
                rw [hcore1, rotateSpec_isep, if_neg hgp, if_neg hgx, if_neg hdxg, if_pos hg]
              rcases (isSep_iff _ hg).mp hsp with hdgp | higp
              · left
                rw [hdg1, if_pos hdgp]
              · right
                rw [hig1, if_pos ⟨fun hcon => hw.toWFb.dsIsNe g p hcon higp, higp⟩]
            · right
              have hsg : (SttView.core s).isSep g = false := by
                have hcr := hbf p g hpv2 hg
                rw [canRotate_iff _ hg] at hcr
                rcases hcr with h5 | h5
                · rw [hsp] at h5
                  exact Bool.noConfusion h5
                · exact h5
              rw [hcore1, isSep_rotateSpec_far _ hw hpx hl1v hgp hgx hdxg]
              exact hsg
          obtain ⟨-, q2, hq2, hcore2⟩ := rotate_core_spec hw1.toWFb h
          rw [hpx1] at hq2
          obtain rfl := Option.some.inj hq2
          have hw2 : WF (SttView.core s2) := by
            rw [hcore2]
            exact WF_rotateSpec _ hw1 hpx1 hl2
          have hvg : v ≠ g := Ne.symm hgx
          have hpp1 : (SttView.core s1).parent p = some v := by
            rw [hcore1, rotateSpec_parent, if_pos rfl]
          have hds1vp : (SttView.core s1).dsep v ≠ some p := by
            rw [hds1v]
            intro hcon
            have h8 := hw.toWFb.isCoh v p hcon
            rw [hg] at h8
            exact hgx (Option.some.inj h8)
          have hpp2 : (SttView.core s2).parent p = some v := by
            rw [hcore2, rotateSpec_parent, if_neg (Ne.symm hgp), if_neg (Ne.symm hvp),
              if_neg hds1vp]
            exact hpp1
          have hpg2 : (SttView.core s2).parent g = some v := by
            rw [hcore2, rotateSpec_parent, if_pos rfl]
          intro a c hav2 hpac2
          have hav1 : anc (SttView.core s1) a v :=
            anc_rotateSpec_to _ hw1.toWFb hpx1 (anc_refl _ v) a (hcore2 ▸ hav2)
          have hav0 : anc (SttView.core s) a v :=
            anc_rotateSpec_to _ hw.toWFb hpx (anc_refl _ v) a (hcore1 ▸ hav1)
          by_cases hc1 : a = v
          · subst hc1
            have hpg1 : (SttView.core s1).parent g = (SttView.core s).parent g := by
              rw [hcore1, rotateSpec_parent, if_neg hgp, if_neg hgx, if_neg hdxg]
            have hp2v : (SttView.core s2).parent a = (SttView.core s).parent g := by
              rw [hcore2, rotateSpec_parent, if_neg hvg, if_pos rfl, hpg1]
            have hgc : (SttView.core s).parent g = some c := by
              rw [← hp2v]
              exact hpac2
            rw [canRotate_iff _ hpac2]
            have hcp : c ≠ p := by
              intro hcon
              rw [hcon] at hgc
              exact parent2_cycle_absurd _ (hw.toWFb.acyc p) hg hgc
            have hcv : c ≠ a := by
              intro hcon
              rw [hcon] at hgc
              exact parent3_cycle_absurd _ (hw.toWFb.acyc a) hpx hg hgc
            have hcg : c ≠ g := by
              intro hcon
              rw [hcon] at hgc
              exact parent_self_absurd _ (hw.toWFb.acyc g) hgc
            have hdxc : (SttView.core s).dsep a ≠ some c := by
              intro hcon
              exact parent4_cycle_absurd _ (hw.toWFb.acyc a) hpx hg hgc
                (hw.toWFb.dsCoh a c hcon)
            have hds1vc : (SttView.core s1).dsep a ≠ some c := by
              rw [hds1v]
              intro hcon
              exact parent4_cycle_absurd _ (hw.toWFb.acyc a) hpx hg hgc
                (hw.toWFb.isCoh a c hcon)
            have hpgc : (SttView.core s).parent p ≠ some c := by
              rw [hg]
              intro hcon
              exact hcg (Option.some.inj hcon).symm
            have hds1c : (SttView.core s1).dsep c = (SttView.core s).dsep c := by
              rw [hcore1, rotateSpec_dsep, if_neg hcp, if_neg hcv, if_neg hdxc, if_neg hpgc]
            have his1c : (SttView.core s1).isep c = (SttView.core s).isep c := by
              rw [hcore1, rotateSpec_isep, if_neg hcp, if_neg hcv, if_neg hdxc, if_neg hpgc]
            have hcrg := hbf g c hgv2 hgc
            rw [canRotate_iff _ hgc] at hcrg
            have hpg1c : (SttView.core s1).parent g = some c := by
              rw [hpg1]
              exact hgc
            rcases hcrg with hsg | hsc
            · left
              rcases (isSep_iff _ hgc).mp hsg with hdcg | hicg
              · refine isSep_of_dsep _ hpac2 ?_
                rw [hcore2, rotateSpec_dsep, if_neg hcg, if_neg hcv, if_neg hds1vc,
                  if_pos hpg1c, hds1c, if_pos hdcg]
              · refine isSep_of_isep _ hpac2 ?_
                have hdcg2 : (SttView.core s).dsep c ≠ some g :=
                  fun hcon => hw.toWFb.dsIsNe c g hcon hicg
                rw [hcore2, rotateSpec_isep, if_neg hcg, if_neg hcv, if_neg hds1vc,
                  if_pos hpg1c,
                  if_pos ⟨by rw [hds1c]; exact hdcg2, by rw [his1c]; exact hicg⟩]
            · right
              have hs1c : (SttView.core s1).isSep c = (SttView.core s).isSep c := by
                rw [hcore1, isSep_rotateSpec_far _ hw hpx hl1v hcp hcv hdxc]
              rw [hcore2, isSep_rotateSpec_far _ hw1 hpx1 hl2 hcg hcv hds1vc, hs1c]
              exact hsc
          · by_cases hc2 : a = p
            · exfalso
              subst hc2
              exact anc_parent_absurd _ hw2.toWFb.acyc hpp2 hav2
            · by_cases hc3 : a = g
              · exfalso
                subst hc3
                exact anc_parent_absurd _ hw2.toWFb.acyc hpg2 hav2
              · have hap : anc (SttView.core s) a p := anc_strict_parent _ hav0 hc1 hpx
                have hdxa : (SttView.core s).dsep v ≠ some a := by
                  intro hcon
                  exact anc_parent_absurd _ hw.toWFb.acyc (hw.toWFb.dsCoh v a hcon) hav0
                have hds1va : (SttView.core s1).dsep v ≠ some a := by
                  rw [hds1v]
                  intro hcon
                  exact anc_parent_absurd _ hw.toWFb.acyc (hw.toWFb.isCoh v a hcon) hav0
                have hpa1 : (SttView.core s1).parent a = (SttView.core s).parent a := by
                  rw [hcore1, rotateSpec_parent, if_neg hc2, if_neg hc1, if_neg hdxa]
                have hpa2 : (SttView.core s2).parent a = (SttView.core s1).parent a := by
                  rw [hcore2, rotateSpec_parent, if_neg hc3, if_neg hc1, if_neg hds1va]
                have hpa0 : (SttView.core s).parent a = some c := by
                  rw [← hpa1, ← hpa2]
                  exact hpac2
                have hacv : anc (SttView.core s) c v := anc_step _ hav0 hpa0
                have hcp : c ≠ p := by
                  intro hcon
                  rw [hcon] at hpa0
                  exact hc1
                    (anc_child_unique _ hw.toWFb.acyc hpa0 hpx hav0 (anc_refl _ v))
                have hcv' : c ≠ v := by
                  intro hcon
                  rw [hcon] at hpa0
                  exact anc_parent_absurd _ hw.toWFb.acyc hpa0 hav0
                have hcg : c ≠ g := by
                  intro hcon
                  rw [hcon] at hpa0
                  exact hc2 (anc_child_unique _ hw.toWFb.acyc hpa0 hg hav0 hpv2)
                have hdxc : (SttView.core s).dsep v ≠ some c := by
                  intro hcon
                  exact anc_parent_absurd _ hw.toWFb.acyc (hw.toWFb.dsCoh v c hcon) hacv
                have hds1vc : (SttView.core s1).dsep v ≠ some c := by
                  rw [hds1v]
                  intro hcon
                  exact anc_parent_absurd _ hw.toWFb.acyc (hw.toWFb.isCoh v c hcon) hacv
                rw [hcore2,
                  canRotate_rotateSpec_far _ hw1 hpx1 hl2 hc3 hc1 hds1va
                    (by
                      intro b hb
                      rw [hpa1, hpa0] at hb
                      obtain rfl := Option.some.inj hb
                      exact ⟨hcg, hcv', hds1vc⟩),
                  hcore1,
                  canRotate_rotateSpec_far _ hw hpx hl1v hc2 hc1 hdxa
                    (by
                      intro b hb
                      rw [hpa0] at hb
                      obtain rfl := Option.some.inj hb
                      exact ⟨hcp, hcv', hdxc⟩)]
                exact hbf a c hav0 hpa0
    · -- rotation at `v`'s parent, then at `v`
      rw [if_neg hd] at h
      cases hr1 : SttView.rotate s p with
      | none => rw [hr1] at h; exact Option.noConfusion h
      | some s1 =>
        rw [hr1] at h
        simp only [Option.bind_eq_bind, Option.some_bind] at h
        have hnd : (SttView.core s).dsep p ≠ some v := by
          intro hcon
          exact hd (by simp [vIsDirectSep, STT.isDirectSep, hpx, hcon])
        obtain ⟨-, g, hg, hcore1⟩ := rotate_core_spec hw.toWFb hr1
        have hpg : p ≠ g := (rotDistinct _ hw.toWFb hg).1
        have hvg : v ≠ g := by
          intro hcon
          rw [hcon] at hpx
          exact parent2_cycle_absurd _ (hw.toWFb.acyc p) hg hpx
        have hngv : (SttView.core s).parent g ≠ some v := by
          intro hcon
          exact parent3_cycle_absurd _ (hw.toWFb.acyc v) hpx hg hcon
        have hl1 : (SttView.core s).canRotate p = true := hbf p g hpv2 hg
        have hw1 : WF (SttView.core s1) := by
          rw [hcore1]
          exact WF_rotateSpec _ hw hg hl1
        have hpx1 : (SttView.core s1).parent v = some p := by
          rw [hcore1, rotateSpec_parent, if_neg hvg, if_neg hvp, if_neg hnd]
          exact hpx
        have hds1v : (SttView.core s1).dsep v = (SttView.core s).dsep v := by
          rw [hcore1, rotateSpec_dsep, if_neg hvg, if_neg hvp, if_neg hnd, if_neg hngv]
        have hpp1g : (SttView.core s1).parent p = (SttView.core s).parent g := by
          rw [hcore1, rotateSpec_parent, if_neg hpg, if_pos rfl]
        have hl2 : (SttView.core s1).canRotate v = true := by
          rw [canRotate_iff _ hpx1]
          have hcrv := hl1v
          rw [canRotate_iff _ hpx] at hcrv
          rcases hcrv with hsv | hsp
          · left
            rcases (isSep_iff _ hpx).mp hsv with hdpv | hipv
            · exact absurd hdpv hnd
            · rw [isSep_iff _ hpx1]
              by_cases hcond : ((SttView.core s).parent g).isSome = true ∧
                  (SttView.core s).dsep g = some p
              · left
                rw [hcore1, rotateSpec_dsep, if_neg hpg, if_pos rfl, if_pos hcond.1,
                  if_pos hcond.2]
                exact hipv
              · right
                rw [hcore1, rotateSpec_isep, if_neg hpg, if_pos rfl, if_neg hcond]
                exact hipv
          · right
            have hcrp := hl1
            rw [canRotate_iff _ hg] at hcrp
            have hsg : (SttView.core s).isSep g = false := by
              rcases hcrp with h5 | h5
              · rw [hsp] at h5
                exact Bool.noConfusion h5
              · exact h5
            cases hgg : (SttView.core s).parent g with
            | none => exact isSep_root _ (by rw [hpp1g, hgg])
            | some gg =>
              have hggp : gg ≠ p := by
                intro hcon
                rw [hcon] at hgg
                exact parent2_cycle_absurd _ (hw.toWFb.acyc p) hg hgg
              have hdpgg : (SttView.core s).dsep p ≠ some gg := by
                intro hcon
                exact parent3_cycle_absurd _ (hw.toWFb.acyc gg)
                  (hw.toWFb.dsCoh p gg hcon) hg hgg
              have hdsgg : (SttView.core s).dsep gg ≠ some g := by
                intro hcon
                rw [isSep_of_dsep _ hgg hcon] at hsg
                exact Bool.noConfusion hsg
              have hisgg : (SttView.core s).isep gg ≠ some g := by
                intro hcon
                rw [isSep_of_isep _ hgg hcon] at hsg
                exact Bool.noConfusion hsg
              have hggne : gg ≠ g := by
                intro hcon
                rw [hcon] at hgg
                exact parent_self_absurd _ (hw.toWFb.acyc g) hgg
              have hdgg1 : (SttView.core s1).dsep gg = (SttView.core s).dsep gg := by
                rw [hcore1, rotateSpec_dsep, if_neg hggne, if_neg hggp, if_neg hdpgg,
                  if_pos hgg, if_neg hdsgg]
              have higg1 : (SttView.core s1).isep gg = (SttView.core s).isep gg := by
                rw [hcore1, rotateSpec_isep, if_neg hggne, if_neg hggp, if_neg hdpgg,
                  if_pos hgg, if_neg (fun hcon => hisgg hcon.2)]
              rcases Bool.eq_false_or_eq_true ((SttView.core s1).isSep p) with hsp1 | hsp1
              · exfalso
                have hpp1gg : (SttView.core s1).parent p = some gg := by
                  rw [hpp1g, hgg]
                rcases (isSep_iff _ hpp1gg).mp hsp1 with h7 | h7
                · rw [hdgg1] at h7
                  have h8 := hw.toWFb.dsCoh gg p h7
                  rw [hg] at h8
                  exact hggne (Option.some.inj h8).symm
                · rw [higg1] at h7
                  have h8 := hw.toWFb.isCoh gg p h7
                  rw [hg] at h8
                  exact hggne (Option.some.inj h8).symm
              · exact hsp1
        obtain ⟨-, q2, hq2, hcore2⟩ := rotate_core_spec hw1.toWFb h
        rw [hpx1] at hq2
        obtain rfl := Option.some.inj hq2
        have hw2 : WF (SttView.core s2) := by
          rw [hcore2]
          exact WF_rotateSpec _ hw1 hpx1 hl2
        have hpp2 : (SttView.core s2).parent p = some v := by
          rw [hcore2, rotateSpec_parent, if_pos rfl]
        have hpg1 : (SttView.core s1).parent g = some p := by
          rw [hcore1, rotateSpec_parent, if_pos rfl]
        intro a c hav2 hpac2
        have hav1 : anc (SttView.core s1) a v :=
          anc_rotateSpec_to _ hw1.toWFb hpx1 (anc_refl _ v) a (hcore2 ▸ hav2)
        have hav0 : anc (SttView.core s) a v :=
          anc_rotateSpec_to _ hw.toWFb hg hpv2 a (hcore1 ▸ hav1)
        by_cases hc1 : a = v
        · subst hc1
          have hp2v : (SttView.core s2).parent a = (SttView.core s).parent g := by
            rw [hcore2, rotateSpec_parent, if_neg hvp, if_pos rfl, hpp1g]
          have hgc : (SttView.core s).parent g = some c := by
            rw [← hp2v]
            exact hpac2
          rw [canRotate_iff _ hpac2]
          have hcp : c ≠ p := by
            intro hcon
            rw [hcon] at hgc
            exact parent2_cycle_absurd _ (hw.toWFb.acyc p) hg hgc
          have hcg : c ≠ g := by
            intro hcon
            rw [hcon] at hgc
            exact parent_self_absurd _ (hw.toWFb.acyc g) hgc
          have hcv' : c ≠ a := by
            intro hcon
            rw [hcon] at hgc
            exact parent3_cycle_absurd _ (hw.toWFb.acyc a) hpx hg hgc
          have hdpc : (SttView.core s).dsep p ≠ some c := by
            intro hcon
            exact parent3_cycle_absurd _ (hw.toWFb.acyc c)
              (hw.toWFb.dsCoh p c hcon) hg hgc
          have hds0vc : (SttView.core s).dsep a ≠ some c := by
            intro hcon
            exact parent4_cycle_absurd _ (hw.toWFb.acyc a) hpx hg hgc
              (hw.toWFb.dsCoh a c hcon)
          have hds1vc : (SttView.core s1).dsep a ≠ some c := by
            rw [hds1v]
            exact hds0vc
          have hpp1c : (SttView.core s1).parent p = some c := by
            rw [hpp1g]
            exact hgc
          have hds1c : (SttView.core s1).dsep c =
              (if (SttView.core s).dsep c = some g then some p
               else (SttView.core s).dsep c) := by
            rw [hcore1, rotateSpec_dsep, if_neg hcg, if_neg hcp, if_neg hdpc, if_pos hgc]
          have his1c : (SttView.core s1).isep c =
              (if (SttView.core s).dsep c ≠ some g ∧ (SttView.core s).isep c = some g
               then some p else (SttView.core s).isep c) := by
            rw [hcore1, rotateSpec_isep, if_neg hcg, if_neg hcp, if_neg hdpc, if_pos hgc]
          have hcrg := hbf g c (anc_step _ hpv2 hg) hgc
          rw [canRotate_iff _ hgc] at hcrg
          rcases hcrg with hsg | hsc
          · left
            rcases (isSep_iff _ hgc).mp hsg with hdcg | hicg
            · refine isSep_of_dsep _ hpac2 ?_
              rw [hcore2, rotateSpec_dsep, if_neg hcp, if_neg hcv', if_neg hds1vc,
                if_pos hpp1c, hds1c, if_pos hdcg, if_pos rfl]
            · refine isSep_of_isep _ hpac2 ?_
              have hdcg2 : (SttView.core s).dsep c ≠ some g :=
                fun hcon => hw.toWFb.dsIsNe c g hcon hicg
              have hdscp : (SttView.core s).dsep c ≠ some p := by
                intro hcon
                have h8 := hw.toWFb.dsCoh c p hcon
                rw [hg] at h8
                exact hcg (Option.some.inj h8).symm
              rw [hcore2, rotateSpec_isep, if_neg hcp, if_neg hcv', if_neg hds1vc,
                if_pos hpp1c,
                if_pos ⟨by rw [hds1c, if_neg hdcg2]; exact hdscp,
                  by rw [his1c, if_pos ⟨hdcg2, hicg⟩]⟩]
          · right
            have hs1c : (SttView.core s1).isSep c = (SttView.core s).isSep c := by
              rw [hcore1, isSep_rotateSpec_far _ hw hg hl1 hcg hcp hdpc]
            rw [hcore2, isSep_rotateSpec_far _ hw1 hpx1 hl2 hcp hcv' hds1vc, hs1c]
            exact hsc
        · by_cases hc2 : a = p
          · exfalso
            subst hc2
            exact anc_parent_absurd _ hw2.toWFb.acyc hpp2 hav2
          · by_cases hc3 : a = g
            · exfalso
              subst hc3
              have hds1vg : (SttView.core s1).dsep v ≠ some a := by
                rw [hds1v]
                intro hcon
                exact parent3_cycle_absurd _ (hw.toWFb.acyc v) hpx hg
                  (hw.toWFb.dsCoh v a hcon)
              have hpg2 : (SttView.core s2).parent a = some p := by
                rw [hcore2, rotateSpec_parent, if_neg (Ne.symm hpg), if_neg (Ne.symm hvg),
                  if_neg hds1vg]
                exact hpg1
              exact anc_parent_absurd _ hw2.toWFb.acyc hpp2 (anc_step _ hav2 hpg2)
            · have hap : anc (SttView.core s) a p := anc_strict_parent _ hav0 hc1 hpx
              have hdpa : (SttView.core s).dsep p ≠ some a := by
                intro hcon
                exact hc1 (anc_child_unique _ hw.toWFb.acyc
                  (hw.toWFb.dsCoh p a hcon) hpx hav0 (anc_refl _ v))
              have hds0va : (SttView.core s).dsep v ≠ some a := by
                intro hcon
                exact anc_parent_absurd _ hw.toWFb.acyc (hw.toWFb.dsCoh v a hcon) hav0
              have hds1va : (SttView.core s1).dsep v ≠ some a := by
                rw [hds1v]
                exact hds0va
              have hpa1 : (SttView.core s1).parent a = (SttView.core s).parent a := by
                rw [hcore1, rotateSpec_parent, if_neg hc3, if_neg hc2, if_neg hdpa]
              have hpa2 : (SttView.core s2).parent a = (SttView.core s1).parent a := by
                rw [hcore2, rotateSpec_parent, if_neg hc2, if_neg hc1, if_neg hds1va]
              have hpa0 : (SttView.core s).parent a = some c := by
                rw [← hpa1, ← hpa2]
                exact hpac2
              have hacv : anc (SttView.core s) c v := anc_step _ hav0 hpa0
              have hcp : c ≠ p := by
                intro hcon
                rw [hcon] at hpa0
                exact hc1
                  (anc_child_unique _ hw.toWFb.acyc hpa0 hpx hav0 (anc_refl _ v))
              have hcv' : c ≠ v := by
                intro hcon
                rw [hcon] at hpa0
                exact anc_parent_absurd _ hw.toWFb.acyc hpa0 hav0
              have hcg : c ≠ g := by
                intro hcon
                rw [hcon] at hpa0
                exact hc2 (anc_child_unique _ hw.toWFb.acyc hpa0 hg hav0 hpv2)
              have hdpc : (SttView.core s).dsep p ≠ some c := by
                intro hcon
                have h9 := anc_child_unique _ hw.toWFb.acyc
                  (hw.toWFb.dsCoh p c hcon) hpx hacv (anc_refl _ v)
                rw [h9] at hcon
                exact hnd hcon
              have hds0vc : (SttView.core s).dsep v ≠ some c := by
                intro hcon
                exact anc_parent_absurd _ hw.toWFb.acyc (hw.toWFb.dsCoh v c hcon) hacv
              have hds1vc : (SttView.core s1).dsep v ≠ some c := by
                rw [hds1v]
                exact hds0vc
              rw [hcore2,
                canRotate_rotateSpec_far _ hw1 hpx1 hl2 hc2 hc1 hds1va
                  (by
                    intro b hb
                    rw [hpa1, hpa0] at hb
                    obtain rfl := Option.some.inj hb
                    exact ⟨hcp, hcv', hds1vc⟩),
                hcore1,
                canRotate_rotateSpec_far _ hw hg hl1 hc3 hc2 hdpa
                  (by
                    intro b hb
                    rw [hpa0] at hb
                    obtain rfl := Option.some.inj hb
                    exact ⟨hcg, hcp, hdpc⟩)]
              exact hbf a c hav0 hpa0

/-- The second pass of `StableTwoPassSplayStrategy::node_to_root`
preserves well-formedness and the stability invariant and brings `v` to
the root, provided the whole root path of `v` permits rotations. -/
theorem stpSecond_inv {S : Type} [SttView S] : ∀ (fuel : Nat) (s s' : S) (u v : Nat),
    WF (SttView.core s) → pathClean (SttView.core s) u → topOnly (SttView.core s) u v →
    (∀ a c, anc (SttView.core s) a v → (SttView.core s).parent a = some c →
      (SttView.core s).canRotate a = true) →
    stpSecond fuel s v = some s' →
    WF (SttView.core s') ∧ pathClean (SttView.core s') u ∧
      (SttView.core s').parent v = none := by
  intro fuel
  induction fuel with
  | zero => intro s s' u v _ _ _ _ h; exact Option.noConfusion h
  | succ fuel ih =>
    intro s s' u v hw hbc hc hbf h
    rw [stpSecond] at h
    cases hp : vParent s v with
    | none =>
      simp only [hp] at h
      obtain rfl := Option.some.inj h
      exact ⟨hw, hbc, hp⟩
    | some p =>
      simp only [hp] at h
      have hpx : (SttView.core s).parent v = some p := hp
      cases hg : vParent s p with
      | none =>
        simp only [hg] at h
        have hl : (SttView.core s).canRotate v = true := hbf v p (anc_refl _ v) hpx
        obtain ⟨hw1, hbc1, -, -, -⟩ :=
          rotate_inv hw h hl (anc_refl _ v) hbc hc
            (fun q hq hroot c hdc hcv => hS2_dsep_self _ hw.toWFb c hdc hcv)
        exact ⟨hw1, hbc1, rotate_root_parent hw.toWFb hp hg h⟩
      | some g =>
        simp only [hg] at h
        cases hsp : splayStep s v with
        | none => rw [hsp] at h; exact Option.noConfusion h
        | some s1 =>
          rw [hsp] at h
          simp only [Option.bind_eq_bind, Option.some_bind] at h
          obtain ⟨hw1, hbc1, hc1, -, -⟩ :=
            splayStep_inv hw hbc hc (anc_refl _ v)
              (by
                intro p3 g3 hp3 hg3
                right
                constructor
                · have h5 := hbf v p3 (anc_refl _ v) hp3
                  rw [canRotate_iff _ hp3] at h5
                  exact h5
                · have h5 := hbf p3 g3 (anc_step _ (anc_refl _ v) hp3) hg3
                  rw [canRotate_iff _ hg3] at h5
                  exact h5)
              (fun p3 g3 hp3 hg3 hroot e hpe hev =>
                (anc_parent_absurd _ hw.toWFb.acyc hpe hev).elim)
              hsp
          exact ih s1 s' u v hw1 hbc1 hc1 (splayStep_bfree hw hbf hsp) h

/-- `StableTwoPassSplayStrategy::node_to_root` preserves well-formedness
and the stability invariant and makes `v` a root. -/
theorem stpNtr_inv {S : Type} [SttView S] (fuel : Nat) (s s' : S) (u v : Nat)
    (hw : WF (SttView.core s)) (hbc : pathClean (SttView.core s) u)
    (hc : topOnly (SttView.core s) u v)
    (h : stpNtr fuel s v = some s') :
    WF (SttView.core s') ∧ pathClean (SttView.core s') u ∧
      (SttView.core s').parent v = none := by
  rw [stpNtr] at h
  cases hfn : findNextBranching fuel s v with
  | none => rw [hfn] at h; exact Option.noConfusion h
  | some ob =>
    rw [hfn] at h
    simp only [Option.bind_eq_bind, Option.some_bind] at h
    cases ob with
    | none =>
      simp only [Option.bind_eq_bind, Option.some_bind] at h
      exact stpSecond_inv fuel s s' u v hw hbc hc
        (findNextBranching_none_bfree fuel s v hfn) h
    | some b =>
      replace h : Option.bind (stpFirstFrom fuel s b)
          (fun y => stpSecond fuel y v) = some s' := h
      cases hff : stpFirstFrom fuel s b with
      | none => rw [hff] at h; exact Option.noConfusion h
      | some s1 =>
        rw [hff] at h
        simp only [Option.some_bind] at h
        obtain ⟨w0, hw0v, hw0p, hw0sep, hbsep, hseg0⟩ :=
          findNextBranching_some_facts fuel s v b hw.toWFb hfn
        obtain ⟨hw1, hbc1, hc1, hbf1⟩ :=
          stpFirstFrom_inv fuel s s1 b u v w0 hw hbc hc hw0p hw0v hw0sep hbsep hseg0 hff
        exact stpSecond_inv fuel s1 s' u v hw1 hbc1 hc1 hbf1 h

theorem exC4stt_wf : WF exC4stt :=
  WF_of_dec (by decide) (outClean_ofLists _ _ _ (by decide) (by decide))

/-- **C4.** For every stable node-to-root strategy implementation
(`MoveToRootStrategy`, `GreedySplayStrategy`, `StableTwoPassSplayStrategy`,
`StableLocalTwoPassSplayStrategy`), every well-formed 2-cut STT whose root
is `u`, and every node `v ≠ u` of the same STT: whenever `node_to_root(v)`
returns, `v` is the root and `u` as well as every STT-ancestor of `u` is a
non-separator (1-cut). -/
theorem c4_stable_ntr_stability {S : Type} [SttView S] (fuel : Nat) (s : S) (u v : Nat)
    (hw : WF (SttView.core s)) (hu : (SttView.core s).parent u = none)
    (hne : v ≠ u) (huv : anc (SttView.core s) u v) :
    (∀ s', mtrNtr fuel s v = some s' →
      vParent s' v = none ∧ pathClean (SttView.core s') u) ∧
    (∀ s', greedyNtr fuel s v = some s' →
      vParent s' v = none ∧ pathClean (SttView.core s') u) ∧
    (∀ s', stpNtr fuel s v = some s' →
      vParent s' v = none ∧ pathClean (SttView.core s') u) ∧
    (∀ s', sltpNtr fuel s v = some s' →
      vParent s' v = none ∧ pathClean (SttView.core s') u) := by
  have hbc : pathClean (SttView.core s) u := by
    intro a ha
    rw [anc_root _ hu ha]
    exact isSep_root _ hu
  have hc : topOnly (SttView.core s) u v := by
    intro a hau hav hne2
    rw [anc_root _ hu hau]
    exact hu
  refine ⟨?_, ?_, ?_, ?_⟩
  · intro s' h
    obtain ⟨-, hbc', -⟩ := mtrNtr_inv fuel s s' u v hw hbc hc h
    exact ⟨(mtrNtr_rootwf fuel s s' v hw.toWFb h).1, hbc'⟩
  · intro s' h
    have h2 : greedyMoveTo fuel s v SplayTarget.root = some s' := h
    obtain ⟨-, hbc', -⟩ := greedyMoveTo_inv fuel s s' u v hw hbc hc h2
    exact ⟨(greedyMoveTo_rootwf fuel s s' v hw.toWFb h2).1, hbc'⟩
  · intro s' h
    obtain ⟨-, hbc', hroot⟩ := stpNtr_inv fuel s s' u v hw hbc hc h
    exact ⟨hroot, hbc'⟩
  · intro s' h
    obtain ⟨-, hbc', -⟩ := sltpNtr_inv fuel s s' u v hw hbc hc h
    exact ⟨(sltpNtr_rootwf fuel s s' v hw.toWFb h).1, hbc'⟩

/-- **C4** — witness: the stability theorem applied to the concrete
three-node chain `exC4stt` with root `u = 2` and target `v = 0`; all four
strategies succeed on it with fuel 8. -/
theorem c4_stable_ntr_stability_witness :
    WF (SttView.core exC4stt) ∧ (SttView.core exC4stt).parent 2 = none ∧
      (0 : Nat) ≠ 2 ∧ anc (SttView.core exC4stt) 2 0 ∧
      ((∀ s', mtrNtr 8 exC4stt 0 = some s' →
          vParent s' 0 = none ∧ pathClean (SttView.core s') 2) ∧
        (∀ s', greedyNtr 8 exC4stt 0 = some s' →
          vParent s' 0 = none ∧ pathClean (SttView.core s') 2) ∧
        (∀ s', stpNtr 8 exC4stt 0 = some s' →
          vParent s' 0 = none ∧ pathClean (SttView.core s') 2) ∧
        (∀ s', sltpNtr 8 exC4stt 0 = some s' →
          vParent s' 0 = none ∧ pathClean (SttView.core s') 2)) ∧
      (mtrNtr 8 exC4stt 0).isSome = true ∧ (greedyNtr 8 exC4stt 0).isSome = true ∧
      (stpNtr 8 exC4stt 0).isSome = true ∧ (sltpNtr 8 exC4stt 0).isSome = true :=
  ⟨exC4stt_wf, rfl, by decide, ⟨2, by decide⟩,
    c4_stable_ntr_stability 8 exC4stt 2 0 exC4stt_wf rfl (by decide) ⟨2, by decide⟩,
    by decide, by decide, by decide, by decide⟩

end SttRs
